import Mathlib

/-!
# GTA IMG archive engine: a shallow embedding

The development embeds `src/js/img-entry.js` (class `IMGEntry`) and
`src/js/img-archive.js` (class `IMGArchive`) as Lean functions and proves
properties of the archive operations.

Modelling conventions

* A `Uint8Array` is a `List Byte` with `Byte = Fin 256`.
* A JavaScript string is the list of its UTF-16 code units (`JSString`), so
  that `length`, `substring` and equality are exact.  `TextEncoder.encode`
  (UTF-8) and `TextDecoder('ascii').decode` (the windows-1252 decoder that the
  label `ascii` selects) are written out.  `String.prototype.toLowerCase` is a
  parameter `toLowerCase` of every operation that calls it.
* JavaScript numbers are natural numbers; `setUint32` reduces modulo `2^32`.
* `IMGEntry` instances are objects shared between the entry table and the
  name index, so the archive carries an object store `heap` and the table and
  the index hold references (`Ref`).
* An operation that can throw returns a `Res`, which carries the state the
  archive is left in on both the normal and the exceptional exit.
* `_imgData` is never `null` once `createArchive` or `openArchive` has
  returned, so it is a plain list; `_dirData` can be `null` and is an `Option`.
  `_fileName` and the browser download code play no role and are left out.
-/

namespace IMGTool

/-! ## Bytes and typed arrays -/

abbrev Byte := Fin 256

/-- The byte holding `n` modulo 256 (a typed-array element store). -/
def byteOfNat (n : Nat) : Byte := ⟨n % 256, Nat.mod_lt _ (by decide)⟩

/-- Fresh zero-filled array, `new Uint8Array(n)`. -/
def zeros (n : Nat) : List Byte := List.replicate n 0

/-- `target.set(src, offset)` on typed arrays: `none` stands for the
`RangeError` raised when the source does not fit. -/
def setBytes (target src : List Byte) (offset : Nat) : Option (List Byte) :=
  if offset + src.length > target.length then none
  else some (target.take offset ++ src ++ target.drop (offset + src.length))

/-- `data.slice(start, stop)` for `0 ≤ start`, with the clamping of
`TypedArray.prototype.slice`. -/
def slice (data : List Byte) (start stop : Nat) : List Byte :=
  (data.take stop).drop start

/-- `DataView.getUint32(pos, true)`: little-endian read.  Every call site
guards the four bytes to be inside the view. -/
def getUint32 (data : List Byte) (pos : Nat) : Nat :=
  (data.getD pos 0).val + 256 * (data.getD (pos + 1) 0).val +
    65536 * (data.getD (pos + 2) 0).val + 16777216 * (data.getD (pos + 3) 0).val

/-- The four bytes `DataView.setUint32(_, v, true)` stores: `v` modulo
`2^32`, little-endian. -/
def uint32Bytes (v : Nat) : List Byte :=
  [byteOfNat (v % 4294967296), byteOfNat (v % 4294967296 / 256),
   byteOfNat (v % 4294967296 / 65536), byteOfNat (v % 4294967296 / 16777216)]

/-! ## Strings -/

/-- A JavaScript string: its UTF-16 code units. -/
abbrev JSString := List Nat

/-- UTF-8 bytes of one scalar value. -/
def utf8OfScalar (c : Nat) : List Byte :=
  if c < 128 then [byteOfNat c]
  else if c < 2048 then [byteOfNat (192 + c / 64), byteOfNat (128 + c % 64)]
  else if c < 65536 then
    [byteOfNat (224 + c / 4096), byteOfNat (128 + c / 64 % 64), byteOfNat (128 + c % 64)]
  else
    [byteOfNat (240 + c / 262144), byteOfNat (128 + c / 4096 % 64),
     byteOfNat (128 + c / 64 % 64), byteOfNat (128 + c % 64)]

/-- A lone surrogate is replaced by U+FFFD before encoding. -/
def scalarOfUnit (u : Nat) : Nat :=
  if 55296 ≤ u ∧ u < 57344 then 65533 else u

/-- `new TextEncoder().encode(s)`: UTF-8 of the UTF-16 code units. -/
def textEncode : JSString → List Byte
  | [] => []
  | [u] => utf8OfScalar (scalarOfUnit u)
  | u :: v :: rest =>
    if 55296 ≤ u ∧ u < 56320 ∧ 56320 ≤ v ∧ v < 57344 then
      utf8OfScalar (65536 + (u - 55296) * 1024 + (v - 56320)) ++ textEncode rest
    else utf8OfScalar (scalarOfUnit u) ++ textEncode (v :: rest)

/-- The windows-1252 code point of the bytes 0x80 to 0x9F. -/
def cp1252High : List Nat :=
  [8364, 129, 8218, 402, 8222, 8230, 8224, 8225, 710, 8240, 352, 8249, 338, 141, 381, 143,
   144, 8216, 8217, 8220, 8221, 8226, 8211, 8212, 732, 8482, 353, 8250, 339, 157, 382, 376]

/-- `new TextDecoder('ascii').decode(bytes)`: the label `ascii` selects the
windows-1252 decoder, which is the identity below 0x80 and from 0xA0 on. -/
def textDecode (bytes : List Byte) : JSString :=
  bytes.map fun b =>
    if 128 ≤ b.val ∧ b.val < 160 then cp1252High.getD (b.val - 128) b.val else b.val

/-- ASCII lower-casing, the restriction of `toLowerCase` to ASCII strings;
used to instantiate the `toLowerCase` parameter on concrete inputs. -/
def asciiLower (s : JSString) : JSString :=
  s.map fun u => if 65 ≤ u ∧ u ≤ 90 then u + 32 else u

/-! ## Errors and results -/

/-- The exceptions the archive code can raise. -/
inductive IMGError where
  | readOnly
  | nameTooLong
  | reserveFailed
  | outOfBounds
  | notFound
  | tooLarge
  | rangeError
  | typeError
  deriving DecidableEq, Repr

/-- Outcome of an operation on a state `σ`: a value or a thrown error,
together with the state the object is left in. -/
inductive Res (σ α : Type) where
  | ok (val : α) (state : σ)
  | throw (err : IMGError) (state : σ)

/-- The state an operation leaves behind. -/
def Res.state {σ α : Type} : Res σ α → σ
  | .ok _ s => s
  | .throw _ s => s

/-- The returned value, if the operation returned. -/
def Res.val? {σ α : Type} : Res σ α → Option α
  | .ok v _ => some v
  | .throw _ _ => none

/-- The thrown error, if the operation threw. -/
def Res.err? {σ α : Type} : Res σ α → Option IMGError
  | .ok _ _ => none
  | .throw e _ => some e

/-! ## `IMGEntry` (src/js/img-entry.js) -/

def MAX_NAME_LENGTH : Nat := 23
def NAME_FIELD_SIZE : Nat := 24
def BLOCK_SIZE : Nat := 2048
def ENTRY_SIZE : Nat := 32

structure IMGEntry where
  offset : Nat
  size : Nat
  nameBytes : Option (List Byte)
  _name : JSString
  deriving DecidableEq

/-- The object `new IMGEntry()` builds. -/
def IMGEntry.new : IMGEntry := { offset := 0, size := 0, nameBytes := none, _name := [] }

instance : Inhabited IMGEntry := ⟨IMGEntry.new⟩

/-- Getter `name`. -/
def IMGEntry.name (e : IMGEntry) : JSString :=
  if e._name ≠ [] then e._name
  else match e.nameBytes with
    | none => []
    | some nb => textDecode (nb.takeWhile fun b => b ≠ 0)

/-- The name field after the clearing loop of the setter: a fresh 24-byte
field when there was none, else the first 24 positions zeroed in place. -/
def clearedNameBytes (nb : Option (List Byte)) : List Byte :=
  match nb with
  | none => zeros NAME_FIELD_SIZE
  | some b => zeros (min NAME_FIELD_SIZE b.length) ++ b.drop NAME_FIELD_SIZE

/-- Setter `name`.  `nameBytes.set(encoded)` raises a `RangeError` when the
UTF-8 encoding of the first 23 code units is longer than the field; the
object is then left with the new `_name` and a cleared field. -/
def IMGEntry.setName (e : IMGEntry) (value : JSString) : Res IMGEntry Unit :=
  let e1 : IMGEntry := { e with _name := value, nameBytes := some (clearedNameBytes e.nameBytes) }
  if value ≠ [] then
    match setBytes (clearedNameBytes e.nameBytes) (textEncode (value.take MAX_NAME_LENGTH)) 0 with
    | none => .throw .rangeError e1
    | some nb => .ok () { e1 with nameBytes := some nb }
  else .ok () e1

/-- The UTF-8 encoding of the first 23 code units of `value` fits the 24-byte
name field, that is, the setter does not raise on a fresh entry. -/
def nameFits (value : JSString) : Prop :=
  (textEncode (value.take MAX_NAME_LENGTH)).length ≤ NAME_FIELD_SIZE

instance : DecidablePred nameFits := fun value =>
  inferInstanceAs (Decidable ((textEncode (value.take MAX_NAME_LENGTH)).length ≤ NAME_FIELD_SIZE))

/-- Closed form of the object that `new IMGEntry()` followed by the stores to
`offset`, `size` and `name` yields when the name fits. -/
def namedEntry (offset size : Nat) (name : JSString) : IMGEntry :=
  { offset := offset, size := size, _name := name,
    nameBytes := some (textEncode (name.take MAX_NAME_LENGTH) ++
      zeros (NAME_FIELD_SIZE - (textEncode (name.take MAX_NAME_LENGTH)).length)) }

/-- The name field of the entry, when present, has its 24 bytes.  Every name
field the code creates does: `new Uint8Array(24)` in the setter and the
24-byte slice of a whole record in `_readEntry`. -/
def IMGEntry.fieldOk (e : IMGEntry) : Prop :=
  ∀ nb, e.nameBytes = some nb → nb.length = NAME_FIELD_SIZE

/-- Getter `sizeInBytes`. -/
def IMGEntry.sizeInBytes (e : IMGEntry) : Nat := e.size * BLOCK_SIZE

/-- Getter `offsetInBytes`. -/
def IMGEntry.offsetInBytes (e : IMGEntry) : Nat := e.offset * BLOCK_SIZE

/-- Static `blocksToBytes`. -/
def blocksToBytes (blocks : Nat) : Nat := blocks * BLOCK_SIZE

/-- Static `bytesToBlocks`, `Math.ceil(bytes / BLOCK_SIZE)` on a natural
number of bytes. -/
def bytesToBlocks (bytes : Nat) : Nat := (bytes + (BLOCK_SIZE - 1)) / BLOCK_SIZE

/-! ## `IMGArchive` (src/js/img-archive.js): state -/

inductive IMGVersion where
  | VER1
  | VER2
  deriving DecidableEq, Repr

inductive IMGMode where
  | READ_ONLY
  | READ_WRITE
  deriving DecidableEq, Repr

/-- Reference to an `IMGEntry` object. -/
abbrev Ref := Nat

structure IMGArchive where
  _imgData : List Byte
  _dirData : Option (List Byte)
  _entries : List Ref
  _entryMap : List (JSString × Ref)
  _version : IMGVersion
  _headerReservedSpace : Nat
  _mode : IMGMode
  _hasUnsavedChanges : Bool
  heap : Ref → IMGEntry
  nextRef : Nat

/-! ### `Map` with insertion order -/

/-- `Map.prototype.get`. -/
def mapGet {ν : Type} (m : List (JSString × ν)) (k : JSString) : Option ν :=
  match m with
  | [] => none
  | (k1, v) :: rest => if k1 = k then some v else mapGet rest k

/-- `Map.prototype.has`. -/
def mapHas {ν : Type} (m : List (JSString × ν)) (k : JSString) : Bool :=
  (mapGet m k).isSome

/-- `Map.prototype.set`: an existing key keeps its position. -/
def mapSet {ν : Type} (m : List (JSString × ν)) (k : JSString) (v : ν) : List (JSString × ν) :=
  match m with
  | [] => [(k, v)]
  | (k1, v1) :: rest => if k1 = k then (k, v) :: rest else (k1, v1) :: mapSet rest k v

/-- `Map.prototype.delete`. -/
def mapDelete {ν : Type} (m : List (JSString × ν)) (k : JSString) : List (JSString × ν) :=
  m.filter fun p => p.1 ≠ k

/-! ### Object store -/

/-- The store after the objects `es` have been created at the references
`next, next + 1, ...`. -/
def allocAll (heap : Ref → IMGEntry) (next : Nat) (es : List IMGEntry) : Ref → IMGEntry :=
  fun (r : Nat) => if next ≤ r ∧ r < next + es.length then es.getD (r - next) default else heap r

/-- The store after the object at `r` has been replaced by `e`. -/
def heapSet (heap : Ref → IMGEntry) (r : Ref) (e : IMGEntry) : Ref → IMGEntry :=
  fun r1 => if r1 = r then e else heap r1

/-- The entry table as values, in table order (getter `entries`). -/
def IMGArchive.entries (a : IMGArchive) : List IMGEntry := a._entries.map a.heap

/-- Getter `entryCount`. -/
def IMGArchive.entryCount (a : IMGArchive) : Nat := a._entries.length

/-! ### Construction -/

/-- The bytes of the tag `VER2`. -/
def VER2_MAGIC : List Byte := [86, 69, 82, 50]

/-- The fields the constructor sets. -/
def IMGArchive.new : IMGArchive :=
  { _imgData := [], _dirData := none, _entries := [], _entryMap := [],
    _version := .VER1, _headerReservedSpace := 1, _mode := .READ_WRITE,
    _hasUnsavedChanges := false, heap := fun _ => IMGEntry.new, nextRef := 0 }

/-- Static `createArchive(fileName, version)`. -/
def createArchive (version : IMGVersion) : IMGArchive :=
  match version with
  | .VER2 =>
    { IMGArchive.new with
      _version := .VER2,
      _imgData := (setBytes (zeros 8) VER2_MAGIC 0).getD (zeros 8) }
  | .VER1 => { IMGArchive.new with _version := .VER1, _dirData := some [], _imgData := [] }

/-- Static `guessVersion(data)`. -/
def guessVersion (data : List Byte) : IMGVersion :=
  if data.length < 4 then .VER1
  else if slice data 0 4 = VER2_MAGIC then .VER2 else .VER1

/-! ### Accessors -/

/-- Private `_getDataEndOffset`. -/
def _getDataEndOffset (a : IMGArchive) : Nat :=
  if a._entries.length = 0 then a._headerReservedSpace
  else
    let lastEntry := a.heap (a._entries.getD (a._entries.length - 1) 0)
    lastEntry.offset + lastEntry.size

/-- Getter `headerReservedSize`. -/
def IMGArchive.headerReservedSize (a : IMGArchive) : Nat :=
  if a._version = .VER1 then 0
  else if a._entries.length > 0 then (a.heap (a._entries.getD 0 0)).offset
  else 0

/-- Getter `size`. -/
def IMGArchive.size (a : IMGArchive) : Nat :=
  let dataEnd := _getDataEndOffset a
  if a._version = .VER2 then dataEnd
  else dataEnd + bytesToBlocks (a._entries.length * ENTRY_SIZE)

/-- Public `getEntryByName`; `none` is `null`. -/
def getEntryByName (toLowerCase : JSString → JSString) (a : IMGArchive) (name : JSString) :
    Option Ref :=
  mapGet a._entryMap (toLowerCase name)

/-- Public `containsEntry`. -/
def containsEntry (toLowerCase : JSString → JSString) (a : IMGArchive) (name : JSString) :
    Bool :=
  mapHas a._entryMap (toLowerCase name)

/-- The body of `readEntryData` for an entry object: the bounds check and
the slice of the data buffer. -/
def readData (imgData : List Byte) (e : IMGEntry) : Except IMGError (List Byte) :=
  let start := e.offsetInBytes
  let length := e.sizeInBytes
  if start + length > imgData.length then .error .outOfBounds
  else .ok (slice imgData start (start + length))

/-- Public `readEntryData(entry)`; a `null` entry gives `null`. -/
def readEntryData (a : IMGArchive) (entry : Option Ref) : Except IMGError (Option (List Byte)) :=
  match entry with
  | none => .ok none
  | some r =>
    match readData a._imgData (a.heap r) with
    | .error e => .error e
    | .ok d => .ok (some d)

/-- Public `readEntryDataByName`. -/
def readEntryDataByName (toLowerCase : JSString → JSString) (a : IMGArchive) (name : JSString) :
    Except IMGError (Option (List Byte)) :=
  readEntryData a (getEntryByName toLowerCase a name)

/-! ### Private helpers -/

/-- Private `_ensureImgSize(targetBlocks)`. -/
def _ensureImgSize (a : IMGArchive) (targetBlocks : Nat) : IMGArchive :=
  let targetBytes := targetBlocks * BLOCK_SIZE
  if a._imgData.length < targetBytes then
    { a with _imgData := (setBytes (zeros targetBytes) a._imgData 0).getD (zeros targetBytes) }
  else a

/-- Private `_reserveHeaderSpace(numHeaders)`: the returned flag and the
archive with the new reserved header value. -/
def _reserveHeaderSpace (a : IMGArchive) (numHeaders : Nat) : Bool × IMGArchive :=
  let bytesToReserve := numHeaders * ENTRY_SIZE + (if a._version = .VER2 then 8 else 0)
  let reservedSize := blocksToBytes a.headerReservedSize
  let a1 := { a with _headerReservedSpace := bytesToBlocks bytesToReserve }
  if reservedSize = 0 ∨ bytesToReserve ≤ reservedSize then (true, a1)
  else (true, a1)

/-! ### Mutating operations -/

/-- Public `addEntry(name, data)`.  The returned reference is the new entry
object. -/
def addEntry (toLowerCase : JSString → JSString) (a : IMGArchive) (name : JSString)
    (data : List Byte) : Res IMGArchive Ref :=
  if a._mode = .READ_ONLY then .throw .readOnly a
  else if name.length > MAX_NAME_LENGTH then .throw .nameTooLong a
  else
    let a1 := (_reserveHeaderSpace a (a._entries.length + 1)).2
    if (_reserveHeaderSpace a (a._entries.length + 1)).1 = false then .throw .reserveFailed a1
    else
      let sizeInBlocks := bytesToBlocks data.length
      let offset := _getDataEndOffset a1
      match IMGEntry.setName { IMGEntry.new with offset := offset, size := sizeInBlocks } name with
      | .throw err _ => .throw err a1
      | .ok _ entry =>
        let r := a1.nextRef
        let a2 : IMGArchive :=
          { a1 with
            heap := heapSet a1.heap r entry, nextRef := r + 1,
            _entries := a1._entries ++ [r],
            _entryMap := mapSet a1._entryMap (toLowerCase name) r }
        let newSize := offset + sizeInBlocks
        let a3 := _ensureImgSize a2 newSize
        let dataStart := entry.offsetInBytes
        let dataEnd := dataStart + data.length
        match setBytes a3._imgData data dataStart with
        | none => .throw .rangeError a3
        | some img1 =>
          let paddingStart := dataEnd
          let paddingEnd := (offset + sizeInBlocks) * BLOCK_SIZE
          if paddingEnd > paddingStart then
            match setBytes img1 (zeros (paddingEnd - paddingStart)) paddingStart with
            | none => .throw .rangeError { a3 with _imgData := img1 }
            | some img2 => .ok r { a3 with _imgData := img2, _hasUnsavedChanges := true }
          else .ok r { a3 with _imgData := img1, _hasUnsavedChanges := true }

/-- Public `writeEntryData(name, data)`. -/
def writeEntryData (toLowerCase : JSString → JSString) (a : IMGArchive) (name : JSString)
    (data : List Byte) : Res IMGArchive Unit :=
  if a._mode = .READ_ONLY then .throw .readOnly a
  else
    match getEntryByName toLowerCase a name with
    | none => .throw .notFound a
    | some r =>
      let entry := a.heap r
      let maxSize := entry.sizeInBytes
      if data.length > maxSize then .throw .tooLarge a
      else
        let start := entry.offsetInBytes
        match setBytes a._imgData data start with
        | none => .throw .rangeError a
        | some img1 =>
          let remaining := maxSize - data.length
          if remaining > 0 then
            match setBytes img1 (zeros remaining) (start + data.length) with
            | none => .throw .rangeError { a with _imgData := img1 }
            | some img2 => .ok () { a with _imgData := img2, _hasUnsavedChanges := true }
          else .ok () { a with _imgData := img1, _hasUnsavedChanges := true }

/-- Public `removeEntry(name)`. -/
def removeEntry (toLowerCase : JSString → JSString) (a : IMGArchive) (name : JSString) :
    Res IMGArchive Bool :=
  if a._mode = .READ_ONLY then .throw .readOnly a
  else
    let lowerName := toLowerCase name
    match a._entries.findIdx? (fun r => toLowerCase (a.heap r).name = lowerName) with
    | none => .ok false a
    | some index =>
      .ok true
        { a with
          _entries := a._entries.eraseIdx index,
          _entryMap := mapDelete a._entryMap lowerName,
          _hasUnsavedChanges := true }

/-- Public `renameEntry(oldName, newName)`. -/
def renameEntry (toLowerCase : JSString → JSString) (a : IMGArchive)
    (oldName newName : JSString) : Res IMGArchive Unit :=
  if a._mode = .READ_ONLY then .throw .readOnly a
  else if newName.length > MAX_NAME_LENGTH then .throw .nameTooLong a
  else
    match getEntryByName toLowerCase a oldName with
    | none => .throw .notFound a
    | some r =>
      let a1 := { a with _entryMap := mapDelete a._entryMap (toLowerCase oldName) }
      match IMGEntry.setName (a1.heap r) newName with
      | .throw err e1 => .throw err { a1 with heap := heapSet a1.heap r e1 }
      | .ok _ e1 =>
        .ok ()
          { a1 with
            heap := heapSet a1.heap r e1,
            _entryMap := mapSet a1._entryMap (toLowerCase newName) r,
            _hasUnsavedChanges := true }

/-! ### `pack` -/

/-- First loop of `pack`: `entryData.set(entry.name, this.readEntryData(entry))`
for each table entry, stopping at the first out-of-bounds entry. -/
def packRead (imgData : List Byte) :
    List IMGEntry → List (JSString × List Byte) → Except IMGError (List (JSString × List Byte))
  | [], entryData => .ok entryData
  | entry :: rest, entryData =>
    match readData imgData entry with
    | .error e => .error e
    | .ok d => packRead imgData rest (mapSet entryData entry.name d)

/-- Second loop of `pack`: the new entry objects with their offsets, and the
final `currentOffset`; `none` when a name setter raises its `RangeError`. -/
def packLayout : Nat → List IMGEntry → Option (List IMGEntry × Nat)
  | currentOffset, [] => some ([], currentOffset)
  | currentOffset, entry :: rest =>
    match IMGEntry.setName { IMGEntry.new with offset := currentOffset, size := entry.size }
        entry.name with
    | .throw _ _ => none
    | .ok _ newEntry =>
      match packLayout (currentOffset + entry.size) rest with
      | none => none
      | some (newEntries, endOffset) => some (newEntry :: newEntries, endOffset)

/-- The index rebuilt from a table: `set(entry.name.toLowerCase(), entry)` for
each reference in order. -/
def rebuildMap (toLowerCase : JSString → JSString) (heap : Ref → IMGEntry) :
    List Ref → List (JSString × Ref) → List (JSString × Ref)
  | [], m => m
  | r :: rest, m => rebuildMap toLowerCase heap rest (mapSet m (toLowerCase (heap r).name) r)

/-- Last loop of `pack`: every payload is stored at its entry's new offset and
padded to the block boundary.  Returns the buffer at the exit of the loop and
the error that ended it, if any. -/
def packWrite (entryData : List (JSString × List Byte)) :
    List IMGEntry → List Byte → List Byte × Option IMGError
  | [], img => (img, none)
  | entry :: rest, img =>
    match mapGet entryData entry.name with
    | none => (img, some .typeError)
    | some data =>
      let start := entry.offsetInBytes
      match setBytes img data start with
      | none => (img, some .rangeError)
      | some img1 =>
        let padding := entry.sizeInBytes - data.length
        if padding > 0 then
          match setBytes img1 (zeros padding) (start + data.length) with
          | none => (img1, some .rangeError)
          | some img2 => packWrite entryData rest img2
        else packWrite entryData rest img1

/-- Public `pack()`. -/
def pack (toLowerCase : JSString → JSString) (a : IMGArchive) : Res IMGArchive Nat :=
  if a._mode = .READ_ONLY then .throw .readOnly a
  else if a._entries.length = 0 then .ok a._headerReservedSpace a
  else
    match packRead a._imgData a.entries [] with
    | .error e => .throw e a
    | .ok entryData =>
      let headerSize :=
        bytesToBlocks (a._entries.length * ENTRY_SIZE + (if a._version = .VER2 then 8 else 0))
      match packLayout headerSize a.entries with
      | none => .throw .rangeError a
      | some (newEntries, currentOffset) =>
        let refs := List.range' a.nextRef newEntries.length
        let heap1 := allocAll a.heap a.nextRef newEntries
        let a1 : IMGArchive :=
          { a with
            heap := heap1, nextRef := a.nextRef + newEntries.length,
            _entries := refs,
            _entryMap := rebuildMap toLowerCase heap1 refs [] }
        let a2 := _ensureImgSize a1 currentOffset
        match packWrite entryData a2.entries a2._imgData with
        | (img, some e) => .throw e { a2 with _imgData := img }
        | (img, none) =>
          let a3 : IMGArchive :=
            { a2 with
              _imgData := img, _headerReservedSpace := headerSize, _hasUnsavedChanges := true }
          .ok (_getDataEndOffset a3) a3

/-! ### Serialising the header -/

/-- One iteration of a header-writing loop at byte position `pos` of `buf`:
`setUint32(0, offset)`, `setUint32(4, size)` and, when the entry has a name
field, `set(nameBytes, pos + 8)`.  The flag is `false` when a store is out of
range; the buffer is the one reached at that point. -/
def writeRecord (buf : List Byte) (pos : Nat) (entry : IMGEntry) : List Byte × Bool :=
  match setBytes buf (uint32Bytes entry.offset) pos with
  | none => (buf, false)
  | some b1 =>
    match setBytes b1 (uint32Bytes entry.size) (pos + 4) with
    | none => (b1, false)
    | some b2 =>
      match entry.nameBytes with
      | none => (b2, true)
      | some nb =>
        match setBytes b2 nb (pos + 8) with
        | none => (b2, false)
        | some b3 => (b3, true)

/-- The loop `for (i = 0; i < entries.length; i++)` of `_rewriteHeaderSection`,
from index `i` on, with records starting at byte `base`. -/
def writeRecords (base : Nat) : List Byte → Nat → List IMGEntry → List Byte × Bool
  | buf, _, [] => (buf, true)
  | buf, i, entry :: rest =>
    match writeRecord buf (base + i * ENTRY_SIZE) entry with
    | (b, false) => (b, false)
    | (b, true) => writeRecords base b (i + 1) rest

/-- Private `_rewriteHeaderSection()`. -/
def _rewriteHeaderSection (a : IMGArchive) : Res IMGArchive Unit :=
  if a._version = .VER2 then
    let headerSize := 8 + a._entries.length * ENTRY_SIZE
    let a1 := _ensureImgSize a headerSize
    match setBytes (zeros headerSize) VER2_MAGIC 0 with
    | none => .throw .rangeError a1
    | some h1 =>
      match setBytes h1 (uint32Bytes a1._entries.length) 4 with
      | none => .throw .rangeError a1
      | some h2 =>
        match writeRecords 8 h2 0 a1.entries with
        | (_, false) => .throw .rangeError a1
        | (header, true) =>
          match setBytes a1._imgData header 0 with
          | none => .throw .rangeError a1
          | some img => .ok () { a1 with _imgData := img }
  else
    let wanted := a._entries.length * ENTRY_SIZE
    let dir0 : List Byte :=
      match a._dirData with
      | none => zeros wanted
      | some d => if d.length < wanted then (setBytes (zeros wanted) d 0).getD (zeros wanted) else d
    match writeRecords 0 dir0 0 a.entries with
    | (d, false) => .throw .rangeError { a with _dirData := some d }
    | (d, true) =>
      if d.length > wanted then .ok () { a with _dirData := some (slice d 0 wanted) }
      else .ok () { a with _dirData := some d }

/-- Public `sync()`. -/
def sync (a : IMGArchive) : Res IMGArchive Unit :=
  if a._mode = .READ_ONLY then .ok () a
  else
    match _rewriteHeaderSection a with
    | .throw e a1 => .throw e a1
    | .ok _ a1 => .ok () { a1 with _hasUnsavedChanges := false }

/-! ### Parsing the header -/

/-- Private `_readEntry(data, offset)`. -/
def _readEntry (data : List Byte) (offset : Nat) : IMGEntry :=
  { offset := getUint32 data offset,
    size := getUint32 data (offset + 4),
    nameBytes := some (slice data (offset + 8) (offset + 8 + NAME_FIELD_SIZE)),
    _name := [] }

/-- The records the loop of `_readHeaderVer2` reads, from index `i` on, with
`remaining = numEntries - i` iterations left. -/
def readRecordsVer2 (data : List Byte) : Nat → Nat → List IMGEntry
  | 0, _ => []
  | remaining + 1, i =>
    let pos := 8 + i * ENTRY_SIZE
    if pos + ENTRY_SIZE > data.length then []
    else _readEntry data pos :: readRecordsVer2 data remaining (i + 1)

/-- The records the loop of `_readHeaderVer1` reads from byte `pos` on; the
loop ends when `pos + 32` passes the end of the buffer, which happens within
`fuel = data.length` iterations. -/
def readRecordsVer1 (data : List Byte) : Nat → Nat → List IMGEntry
  | 0, _ => []
  | fuel + 1, pos =>
    if pos + ENTRY_SIZE ≤ data.length then
      _readEntry data pos :: readRecordsVer1 data fuel (pos + ENTRY_SIZE)
    else []

/-- The flag `sorted` after the reading loop has seen `records`, starting from
the flag `sorted` and the last offset `lastOffset`. -/
def sortedFlag : Bool → Nat → List IMGEntry → Bool
  | sorted, _, [] => sorted
  | sorted, lastOffset, entry :: rest =>
    sortedFlag (if entry.offset < lastOffset then false else sorted) entry.offset rest

/-- `entries.sort((a, b) => a.offset - b.offset)` on the table of references:
`Array.prototype.sort` is stable, so it is the stable sort by offset. -/
def sortByOffset (heap : Ref → IMGEntry) (refs : List Ref) : List Ref :=
  refs.insertionSort fun r s => (heap r).offset ≤ (heap s).offset

/-- The common tail of `_readHeaderVer2` and `_readHeaderVer1` once the
records are known: the entry objects are created in file order and entered in
the index, the table is re-sorted when an offset was found to decrease, and
the reserved header value is taken from the first entry. -/
def installRecords (toLowerCase : JSString → JSString) (a : IMGArchive)
    (records : List IMGEntry) : IMGArchive :=
  let refs := List.range' a.nextRef records.length
  let heap1 := allocAll a.heap a.nextRef records
  let sorted := sortedFlag true 0 records
  let map1 := rebuildMap toLowerCase heap1 refs []
  let a1 : IMGArchive :=
    { a with heap := heap1, nextRef := a.nextRef + records.length,
             _entries := refs, _entryMap := map1 }
  let a2 : IMGArchive :=
    if sorted = false ∧ a1._entries.length > 1 then
      { a1 with
        _entries := sortByOffset heap1 refs,
        _entryMap := rebuildMap toLowerCase heap1 (sortByOffset heap1 refs) [] }
    else a1
  if a2._entries.length > 0 then
    { a2 with _headerReservedSpace := (a2.heap (a2._entries.getD 0 0)).offset }
  else { a2 with _headerReservedSpace := 1 }

/-- Private `_readHeaderVer2()`. -/
def _readHeaderVer2 (toLowerCase : JSString → JSString) (a : IMGArchive) : IMGArchive :=
  if a._imgData.length < 8 then
    { a with _entries := [], _entryMap := [], _headerReservedSpace := 1 }
  else
    let numEntries := getUint32 a._imgData 4
    installRecords toLowerCase { a with _entries := [], _entryMap := [] }
      (readRecordsVer2 a._imgData numEntries 0)

/-- Private `_readHeaderVer1()`. -/
def _readHeaderVer1 (toLowerCase : JSString → JSString) (a : IMGArchive) : IMGArchive :=
  match a._dirData with
  | none => { a with _entries := [], _entryMap := [], _headerReservedSpace := 1 }
  | some dir =>
    installRecords toLowerCase { a with _entries := [], _entryMap := [] }
      (readRecordsVer1 dir dir.length 0)

/-- Static `openArchive(file, mode)` on the bytes of the file: a `VER2` tag
selects the unified layout, anything else the split layout without an index
buffer. -/
def openArchive (toLowerCase : JSString → JSString) (data : List Byte) (mode : IMGMode) :
    IMGArchive :=
  match guessVersion data with
  | .VER2 =>
    _readHeaderVer2 toLowerCase
      { IMGArchive.new with _mode := mode, _version := .VER2, _imgData := data }
  | .VER1 =>
    _readHeaderVer1 toLowerCase
      { IMGArchive.new with _mode := mode, _version := .VER1, _imgData := data, _dirData := none }

/-- Static `openArchiveWithDir(imgFile, dirFile)` on the bytes of both files. -/
def openArchiveWithDir (toLowerCase : JSString → JSString) (imgData dirData : List Byte) :
    IMGArchive :=
  _readHeaderVer1 toLowerCase
    { IMGArchive.new with
      _mode := .READ_WRITE, _version := .VER1, _imgData := imgData, _dirData := some dirData }

/-! ### Closed forms used in the proofs -/

/-- Block offset `addEntry` gives a new entry: the data end offset after the
header reservation for one more record. -/
def addOffset (a : IMGArchive) : Nat :=
  _getDataEndOffset (_reserveHeaderSpace a (a._entries.length + 1)).2

/-- Closed form of the data buffer after `addEntry(name, data)`. -/
def addImgData (a : IMGArchive) (data : List Byte) : List Byte :=
  let stop := (addOffset a + bytesToBlocks data.length) * BLOCK_SIZE
  let img := a._imgData ++ zeros (stop - a._imgData.length)
  img.take (addOffset a * BLOCK_SIZE) ++ data ++
    zeros (bytesToBlocks data.length * BLOCK_SIZE - data.length) ++ img.drop stop

/-- Closed form of the archive after a successful `addEntry(name, data)`. -/
def addEntryState (toLowerCase : JSString → JSString) (a : IMGArchive) (name : JSString)
    (data : List Byte) : IMGArchive :=
  { a with
    _headerReservedSpace :=
      bytesToBlocks ((a._entries.length + 1) * ENTRY_SIZE + (if a._version = .VER2 then 8 else 0)),
    heap := heapSet a.heap a.nextRef (namedEntry (addOffset a) (bytesToBlocks data.length) name),
    nextRef := a.nextRef + 1,
    _entries := a._entries ++ [a.nextRef],
    _entryMap := mapSet a._entryMap (toLowerCase name) a.nextRef,
    _imgData := addImgData a data,
    _hasUnsavedChanges := true }


/-- The `(name, payload)` pairs the first loop of `pack` reads. -/
def payloads (imgData : List Byte) (es : List IMGEntry) : List (JSString × List Byte) :=
  es.map fun e => (e.name, slice imgData e.offsetInBytes (e.offsetInBytes + e.sizeInBytes))

/-- `Map.prototype.set` for each pair in turn. -/
def mapSetAll {ν : Type} (m : List (JSString × ν)) (ps : List (JSString × ν)) :
    List (JSString × ν) :=
  ps.foldl (fun acc p => mapSet acc p.1 p.2) m

/-- The value of the last pair with key `k`: what a map filled by `mapSetAll`
from the empty map holds under `k`. -/
def lastValue {ν : Type} : List (JSString × ν) → JSString → Option ν
  | [], _ => none
  | p :: rest, k =>
    match lastValue rest k with
    | some v => some v
    | none => if p.1 = k then some p.2 else none

/-- Closed form of the table `pack` builds from the entries `es` when laid
out from block `currentOffset` on. -/
def layoutFrom : Nat → List IMGEntry → List IMGEntry
  | _, [] => []
  | currentOffset, e :: rest =>
    namedEntry currentOffset e.size e.name :: layoutFrom (currentOffset + e.size) rest

/-- Sum of the block sizes of a table. -/
def totalSize (es : List IMGEntry) : Nat := (es.map fun e => e.size).sum

/-- The header size in blocks `pack` computes. -/
def packHeaderSize (a : IMGArchive) : Nat :=
  bytesToBlocks (a._entries.length * ENTRY_SIZE + (if a._version = .VER2 then 8 else 0))

/-- Closed form of the archive after a successful `pack()` that left the data
buffer `img`. -/
def packState (toLowerCase : JSString → JSString) (a : IMGArchive) (img : List Byte) :
    IMGArchive :=
  { a with
    heap := allocAll a.heap a.nextRef (layoutFrom (packHeaderSize a) a.entries),
    nextRef := a.nextRef + (layoutFrom (packHeaderSize a) a.entries).length,
    _entries := List.range' a.nextRef (layoutFrom (packHeaderSize a) a.entries).length,
    _entryMap :=
      rebuildMap toLowerCase (allocAll a.heap a.nextRef (layoutFrom (packHeaderSize a) a.entries))
        (List.range' a.nextRef (layoutFrom (packHeaderSize a) a.entries).length) [],
    _imgData := img,
    _headerReservedSpace := packHeaderSize a,
    _hasUnsavedChanges := true }

/-- The bytes the last loop of `pack` stores for an entry whose payload is
`data`: the payload and its zero padding. -/
def entryBytes (e : IMGEntry) (data : List Byte) : List Byte :=
  data ++ zeros (e.sizeInBytes - data.length)

/-- Byte position `p` is written by the last loop of `pack` run over `es`
with the payload map `m`. -/
def Covered (m : List (JSString × List Byte)) (es : List IMGEntry) (p : Nat) : Prop :=
  ∃ e ∈ es, ∃ data, mapGet m e.name = some data ∧
    e.offsetInBytes ≤ p ∧ p < e.offsetInBytes + (entryBytes e data).length

/-- Every entry's block range lies inside the buffer `imgData`. -/
def InBounds (imgData : List Byte) (es : List IMGEntry) : Prop :=
  ∀ e ∈ es, e.offsetInBytes + e.sizeInBytes ≤ imgData.length

/-- Every entry's name fits the name field. -/
def NamesFit (es : List IMGEntry) : Prop := ∀ e ∈ es, nameFits e.name

instance (imgData : List Byte) (es : List IMGEntry) : Decidable (InBounds imgData es) :=
  inferInstanceAs (Decidable (∀ e ∈ es, e.offsetInBytes + e.sizeInBytes ≤ imgData.length))

instance (es : List IMGEntry) : Decidable (NamesFit es) :=
  inferInstanceAs (Decidable (∀ e ∈ es, nameFits e.name))

/-- The order of the comparator `(a, b) => a.offset - b.offset`. -/
def offsetLE (x y : IMGEntry) : Prop := x.offset ≤ y.offset

instance : DecidableRel offsetLE := fun x y => inferInstanceAs (Decidable (x.offset ≤ y.offset))

instance : IsTotal IMGEntry offsetLE := ⟨fun x y => Nat.le_total x.offset y.offset⟩

instance : IsTrans IMGEntry offsetLE := ⟨fun _ _ _ h1 h2 => Nat.le_trans h1 h2⟩

/-- The records `_readHeaderVer2` reads from the data buffer, in file order. -/
def recordsVer2 (imgData : List Byte) : List IMGEntry :=
  if imgData.length < 8 then [] else readRecordsVer2 imgData (getUint32 imgData 4) 0

/-- The records `_readHeaderVer1` reads from the index buffer, in file order. -/
def recordsVer1 (dirData : Option (List Byte)) : List IMGEntry :=
  match dirData with
  | none => []
  | some dir => readRecordsVer1 dir dir.length 0

/-! ### Sequences of calls -/

/-- A call of one of the six mutating operations of `IMGArchive`, with its
arguments. -/
inductive Call where
  | addEntry (name : JSString) (data : List Byte)
  | writeEntryData (name : JSString) (data : List Byte)
  | removeEntry (name : JSString)
  | renameEntry (oldName newName : JSString)
  | pack
  | sync

/-- The archive a call leaves behind, whether it returns or raises. -/
def runCall (toLowerCase : JSString → JSString) (a : IMGArchive) : Call → IMGArchive
  | .addEntry name data => (addEntry toLowerCase a name data).state
  | .writeEntryData name data => (writeEntryData toLowerCase a name data).state
  | .removeEntry name => (removeEntry toLowerCase a name).state
  | .renameEntry oldName newName => (renameEntry toLowerCase a oldName newName).state
  | .pack => (pack toLowerCase a).state
  | .sync => (sync a).state

/-- The archives reachable from `createArchive` (either layout) by a sequence
of calls, each of which satisfies `allowed` in the state it is made in. -/
inductive ReachableBy (toLowerCase : JSString → JSString)
    (allowed : IMGArchive → Call → Prop) : IMGArchive → Prop where
  | create (version : IMGVersion) : ReachableBy toLowerCase allowed (createArchive version)
  | step {a : IMGArchive} (c : Call) (h : ReachableBy toLowerCase allowed a)
      (hc : allowed a c) : ReachableBy toLowerCase allowed (runCall toLowerCase a c)

/-- No restriction on the calls. -/
def anyCall (_ : IMGArchive) (_ : Call) : Prop := True

/-- The caller never introduces a name the table already has: `addEntry` is
not given a name equal, ignoring case, to the name of a table entry, and
`renameEntry` is not given a new name equal, ignoring case, to the name of a
table entry other than the one it renames. -/
def tableGuard (toLowerCase : JSString → JSString) (a : IMGArchive) : Call → Prop
  | .addEntry name _ => ∀ r ∈ a._entries, toLowerCase (a.heap r).name ≠ toLowerCase name
  | .renameEntry oldName newName =>
    ∀ r ∈ a._entries, some r ≠ getEntryByName toLowerCase a oldName →
      toLowerCase (a.heap r).name ≠ toLowerCase newName
  | _ => True

/-- The caller checks `containsEntry` first, as `app.js` does: `addEntry` is
only called with a name for which `containsEntry` is false, and `renameEntry`
only with a new name that fits the name field and for which `containsEntry`
is false or that is a case variant of the old name. -/
def indexGuard (toLowerCase : JSString → JSString) (a : IMGArchive) : Call → Prop
  | .addEntry name _ => containsEntry toLowerCase a name = false
  | .renameEntry oldName newName =>
    (toLowerCase newName = toLowerCase oldName ∨ containsEntry toLowerCase a newName = false) ∧
      nameFits newName
  | _ => True

/-- Every reference in the table was handed out before `nextRef`: the next
object created is not yet in the table. -/
def FreshRefs (a : IMGArchive) : Prop := ∀ r ∈ a._entries, r < a.nextRef

/-- The names of the table entries, lower-cased, in table order. -/
def lowerNames (toLowerCase : JSString → JSString) (a : IMGArchive) : List JSString :=
  a._entries.map fun r => toLowerCase (a.heap r).name

/-- The index agrees with the table: no reference occurs twice in the table,
every key of the index leads to a table entry whose lower-cased name is the
key, every table entry is found under its lower-cased name, and every table
entry's name field has its 24 bytes. -/
def IndexOk (toLowerCase : JSString → JSString) (a : IMGArchive) : Prop :=
  a._entries.Nodup ∧
  (∀ k r, mapGet a._entryMap k = some r → r ∈ a._entries ∧ toLowerCase (a.heap r).name = k) ∧
  (∀ r ∈ a._entries, mapGet a._entryMap (toLowerCase (a.heap r).name) = some r) ∧
  (∀ r ∈ a._entries, (a.heap r).fieldOk)

/-- Entry `f` starts at or after the block where entry `e` ends. -/
def startsAfter (e f : IMGEntry) : Prop := e.offset + e.size ≤ f.offset

instance : DecidableRel startsAfter :=
  fun e f => inferInstanceAs (Decidable (e.offset + e.size ≤ f.offset))

instance : IsTrans IMGEntry startsAfter :=
  ⟨fun _ _ _ h1 h2 => Nat.le_trans h1 (Nat.le_trans (Nat.le_add_right _ _) h2)⟩

/-- The bytes one iteration of a header-writing loop stores for an entry:
offset, size and, when the entry has one, the name field. -/
def recordBytes (e : IMGEntry) : List Byte :=
  uint32Bytes e.offset ++ uint32Bytes e.size ++ e.nameBytes.getD []

/-- The records of a table, one after the other. -/
def recordsBytes : List IMGEntry → List Byte
  | [] => []
  | e :: rest => recordBytes e ++ recordsBytes rest

/-- The header of the unified layout for a table: tag, count, records. -/
def headerBytes (es : List IMGEntry) : List Byte :=
  VER2_MAGIC ++ uint32Bytes es.length ++ recordsBytes es

/-- The entry has a name field of 24 bytes, as every entry object has once
`_readEntry` or the name setter has run on it. -/
def IMGEntry.hasField (e : IMGEntry) : Prop :=
  e.nameBytes.map List.length = some NAME_FIELD_SIZE

instance : DecidablePred IMGEntry.hasField := fun e =>
  inferInstanceAs (Decidable (e.nameBytes.map List.length = some NAME_FIELD_SIZE))

/-- The entry object is as the code leaves it: with a 24-byte name field
and either no cached name (after `_readEntry`) or the cached name that the
name setter encoded into the field. -/
def IMGEntry.coherent (e : IMGEntry) : Prop :=
  e.hasField ∧
  (e._name = [] ∨
    e.nameBytes = some (textEncode (e._name.take MAX_NAME_LENGTH) ++
      zeros (NAME_FIELD_SIZE - (textEncode (e._name.take MAX_NAME_LENGTH)).length)))

instance : DecidablePred IMGEntry.coherent := fun e =>
  inferInstanceAs (Decidable (e.hasField ∧
    (e._name = [] ∨
      e.nameBytes = some (textEncode (e._name.take MAX_NAME_LENGTH) ++
        zeros (NAME_FIELD_SIZE - (textEncode (e._name.take MAX_NAME_LENGTH)).length)))))

/-- What `_readEntry` reads back from the record of an entry: the offset and
the size modulo `2^32`, the name field, and no cached name. -/
def reparsed (e : IMGEntry) : IMGEntry :=
  { offset := e.offset % 4294967296, size := e.size % 4294967296,
    nameBytes := e.nameBytes, _name := [] }

/-- What a listing shows of an entry: name, offset and size. -/
def entryTriple (e : IMGEntry) : JSString × Nat × Nat := (e.name, e.offset, e.size)

/-- The name `f00`, `f01`, ... of the `k`-th entry of `addSequence`. -/
def seqName (k : Nat) : JSString := [102, 48 + k / 10, 48 + k % 10]

/-- The archive after `createArchive` (unified layout) and `k` calls
`addEntry(seqName i, [1])`, `i = 0, ..., k - 1`. -/
def addSequence : Nat → IMGArchive
  | 0 => createArchive .VER2
  | k + 1 => runCall asciiLower (addSequence k) (.addEntry (seqName k) [1])

/-- A 40-byte unified file with one record: offset 5, size 0, name `a`. -/
def sparseFile : List Byte :=
  [86, 69, 82, 50, 1, 0, 0, 0, 5, 0, 0, 0, 0, 0, 0, 0, 97] ++ zeros 23

/-- The archive opened from `sparseFile` for writing, after
`removeEntry('a')`: an empty table whose reserved header value is 5. -/
def sparseArchive : IMGArchive :=
  runCall asciiLower (openArchive asciiLower sparseFile .READ_WRITE) (.removeEntry [97])

/-! ### Concrete inputs -/

/-- The name `a.txt`. -/
def aTxt : JSString := [97, 46, 116, 120, 116]

/-- The name `b.txt`. -/
def bTxt : JSString := [98, 46, 116, 120, 116]

/-- A fresh unified archive after `addEntry('a.txt', d1)`. -/
def scenarioOne (toLowerCase : JSString → JSString) (d1 : List Byte) : IMGArchive :=
  addEntryState toLowerCase (createArchive .VER2) aTxt d1

/-- The archive after the further call `addEntry('b.txt', d2)`. -/
def scenarioTwo (toLowerCase : JSString → JSString) (d1 d2 : List Byte) : IMGArchive :=
  addEntryState toLowerCase (scenarioOne toLowerCase d1) bTxt d2

/-- The archive after the further call `removeEntry('a.txt')`. -/
def scenarioThree (toLowerCase : JSString → JSString) (d1 d2 : List Byte) : IMGArchive :=
  { scenarioTwo toLowerCase d1 d2 with
    _entries := [1],
    _entryMap := mapDelete (scenarioTwo toLowerCase d1 d2)._entryMap (toLowerCase aTxt),
    _hasUnsavedChanges := true }

/-- The scenario archive holding `a.txt` (5000 zero bytes) and `b.txt` (10 zero
bytes), before the removal. -/
def sampleArchive : IMGArchive :=
  scenarioTwo asciiLower (List.replicate 5000 0) (List.replicate 10 0)

/-- A fresh unified archive after `addEntry('Foo', [1, 2, 3])`. -/
def fooArchive : IMGArchive :=
  addEntryState asciiLower (createArchive .VER2) [70, 111, 111] [1, 2, 3]

/-- A 4096-byte unified file with one record: offset 1, size 1, and a name
field holding thirteen bytes 0xE9 (the letter U+00E9 in windows-1252). -/
def latin1File : List Byte :=
  [86, 69, 82, 50, 1, 0, 0, 0, 1, 0, 0, 0, 1, 0, 0, 0,
   233, 233, 233, 233, 233, 233, 233, 233, 233, 233, 233, 233, 233,
   0, 0, 0, 0, 0, 0, 0, 0, 0, 0, 0] ++ zeros 4056

/-- The archive `openArchive` builds from `latin1File`. -/
def latin1Archive : IMGArchive := openArchive asciiLower latin1File .READ_WRITE

/-- A unified file cut off after its header: one record (offset 1, size 1,
name `a`) and none of the payload block it refers to. -/
def truncatedFile : List Byte :=
  [86, 69, 82, 50, 1, 0, 0, 0, 1, 0, 0, 0, 1, 0, 0, 0, 97] ++ zeros 23

/-- The archive `openArchive` builds from `truncatedFile`. -/
def truncatedArchive : IMGArchive := openArchive asciiLower truncatedFile .READ_WRITE

/-- An index buffer of two records: `a` at block 0 (one block) and `b` at
block 1 (two blocks). -/
def twoRecordDir : List Byte :=
  [0, 0, 0, 0, 1, 0, 0, 0, 97] ++ zeros 23 ++ [1, 0, 0, 0, 2, 0, 0, 0, 98] ++ zeros 23

/-! ## Typed-array lemmas -/

theorem getElem?_slice (t : List Byte) (a b i : Nat) :
    (slice t a b)[i]? = if a + i < b then t[a + i]? else none := by
  unfold slice
  rw [List.getElem?_drop, List.getElem?_take]

theorem length_slice (t : List Byte) (a b : Nat) :
    (slice t a b).length = min b t.length - a := by
  simp [slice]

theorem setBytes_eq_some {t s t1 : List Byte} {o : Nat} (h : setBytes t s o = some t1) :
    o + s.length ≤ t.length ∧ t1 = t.take o ++ s ++ t.drop (o + s.length) := by
  unfold setBytes at h
  split at h
  · simp at h
  · simp only [Option.some.injEq] at h
    exact ⟨by omega, h.symm⟩

theorem setBytes_of_le {t s : List Byte} {o : Nat} (h : o + s.length ≤ t.length) :
    setBytes t s o = some (t.take o ++ s ++ t.drop (o + s.length)) := by
  unfold setBytes
  rw [if_neg (by omega)]

theorem length_setBytes {t s t1 : List Byte} {o : Nat} (h : setBytes t s o = some t1) :
    t1.length = t.length := by
  obtain ⟨hle, rfl⟩ := setBytes_eq_some h
  simp
  omega

theorem getElem?_setBytes {t s t1 : List Byte} {o : Nat} (h : setBytes t s o = some t1) (i : Nat) :
    t1[i]? = if i < o then t[i]? else if i < o + s.length then s[i - o]? else t[i]? := by
  obtain ⟨hle, rfl⟩ := setBytes_eq_some h
  have ho : o ≤ t.length := by omega
  by_cases h1 : i < o
  · simp [h1, List.getElem?_append, List.getElem?_take, ho, Nat.min_eq_left ho]
  · by_cases h2 : i < o + s.length
    · have : i - o < s.length := by omega
      simp [h1, h2, List.getElem?_append, List.getElem?_take, ho, Nat.min_eq_left ho, this]
    · have : ¬ (i - o < s.length) := by omega
      simp [h1, h2, List.getElem?_append, List.getElem?_take, ho, Nat.min_eq_left ho, this]
      congr 1
      omega

/-- Reading back exactly the range a store wrote gives the stored bytes. -/
theorem slice_setBytes_self {t s t1 : List Byte} {o : Nat} (h : setBytes t s o = some t1) :
    slice t1 o (o + s.length) = s := by
  apply List.ext_getElem?
  intro i
  rw [getElem?_slice, getElem?_setBytes h]
  by_cases hi : i < s.length
  · have h1 : o + i < o + s.length := by omega
    have h2 : ¬ (o + i < o) := by omega
    simp [h1, h2]
  · have h1 : ¬ (o + i < o + s.length) := by omega
    rw [if_neg h1, List.getElem?_eq_none (by omega)]

/-- A store leaves every range that ends before it unchanged. -/
theorem slice_setBytes_before {t s t1 : List Byte} {o : Nat} (h : setBytes t s o = some t1)
    (a b : Nat) (hb : b ≤ o) : slice t1 a b = slice t a b := by
  apply List.ext_getElem?
  intro i
  rw [getElem?_slice, getElem?_slice, getElem?_setBytes h]
  by_cases hi : a + i < b
  · have : a + i < o := by omega
    simp [hi, this]
  · simp [hi]

/-- A store leaves every range that starts after it unchanged. -/
theorem slice_setBytes_after {t s t1 : List Byte} {o : Nat} (h : setBytes t s o = some t1)
    (a b : Nat) (ha : o + s.length ≤ a) : slice t1 a b = slice t a b := by
  apply List.ext_getElem?
  intro i
  rw [getElem?_slice, getElem?_slice, getElem?_setBytes h]
  have h1 : ¬ (a + i < o) := by omega
  have h2 : ¬ (a + i < o + s.length) := by omega
  simp [h1, h2]

theorem slice_split (t : List Byte) {a b c : Nat} (hab : a ≤ b) (hbc : b ≤ c)
    (hc : c ≤ t.length) : slice t a c = slice t a b ++ slice t b c := by
  apply List.ext_getElem?
  intro i
  rw [List.getElem?_append, length_slice, getElem?_slice, getElem?_slice, getElem?_slice]
  have hmin : min b t.length = b := by omega
  rw [hmin]
  by_cases h1 : i < b - a
  · have h2 : a + i < c := by omega
    have h3 : a + i < b := by omega
    simp [h1, h2, h3]
  · have h3 : ¬ (a + i < b) := by omega
    have e : b + (i - (b - a)) = a + i := by omega
    simp [h1, e]

theorem bytesToBlocks_mul_ge (n : Nat) : n ≤ bytesToBlocks n * BLOCK_SIZE := by
  unfold bytesToBlocks BLOCK_SIZE
  omega

theorem bytesToBlocks_mul_lt (n : Nat) : bytesToBlocks n * BLOCK_SIZE < n + BLOCK_SIZE := by
  unfold bytesToBlocks BLOCK_SIZE
  omega

/-! ## `_ensureImgSize` -/

theorem ensureImgSize_eq (a : IMGArchive) (k : Nat) :
    _ensureImgSize a k =
      { a with _imgData := a._imgData ++ zeros (k * BLOCK_SIZE - a._imgData.length) } := by
  unfold _ensureImgSize
  by_cases h : a._imgData.length < k * BLOCK_SIZE
  · simp only [h, if_true]
    have hle : 0 + a._imgData.length ≤ (zeros (k * BLOCK_SIZE)).length := by
      simp [zeros]; omega
    rw [setBytes_of_le hle]
    simp [zeros, List.drop_replicate]
  · simp only [h, if_false]
    have : k * BLOCK_SIZE - a._imgData.length = 0 := by omega
    simp [this, zeros]

theorem ensureImgSize_length (a : IMGArchive) (k : Nat) :
    (_ensureImgSize a k)._imgData.length = max a._imgData.length (k * BLOCK_SIZE) := by
  rw [ensureImgSize_eq]
  simp [zeros]
  omega


/-! ## The name setter -/

theorem textEncode_nil : textEncode [] = [] := by
  unfold textEncode
  rfl

theorem takeWhile_zeros (n : Nat) : (zeros n).takeWhile (fun b => b ≠ 0) = [] := by
  cases n with
  | zero => rfl
  | succ k => simp [zeros, List.replicate_succ, List.takeWhile]

/-- On a fresh entry the setter succeeds exactly as `namedEntry` describes,
provided the encoded name fits the field. -/
theorem setName_new (offset size : Nat) (value : JSString) (h : nameFits value) :
    IMGEntry.setName { IMGEntry.new with offset := offset, size := size } value =
      .ok () (namedEntry offset size value) := by
  unfold IMGEntry.setName namedEntry
  unfold nameFits at h
  by_cases hv : value = []
  · subst hv
    simp [IMGEntry.new, clearedNameBytes, textEncode_nil, zeros, NAME_FIELD_SIZE]
  · have hle : 0 + (textEncode (value.take MAX_NAME_LENGTH)).length ≤
        (clearedNameBytes none).length := by
      simp [clearedNameBytes, zeros]; omega
    simp only [IMGEntry.new, ne_eq, hv, not_false_eq_true, if_true, setBytes_of_le hle]
    simp [clearedNameBytes, zeros, List.drop_replicate]

/-- Without the fit the setter raises on a fresh entry. -/
theorem setName_new_throw (offset size : Nat) (value : JSString) (h : ¬ nameFits value) :
    ∃ e, IMGEntry.setName { IMGEntry.new with offset := offset, size := size } value =
      .throw .rangeError e := by
  unfold IMGEntry.setName
  unfold nameFits at h
  have hv : value ≠ [] := by
    rintro rfl
    simp [textEncode_nil] at h
  have hgt : 0 + (textEncode (value.take MAX_NAME_LENGTH)).length >
      (clearedNameBytes none).length := by
    simp [clearedNameBytes, zeros]; omega
  simp only [IMGEntry.new, ne_eq, hv, not_false_eq_true, if_true, setBytes, hgt]
  exact ⟨_, rfl⟩

theorem namedEntry_name (offset size : Nat) (value : JSString) :
    (namedEntry offset size value).name = value := by
  unfold IMGEntry.name namedEntry
  by_cases hv : value = []
  · subst hv
    simp only [ne_eq, not_true_eq_false, if_false, List.take_nil, textEncode_nil,
      List.nil_append, takeWhile_zeros, textDecode, List.map_nil]
  · simp [hv]


/-! ## `addEntry` -/

theorem reserveHeaderSpace_fst (a : IMGArchive) (k : Nat) : (_reserveHeaderSpace a k).1 = true := by
  simp only [_reserveHeaderSpace, ite_self]

theorem reserveHeaderSpace_snd (a : IMGArchive) (k : Nat) :
    (_reserveHeaderSpace a k).2 =
      { a with _headerReservedSpace :=
          bytesToBlocks (k * ENTRY_SIZE + (if a._version = .VER2 then 8 else 0)) } := by
  simp only [_reserveHeaderSpace, ite_self]

/-- Two adjacent stores, a payload and its padding, in closed form. -/
theorem setBytes_pair (img data : List Byte) (start pad : Nat)
    (h : start + data.length + pad ≤ img.length) :
    ∃ img1, setBytes img data start = some img1 ∧
      setBytes img1 (zeros pad) (start + data.length) =
        some (img.take start ++ data ++ zeros pad ++ img.drop (start + data.length + pad)) := by
  have h1 : start + data.length ≤ img.length := by omega
  refine ⟨_, setBytes_of_le h1, ?_⟩
  have hl : (List.take start img ++ data).length = start + data.length := by
    simp; omega
  have h2 : start + data.length + (zeros pad).length ≤
      (List.take start img ++ data ++ List.drop (start + data.length) img).length := by
    simp [zeros]; omega
  rw [setBytes_of_le h2, List.take_left' hl]
  congr 2
  have : start + data.length + (zeros pad).length = start + data.length + pad := by
    simp [zeros]
  rw [this, ← List.drop_drop, List.drop_left' hl, List.drop_drop]

theorem addEntry_eq (toLowerCase : JSString → JSString) (a : IMGArchive) (name : JSString)
    (data : List Byte) (hm : a._mode ≠ .READ_ONLY) (hl : name.length ≤ MAX_NAME_LENGTH)
    (hf : nameFits name) :
    addEntry toLowerCase a name data = .ok a.nextRef (addEntryState toLowerCase a name data) := by
  have hge := bytesToBlocks_mul_ge data.length
  have hoff : _getDataEndOffset (_reserveHeaderSpace a (a._entries.length + 1)).2 = addOffset a :=
    rfl
  unfold addEntry
  rw [if_neg hm, if_neg (by omega)]
  simp only [reserveHeaderSpace_fst, Bool.true_eq_false, if_false, hoff]
  rw [setName_new _ _ _ hf]
  simp only [ensureImgSize_eq, namedEntry, IMGEntry.offsetInBytes, reserveHeaderSpace_snd]
  simp only [addEntryState, addImgData]
  obtain ⟨stop, hstop⟩ : ∃ s, s = (addOffset a + bytesToBlocks data.length) * BLOCK_SIZE :=
    ⟨_, rfl⟩
  simp only [← hstop]
  obtain ⟨img, himg⟩ : ∃ s, s = a._imgData ++ zeros (stop - a._imgData.length) := ⟨_, rfl⟩
  simp only [← himg]
  have hlen : img.length = max a._imgData.length stop := by
    simp [himg, zeros]; omega
  have hstop2 : stop = addOffset a * BLOCK_SIZE + bytesToBlocks data.length * BLOCK_SIZE := by
    rw [hstop]; ring
  have hsum : addOffset a * BLOCK_SIZE + data.length +
      (bytesToBlocks data.length * BLOCK_SIZE - data.length) = stop := by omega
  obtain ⟨img1, e1, e2⟩ := setBytes_pair img data (addOffset a * BLOCK_SIZE)
    (bytesToBlocks data.length * BLOCK_SIZE - data.length) (by omega)
  have hpad : stop - (addOffset a * BLOCK_SIZE + data.length) =
      bytesToBlocks data.length * BLOCK_SIZE - data.length := by omega
  rw [hsum] at e2
  rw [e1]
  simp only [hpad]
  by_cases hp : stop > addOffset a * BLOCK_SIZE + data.length
  · rw [if_pos hp, e2]
    simp only [namedEntry]
  · rw [if_neg hp]
    have hz : bytesToBlocks data.length * BLOCK_SIZE - data.length = 0 := by omega
    have hs : stop = addOffset a * BLOCK_SIZE + data.length := by omega
    have e3 := (setBytes_eq_some e1).2
    have hz0 : zeros 0 = [] := rfl
    simp only [hz, namedEntry, hz0, List.append_nil]
    rw [e3, hs]


/-! ## The name index -/

theorem mapGet_mapSet_self {ν : Type} (m : List (JSString × ν)) (k : JSString) (v : ν) :
    mapGet (mapSet m k v) k = some v := by
  induction m with
  | nil => simp [mapSet, mapGet]
  | cons p rest ih =>
    obtain ⟨k1, v1⟩ := p
    by_cases h : k1 = k
    · simp [mapSet, mapGet, h]
    · simp [mapSet, mapGet, h, ih]

theorem mapGet_mapSet_ne {ν : Type} (m : List (JSString × ν)) {k k2 : JSString} (v : ν)
    (hk : k2 ≠ k) : mapGet (mapSet m k v) k2 = mapGet m k2 := by
  induction m with
  | nil => simp [mapSet, mapGet, hk.symm]
  | cons p rest ih =>
    obtain ⟨k1, v1⟩ := p
    by_cases h : k1 = k
    · subst h
      simp [mapSet, mapGet, hk.symm]
    · by_cases h2 : k1 = k2
      · subst h2
        simp [mapSet, mapGet, h]
      · simp [mapSet, mapGet, h, h2, ih]

theorem mapGet_mapDelete_self {ν : Type} (m : List (JSString × ν)) (k : JSString) :
    mapGet (mapDelete m k) k = none := by
  induction m with
  | nil => simp [mapDelete, mapGet]
  | cons p rest ih =>
    obtain ⟨k1, v1⟩ := p
    by_cases h : k1 = k
    · simpa [mapDelete, h] using ih
    · simpa [mapDelete, mapGet, h] using ih

theorem mapGet_mapDelete_ne {ν : Type} (m : List (JSString × ν)) {k k2 : JSString}
    (hk : k2 ≠ k) : mapGet (mapDelete m k) k2 = mapGet m k2 := by
  induction m with
  | nil => simp [mapDelete, mapGet]
  | cons p rest ih =>
    obtain ⟨k1, v1⟩ := p
    by_cases h : k1 = k
    · subst h
      simpa [mapDelete, mapGet, hk.symm] using ih
    · by_cases h2 : k1 = k2
      · subst h2
        simp [mapDelete, mapGet, h]
      · simpa [mapDelete, mapGet, h, h2] using ih

/-! ## Reading a payload back -/

theorem zeros_length (n : Nat) : (zeros n).length = n := by simp [zeros]

theorem mem_zeros {n : Nat} {b : Byte} (h : b ∈ zeros n) : b = 0 := by
  simp [zeros] at h
  exact h.2

/-- Reading the block range of a payload that sits in the buffer followed by
its padding returns the payload and the padding. -/
theorem readData_block (front rest payload : List Byte) (e : IMGEntry)
    (hfront : front.length = e.offset * BLOCK_SIZE)
    (hpay : payload.length = e.size * BLOCK_SIZE) :
    readData (front ++ payload ++ rest) e = .ok payload := by
  unfold readData
  simp only [IMGEntry.offsetInBytes, IMGEntry.sizeInBytes]
  have hlen : (front ++ payload ++ rest).length =
      e.offset * BLOCK_SIZE + e.size * BLOCK_SIZE + rest.length := by
    simp [hfront, hpay]
    omega
  rw [if_neg (by omega)]
  congr 1
  unfold slice
  have h1 : (front ++ payload).length = e.offset * BLOCK_SIZE + e.size * BLOCK_SIZE := by
    simp [hfront, hpay]
  rw [List.take_left' h1, List.drop_left' hfront]

theorem addImgData_length (a : IMGArchive) (data : List Byte) :
    (addImgData a data).length =
      max a._imgData.length ((addOffset a + bytesToBlocks data.length) * BLOCK_SIZE) := by
  have hge := bytesToBlocks_mul_ge data.length
  simp only [addImgData, List.length_append, List.length_take, List.length_drop, zeros_length]
  have : (addOffset a + bytesToBlocks data.length) * BLOCK_SIZE =
      addOffset a * BLOCK_SIZE + bytesToBlocks data.length * BLOCK_SIZE := by ring
  omega

/-- The entry created by `addEntry` reads back as the payload followed by
zero bytes up to the block boundary. -/
theorem readData_addImgData (a : IMGArchive) (name : JSString) (data : List Byte) :
    readData (addImgData a data) (namedEntry (addOffset a) (bytesToBlocks data.length) name) =
      .ok (data ++ zeros (bytesToBlocks data.length * BLOCK_SIZE - data.length)) := by
  have hge := bytesToBlocks_mul_ge data.length
  have hs : (addOffset a + bytesToBlocks data.length) * BLOCK_SIZE =
      addOffset a * BLOCK_SIZE + bytesToBlocks data.length * BLOCK_SIZE := by ring
  unfold addImgData
  simp only [List.append_assoc]
  rw [← List.append_assoc data, ← List.append_assoc]
  apply readData_block
  · simp only [namedEntry, List.length_take, List.length_append, zeros_length]
    omega
  · simp only [namedEntry, List.length_append, zeros_length]
    omega

/-- Everything the claims about `addEntry` need, on a writable archive and a
name that fits: the call returns the fresh reference `r`, the new entry has
the data end offset as offset, `bytesToBlocks data.length` as size and `name`
as name, the index maps the lower-cased name to `r`, and the entry reads back
as the payload followed by its zero padding. -/
theorem addEntry_spec (toLowerCase : JSString → JSString) (a : IMGArchive) (name : JSString)
    (data : List Byte) (hm : a._mode ≠ .READ_ONLY) (hl : name.length ≤ MAX_NAME_LENGTH)
    (hf : nameFits name) :
    ∃ r a1, addEntry toLowerCase a name data = .ok r a1 ∧
      (a1.heap r).offset = addOffset a ∧
      (a1.heap r).size = bytesToBlocks data.length ∧
      (a1.heap r).name = name ∧
      a1._entries = a._entries ++ [r] ∧
      getEntryByName toLowerCase a1 name = some r ∧
      readEntryData a1 (some r) =
        .ok (some (data ++ zeros (bytesToBlocks data.length * BLOCK_SIZE - data.length))) := by
  refine ⟨a.nextRef, addEntryState toLowerCase a name data,
    addEntry_eq toLowerCase a name data hm hl hf, ?_, ?_, ?_, ?_, ?_, ?_⟩
  · simp [addEntryState, heapSet, namedEntry]
  · simp [addEntryState, heapSet, namedEntry]
  · simp [addEntryState, heapSet, namedEntry_name]
  · simp [addEntryState]
  · simp [getEntryByName, addEntryState, mapGet_mapSet_self]
  · simp only [readEntryData, addEntryState, heapSet, if_true, readData_addImgData]


/-! ## Block arithmetic and ASCII names -/

theorem bytesToBlocks_eq_ceil (n : Nat) : bytesToBlocks n = ⌈(n : ℚ) / 2048⌉₊ := by
  have h1 := bytesToBlocks_mul_ge n
  have h2 := bytesToBlocks_mul_lt n
  simp only [BLOCK_SIZE] at h1 h2
  apply le_antisymm
  · rcases Nat.eq_zero_or_pos (bytesToBlocks n) with h0 | hpos
    · omega
    · have hlt : bytesToBlocks n - 1 < ⌈(n : ℚ) / 2048⌉₊ := by
        rw [Nat.lt_ceil, lt_div_iff₀ (by norm_num)]
        have : (bytesToBlocks n - 1) * 2048 < n := by omega
        exact_mod_cast this
      omega
  · rw [Nat.ceil_le, div_le_iff₀ (by norm_num)]
    exact_mod_cast h1

theorem utf8OfScalar_ascii {u : Nat} (h : u < 128) : utf8OfScalar (scalarOfUnit u) = [byteOfNat u] := by
  have : ¬ (55296 ≤ u ∧ u < 57344) := by omega
  simp [utf8OfScalar, scalarOfUnit, this, h]

theorem textEncode_ascii (s : JSString) (h : ∀ u ∈ s, u < 128) :
    textEncode s = s.map byteOfNat := by
  induction s with
  | nil => simp [textEncode_nil]
  | cons u rest ih =>
    have hu : u < 128 := h u (List.mem_cons_self _ _)
    have hrest : ∀ v ∈ rest, v < 128 := fun v hv => h v (List.mem_cons_of_mem _ hv)
    cases rest with
    | nil => simp [textEncode, utf8OfScalar_ascii hu]
    | cons v tail =>
      have hns : ¬ (55296 ≤ u ∧ u < 56320 ∧ 56320 ≤ v ∧ v < 57344) := by omega
      rw [textEncode, if_neg hns, ih hrest, utf8OfScalar_ascii hu]
      simp

/-- Every ASCII name fits the name field. -/
theorem nameFits_of_ascii (s : JSString) (h : ∀ u ∈ s, u < 128) : nameFits s := by
  unfold nameFits
  rw [textEncode_ascii _ (fun u hu => h u (List.mem_of_mem_take hu))]
  simp [MAX_NAME_LENGTH, NAME_FIELD_SIZE]


/-! ## Claims about `addEntry` -/

/-- C1 (as amended): on a writable archive, for every name of at most 23 code
units whose UTF-8 encoding fits the 24-byte name field (every ASCII name does)
and every payload `data`, `addEntry(name, data)` succeeds and
`readEntryData(getEntryByName(name))` returns `data` followed by zero bytes up
to the next multiple of 2048 bytes; the result equals `data` exactly if and
only if `data.length` is a multiple of 2048. -/
theorem addEntry_read_back (toLowerCase : JSString → JSString) (a : IMGArchive)
    (name : JSString) (data : List Byte) (hm : a._mode = .READ_WRITE)
    (hl : name.length ≤ 23) (hf : nameFits name) :
    ∃ r a1, addEntry toLowerCase a name data = .ok r a1 ∧
      readEntryData a1 (getEntryByName toLowerCase a1 name) =
        .ok (some (data ++ zeros (bytesToBlocks data.length * 2048 - data.length))) ∧
      (readEntryData a1 (getEntryByName toLowerCase a1 name) = .ok (some data) ↔
        data.length % 2048 = 0) := by
  obtain ⟨r, a1, hadd, -, -, -, -, hget, hread⟩ :=
    addEntry_spec toLowerCase a name data (by rw [hm]; decide) hl hf
  have hread2 : readEntryData a1 (getEntryByName toLowerCase a1 name) =
      .ok (some (data ++ zeros (bytesToBlocks data.length * 2048 - data.length))) := by
    rw [hget]; exact hread
  refine ⟨r, a1, hadd, hread2, ?_⟩
  rw [hread2]
  have h1 := bytesToBlocks_mul_ge data.length
  have h2 := bytesToBlocks_mul_lt data.length
  simp only [BLOCK_SIZE] at h1 h2
  constructor
  · intro h
    have hlen := congrArg List.length (Option.some.inj (Except.ok.inj h))
    simp only [List.length_append, zeros_length] at hlen
    omega
  · intro h
    have : bytesToBlocks data.length * 2048 - data.length = 0 := by omega
    rw [this]
    simp [zeros]

/-- Instance of `addEntry_read_back`: a three-byte payload added to a fresh
unified archive under the name `a`. -/
theorem addEntry_read_back_witness :
    ∃ r a1, addEntry asciiLower (createArchive .VER2) [97] [1, 2, 3] = .ok r a1 ∧
      readEntryData a1 (getEntryByName asciiLower a1 [97]) =
        .ok (some ([1, 2, 3] ++
          zeros (bytesToBlocks ([1, 2, 3] : List Byte).length * 2048 -
            ([1, 2, 3] : List Byte).length))) ∧
      (readEntryData a1 (getEntryByName asciiLower a1 [97]) = .ok (some [1, 2, 3]) ↔
        ([1, 2, 3] : List Byte).length % 2048 = 0) :=
  addEntry_read_back asciiLower (createArchive .VER2) [97] [1, 2, 3] rfl (by decide) (by decide)

/-- C1 fails as stated.  Adding the one-byte payload `[1]` under the name `a`
to a fresh unified archive and reading it back returns 2048 bytes, not the
one byte that was added; and adding under a name of thirteen code units
U+00E9, whose encoding takes 26 bytes, raises a `RangeError`. -/
theorem addEntry_read_back_counterexample :
    (∃ r a1, addEntry asciiLower (createArchive .VER2) [97] [1] = .ok r a1 ∧
      readEntryData a1 (getEntryByName asciiLower a1 [97]) = .ok (some (1 :: zeros 2047)) ∧
      (1 :: zeros 2047 : List Byte) ≠ [1]) ∧
    (∃ a1, addEntry asciiLower (createArchive .VER2) (List.replicate 13 233) [1] =
      .throw .rangeError a1) := by
  constructor
  · obtain ⟨r, a1, hadd, -, -, -, -, hget, hread⟩ :=
      addEntry_spec asciiLower (createArchive .VER2) [97] [1] (by decide) (by decide) (by decide)
    refine ⟨r, a1, hadd, ?_, ?_⟩
    · rw [hget, hread]
      rfl
    · intro h
      have := congrArg List.length h
      simp only [List.length_cons, zeros_length, List.length_nil] at this
      omega
  · obtain ⟨e, he⟩ := setName_new_throw
      (_getDataEndOffset (_reserveHeaderSpace (createArchive .VER2) 1).2)
      (bytesToBlocks 1) (List.replicate 13 233) (by decide)
    refine ⟨(_reserveHeaderSpace (createArchive .VER2) 1).2, ?_⟩
    unfold addEntry
    rw [if_neg (by decide), if_neg (by decide)]
    simp only [reserveHeaderSpace_fst, Bool.true_eq_false, if_false]
    exact (by rw [show (createArchive .VER2)._entries.length + 1 = 1 from rfl,
      show ([1] : List Byte).length = 1 from rfl, he])

/-- C2 (as amended): on a writable archive, for every name of at most 23 code
units whose UTF-8 encoding fits the 24-byte name field (every ASCII name does)
and every payload `data`, `addEntry(name, data)` returns an entry whose size
is `ceil(data.length / 2048)` blocks, and `readEntryData` of that entry
returns `size * 2048` bytes whose first `data.length` bytes are `data` and
whose remaining bytes are all zero. -/
theorem addEntry_size_and_padding (toLowerCase : JSString → JSString) (a : IMGArchive)
    (name : JSString) (data : List Byte) (hm : a._mode = .READ_WRITE)
    (hl : name.length ≤ 23) (hf : nameFits name) :
    ∃ r a1 bytes, addEntry toLowerCase a name data = .ok r a1 ∧
      (a1.heap r).size = ⌈(data.length : ℚ) / 2048⌉₊ ∧
      readEntryData a1 (some r) = .ok (some bytes) ∧
      bytes.length = (a1.heap r).size * 2048 ∧
      bytes.take data.length = data ∧
      ∀ b ∈ bytes.drop data.length, b = 0 := by
  obtain ⟨r, a1, hadd, -, hsize, -, -, -, hread⟩ :=
    addEntry_spec toLowerCase a name data (by rw [hm]; decide) hl hf
  have h1 := bytesToBlocks_mul_ge data.length
  simp only [BLOCK_SIZE] at h1
  refine ⟨r, a1, _, hadd, ?_, hread, ?_, ?_, ?_⟩
  · rw [hsize, bytesToBlocks_eq_ceil]
  · rw [hsize, List.length_append, zeros_length, BLOCK_SIZE]
    omega
  · simp
  · intro b hb
    rw [List.drop_left] at hb
    exact mem_zeros hb

/-- Instance of `addEntry_size_and_padding`: a three-byte payload added to a
fresh split archive under the name `b`. -/
theorem addEntry_size_and_padding_witness :
    ∃ r a1 bytes, addEntry asciiLower (createArchive .VER1) [98] [7, 8, 9] = .ok r a1 ∧
      (a1.heap r).size = ⌈((([7, 8, 9] : List Byte).length : ℕ) : ℚ) / 2048⌉₊ ∧
      readEntryData a1 (some r) = .ok (some bytes) ∧
      bytes.length = (a1.heap r).size * 2048 ∧
      bytes.take ([7, 8, 9] : List Byte).length = [7, 8, 9] ∧
      ∀ b ∈ bytes.drop ([7, 8, 9] : List Byte).length, b = 0 :=
  addEntry_size_and_padding asciiLower (createArchive .VER1) [98] [7, 8, 9] rfl
    (by decide) (by decide)

/-- C2 fails as stated: the name of thirteen code units U+00E9 has at most 23
characters, yet `addEntry` on a fresh split archive raises a `RangeError` in
the name setter and returns no entry. -/
theorem addEntry_size_and_padding_counterexample :
    (List.replicate 13 233 : JSString).length ≤ 23 ∧
    ∃ a1, addEntry asciiLower (createArchive .VER1) (List.replicate 13 233) [7, 8, 9] =
      .throw .rangeError a1 := by
  refine ⟨by decide, ?_⟩
  obtain ⟨e, he⟩ := setName_new_throw
    (_getDataEndOffset (_reserveHeaderSpace (createArchive .VER1) 1).2)
    (bytesToBlocks 3) (List.replicate 13 233) (by decide)
  refine ⟨(_reserveHeaderSpace (createArchive .VER1) 1).2, ?_⟩
  unfold addEntry
  rw [if_neg (by decide), if_neg (by decide)]
  simp only [reserveHeaderSpace_fst, Bool.true_eq_false, if_false]
  exact (by rw [show (createArchive .VER1)._entries.length + 1 = 1 from rfl,
    show ([7, 8, 9] : List Byte).length = 3 from rfl, he])


/-! ## `sync` on the unified layout -/

theorem rewriteHeaderSection_ver2_length (a a1 : IMGArchive) (hv : a._version = .VER2)
    (h : _rewriteHeaderSection a = .ok () a1) :
    a1._imgData.length = max a._imgData.length ((8 + a._entries.length * 32) * 2048) := by
  unfold _rewriteHeaderSection at h
  rw [if_pos hv] at h
  simp only [] at h
  split at h
  · simp at h
  · split at h
    · simp at h
    · split at h
      · simp at h
      · split at h
        · simp at h
        · rename_i img himg
          simp only [Res.ok.injEq, true_and] at h
          subst h
          simp only []
          rw [length_setBytes himg, ensureImgSize_length, ENTRY_SIZE, BLOCK_SIZE]

/-- A successful `sync` of a writable unified archive leaves a data buffer of
at least `(8 + 32 * count) * 2048` bytes: `_rewriteHeaderSection` passes the
header size in bytes to `_ensureImgSize`, which takes blocks. -/
theorem sync_ver2_length (a a1 : IMGArchive) (hm : a._mode = .READ_WRITE)
    (hv : a._version = .VER2) (h : sync a = .ok () a1) :
    a1._imgData.length = max a._imgData.length ((8 + a._entries.length * 32) * 2048) := by
  unfold sync at h
  rw [if_neg (by rw [hm]; decide)] at h
  cases hrw : _rewriteHeaderSection a with
  | throw e s => rw [hrw] at h; simp at h
  | ok v s =>
    rw [hrw] at h
    simp only [Res.ok.injEq, true_and] at h
    subst h
    exact rewriteHeaderSection_ver2_length a s hv hrw

/-- On a writable unified archive with an empty table `sync` succeeds. -/
theorem sync_ver2_empty (a : IMGArchive) (hm : a._mode = .READ_WRITE)
    (hv : a._version = .VER2) (he : a._entries = []) : ∃ a1, sync a = .ok () a1 := by
  have h1 : setBytes (zeros (8 + 0 * ENTRY_SIZE)) VER2_MAGIC 0 = some [86, 69, 82, 50, 0, 0, 0, 0] := by
    decide
  have h2 : setBytes [86, 69, 82, 50, 0, 0, 0, 0] (uint32Bytes 0) 4 =
      some [86, 69, 82, 50, 0, 0, 0, 0] := by decide
  have h3 : 0 + ([86, 69, 82, 50, 0, 0, 0, 0] : List Byte).length ≤
      (_ensureImgSize a (8 + 0 * ENTRY_SIZE))._imgData.length := by
    rw [ensureImgSize_length]
    simp [ENTRY_SIZE, BLOCK_SIZE]
  unfold sync
  rw [if_neg (by rw [hm]; decide)]
  unfold _rewriteHeaderSection
  rw [if_pos hv]
  simp only [he, List.length_nil, h1, IMGArchive.entries, ensureImgSize_eq, List.map_nil,
    writeRecords, h2]
  rw [ensureImgSize_eq] at h3
  rw [setBytes_of_le h3]
  exact ⟨_, rfl⟩


/-- C3 fails on the code: the well-formed unified buffer of an empty archive
(tag `VER2`, count 0, 8 bytes) is parsed by `_readHeaderVer2` and written back
by `sync` without error, and the data buffer is then 16384 bytes long instead
of the original 8, so it is not equal to the original buffer. -/
theorem sync_after_parse_grows_buffer :
    ∃ a1,
      sync (_readHeaderVer2 asciiLower
        { IMGArchive.new with _version := .VER2, _imgData := [86, 69, 82, 50, 0, 0, 0, 0] }) =
        .ok () a1 ∧
      a1._imgData.length = 16384 ∧
      a1._imgData ≠ [86, 69, 82, 50, 0, 0, 0, 0] := by
  obtain ⟨a1, h⟩ := sync_ver2_empty
    (_readHeaderVer2 asciiLower
      { IMGArchive.new with _version := .VER2, _imgData := [86, 69, 82, 50, 0, 0, 0, 0] })
    rfl rfl rfl
  have hlen := sync_ver2_length _ a1 rfl rfl h
  have hlen2 : a1._imgData.length = 16384 := by
    rw [hlen]
    rfl
  refine ⟨a1, h, hlen2, ?_⟩
  intro heq
  rw [heq] at hlen2
  simp at hlen2


/-! ## The loops of `pack` -/

theorem map_allocAll (heap : Ref → IMGEntry) (next : Nat) (es : List IMGEntry) :
    (List.range' next es.length).map (allocAll heap next es) = es := by
  apply List.ext_getElem
  · simp
  · intro i h1 h2
    simp only [List.getElem_map, List.getElem_range', allocAll]
    have hi : i < es.length := h2
    have hc : next ≤ next + 1 * i ∧ next + 1 * i < next + es.length := by omega
    rw [if_pos hc]
    have : next + 1 * i - next = i := by omega
    rw [this, List.getD_eq_getElem _ _ hi]

theorem packRead_ok (imgData : List Byte) (es : List IMGEntry)
    (acc : List (JSString × List Byte)) (h : InBounds imgData es) :
    packRead imgData es acc = .ok (mapSetAll acc (payloads imgData es)) := by
  induction es generalizing acc with
  | nil => rfl
  | cons e rest ih =>
    have he : e.offsetInBytes + e.sizeInBytes ≤ imgData.length := h e (List.mem_cons_self _ _)
    have hrest : InBounds imgData rest := fun x hx => h x (List.mem_cons_of_mem _ hx)
    simp only [packRead, readData, if_neg (Nat.not_lt.mpr he)]
    rw [ih _ hrest]
    rfl

theorem packRead_error (imgData : List Byte) (es : List IMGEntry)
    (acc : List (JSString × List Byte)) (h : ¬ InBounds imgData es) :
    packRead imgData es acc = .error .outOfBounds := by
  induction es generalizing acc with
  | nil => exact absurd (fun e he => by simp at he) h
  | cons e rest ih =>
    by_cases he : e.offsetInBytes + e.sizeInBytes ≤ imgData.length
    · have hrest : ¬ InBounds imgData rest := by
        intro hr
        apply h
        intro x hx
        rcases List.mem_cons.mp hx with rfl | hx
        · exact he
        · exact hr x hx
      simp only [packRead, readData, if_neg (Nat.not_lt.mpr he)]
      exact ih _ hrest
    · simp only [packRead, readData, if_pos (Nat.lt_of_not_le he)]

theorem packLayout_some (cur : Nat) (es : List IMGEntry) (h : NamesFit es) :
    packLayout cur es = some (layoutFrom cur es, cur + totalSize es) := by
  induction es generalizing cur with
  | nil => simp [packLayout, layoutFrom, totalSize]
  | cons e rest ih =>
    have he : nameFits e.name := h e (List.mem_cons_self _ _)
    have hrest : NamesFit rest := fun x hx => h x (List.mem_cons_of_mem _ hx)
    simp only [packLayout, setName_new _ _ _ he, ih _ hrest, layoutFrom, totalSize,
      List.map_cons, List.sum_cons, Nat.add_assoc]

theorem packLayout_none (cur : Nat) (es : List IMGEntry) (h : ¬ NamesFit es) :
    packLayout cur es = none := by
  induction es generalizing cur with
  | nil => exact absurd (fun e he => by simp at he) h
  | cons e rest ih =>
    by_cases he : nameFits e.name
    · have hrest : ¬ NamesFit rest := by
        intro hr
        apply h
        intro x hx
        rcases List.mem_cons.mp hx with rfl | hx
        · exact he
        · exact hr x hx
      simp only [packLayout, setName_new _ _ _ he, ih _ hrest]
    · obtain ⟨e1, h1⟩ := setName_new_throw cur e.size e.name he
      simp only [packLayout, h1]

theorem length_layoutFrom (cur : Nat) (es : List IMGEntry) :
    (layoutFrom cur es).length = es.length := by
  induction es generalizing cur with
  | nil => rfl
  | cons e rest ih => simp [layoutFrom, ih]

theorem packState_entries (toLowerCase : JSString → JSString) (a : IMGArchive)
    (img : List Byte) :
    (packState toLowerCase a img).entries = layoutFrom (packHeaderSize a) a.entries := by
  simp only [IMGArchive.entries, packState]
  exact map_allocAll _ _ _

/-- `pack` on a writable archive with a non-empty table, unfolded up to its
last loop, when every entry lies within the buffer and every name fits. -/
theorem pack_unfold (toLowerCase : JSString → JSString) (a : IMGArchive)
    (hm : a._mode ≠ .READ_ONLY) (hne : a._entries ≠ [])
    (hb : InBounds a._imgData a.entries) (hf : NamesFit a.entries) :
    pack toLowerCase a =
      match packWrite (mapSetAll [] (payloads a._imgData a.entries))
          (layoutFrom (packHeaderSize a) a.entries)
          (a._imgData ++
            zeros ((packHeaderSize a + totalSize a.entries) * BLOCK_SIZE - a._imgData.length)) with
      | (img, some e) =>
        .throw e { packState toLowerCase a img with
          _headerReservedSpace := a._headerReservedSpace,
          _hasUnsavedChanges := a._hasUnsavedChanges }
      | (img, none) =>
        .ok (_getDataEndOffset (packState toLowerCase a img)) (packState toLowerCase a img) := by
  have hlen : a._entries.length ≠ 0 := by
    intro h0
    exact hne (List.length_eq_zero.mp h0)
  unfold pack
  rw [if_neg hm, if_neg hlen, packRead_ok _ _ _ hb]
  simp only []
  have hl : packLayout (packHeaderSize a) a.entries =
      some (layoutFrom (packHeaderSize a) a.entries, packHeaderSize a + totalSize a.entries) :=
    packLayout_some _ _ hf
  unfold packHeaderSize at hl
  rw [hl]
  simp only [ensureImgSize_eq, IMGArchive.entries, map_allocAll]
  rfl


/-! ## The payload map of `pack` -/

theorem mapGet_mapSetAll {ν : Type} (acc ps : List (JSString × ν)) (k : JSString) :
    mapGet (mapSetAll acc ps) k =
      match lastValue ps k with
      | some v => some v
      | none => mapGet acc k := by
  induction ps generalizing acc with
  | nil => simp [mapSetAll, lastValue]
  | cons p ps ih =>
    have hstep : mapSetAll acc (p :: ps) = mapSetAll (mapSet acc p.1 p.2) ps := rfl
    rw [hstep, ih]
    simp only [lastValue]
    cases hl : lastValue ps k with
    | some v => rfl
    | none =>
      by_cases hk : p.1 = k
      · subst hk
        simp [mapGet_mapSet_self]
      · have hk2 : k ≠ p.1 := fun h => hk h.symm
        simp [hk, mapGet_mapSet_ne _ _ hk2]

theorem mapGet_mapSetAll_nil {ν : Type} (ps : List (JSString × ν)) (k : JSString) :
    mapGet (mapSetAll [] ps) k = lastValue ps k := by
  rw [mapGet_mapSetAll]
  cases lastValue ps k <;> rfl

theorem lastValue_mem {ν : Type} {ps : List (JSString × ν)} {k : JSString} {v : ν}
    (h : lastValue ps k = some v) : (k, v) ∈ ps := by
  induction ps with
  | nil => simp [lastValue] at h
  | cons p ps ih =>
    simp only [lastValue] at h
    cases hl : lastValue ps k with
    | some w =>
      rw [hl] at h
      simp only [Option.some.injEq] at h
      subst h
      exact List.mem_cons_of_mem _ (ih hl)
    | none =>
      rw [hl] at h
      by_cases hk : p.1 = k
      · simp only [hk, if_true, Option.some.injEq] at h
        subst h
        subst hk
        exact List.mem_cons_self _ _
      · simp [hk] at h

theorem lastValue_eq_none {ν : Type} {ps : List (JSString × ν)} {k : JSString} :
    lastValue ps k = none ↔ ∀ p ∈ ps, p.1 ≠ k := by
  induction ps with
  | nil => simp [lastValue]
  | cons p ps ih =>
    simp only [lastValue]
    cases hl : lastValue ps k with
    | some w =>
      simp only [false_iff, reduceCtorEq]
      intro hall
      have := ih.mpr (fun q hq => hall q (List.mem_cons_of_mem _ hq))
      rw [hl] at this
      simp at this
    | none =>
      have hrest := ih.mp hl
      by_cases hk : p.1 = k
      · simp [hk]
      · simp only [hk, if_false, true_iff]
        intro q hq
        rcases List.mem_cons.mp hq with rfl | hq
        · exact hk
        · exact hrest q hq

/-- With pairwise distinct keys the map holds every pair's own value. -/
theorem lastValue_of_nodup {ν : Type} {ps : List (JSString × ν)}
    (hnd : (ps.map fun p => p.1).Nodup) {p : JSString × ν} (hp : p ∈ ps) :
    lastValue ps p.1 = some p.2 := by
  induction ps with
  | nil => simp at hp
  | cons q ps ih =>
    simp only [List.map_cons, List.nodup_cons] at hnd
    simp only [lastValue]
    rcases List.mem_cons.mp hp with rfl | hp
    · have : lastValue ps p.1 = none := by
        rw [lastValue_eq_none]
        intro q hq heq
        exact hnd.1 (List.mem_map.mpr ⟨q, hq, heq⟩)
      simp [this]
    · rw [ih hnd.2 hp]


/-! ## The last loop of `pack` -/

/-- Storing `d ++ z` is storing `d` and then `z` right after it. -/
theorem setBytes_append (buf d z : List Byte) (o : Nat) :
    setBytes buf (d ++ z) o =
      match setBytes buf d o with
      | none => none
      | some b1 => setBytes b1 z (o + d.length) := by
  by_cases h1 : o + d.length ≤ buf.length
  · rw [setBytes_of_le h1]
    simp only []
    have hl : (List.take o buf ++ d).length = o + d.length := by
      simp; omega
    by_cases h2 : o + d.length + z.length ≤ buf.length
    · have h3 : o + (d ++ z).length ≤ buf.length := by simp; omega
      have h4 : o + d.length + z.length ≤
          (List.take o buf ++ d ++ List.drop (o + d.length) buf).length := by
        simp; omega
      have hdrop : List.drop (o + d.length + z.length)
          (List.take o buf ++ d ++ List.drop (o + d.length) buf) =
          List.drop (o + d.length + z.length) buf := by
        rw [← List.drop_drop, List.drop_left' hl, List.drop_drop]
      have e1 : o + (d ++ z).length = o + d.length + z.length := by simp; omega
      rw [setBytes_of_le h3, setBytes_of_le h4, List.take_left' hl, hdrop, e1]
      simp
    · have h3 : o + (d ++ z).length > buf.length := by simp; omega
      have h4 : o + d.length + z.length >
          (List.take o buf ++ d ++ List.drop (o + d.length) buf).length := by
        simp; omega
      simp only [setBytes, h3, h4, if_true]
  · have h3 : o + (d ++ z).length > buf.length := by simp; omega
    have h4 : o + d.length > buf.length := by omega
    simp only [setBytes, h3, h4, if_true]

/-- One iteration of the last loop of `pack`, on the path without error: the
payload and its padding are stored as one block of bytes. -/
theorem packWrite_cons_ok (m : List (JSString × List Byte)) (e : IMGEntry)
    (rest : List IMGEntry) (buf img : List Byte) :
    packWrite m (e :: rest) buf = (img, none) ↔
      ∃ data buf2, mapGet m e.name = some data ∧
        setBytes buf (entryBytes e data) e.offsetInBytes = some buf2 ∧
        packWrite m rest buf2 = (img, none) := by
  simp only [packWrite]
  cases hg : mapGet m e.name with
  | none => simp
  | some data =>
    simp only [Option.some.injEq, exists_and_left, exists_eq_left', entryBytes]
    rw [setBytes_append]
    cases hs : setBytes buf data e.offsetInBytes with
    | none => simp
    | some buf1 =>
      simp only []
      by_cases hp : e.sizeInBytes - data.length > 0
      · rw [if_pos hp]
        cases hs2 : setBytes buf1 (zeros (e.sizeInBytes - data.length))
            (e.offsetInBytes + data.length) with
        | none => simp
        | some buf2 => simp
      · rw [if_neg hp]
        have hz : e.sizeInBytes - data.length = 0 := by omega
        have hb : e.offsetInBytes + data.length ≤ buf1.length := by
          rw [length_setBytes hs]
          exact (setBytes_eq_some hs).1
        have hs2 : setBytes buf1 (zeros 0) (e.offsetInBytes + data.length) = some buf1 := by
          have h0 : e.offsetInBytes + data.length + (zeros 0).length ≤ buf1.length := by
            simpa [zeros] using hb
          rw [setBytes_of_le h0]
          simp [zeros]
        rw [hz, hs2]
        simp

theorem packWrite_nil_ok (m : List (JSString × List Byte)) (buf img : List Byte) :
    packWrite m [] buf = (img, none) ↔ img = buf := by
  simp only [packWrite, Prod.mk.injEq, and_true]
  exact eq_comm

theorem packWrite_length {m : List (JSString × List Byte)} {es : List IMGEntry}
    {buf img : List Byte} (h : packWrite m es buf = (img, none)) : img.length = buf.length := by
  induction es generalizing buf with
  | nil => rw [(packWrite_nil_ok _ _ _).mp h]
  | cons e rest ih =>
    obtain ⟨data, buf2, -, hs, hr⟩ := (packWrite_cons_ok _ _ _ _ _).mp h
    rw [ih hr, length_setBytes hs]

/-- The loop changes no byte outside the positions it covers. -/
theorem packWrite_outside {m : List (JSString × List Byte)} {es : List IMGEntry}
    {buf img : List Byte} (h : packWrite m es buf = (img, none)) (p : Nat)
    (hp : ¬ Covered m es p) : img[p]? = buf[p]? := by
  induction es generalizing buf with
  | nil => rw [(packWrite_nil_ok _ _ _).mp h]
  | cons e rest ih =>
    obtain ⟨data, buf2, hg, hs, hr⟩ := (packWrite_cons_ok _ _ _ _ _).mp h
    have hrest : ¬ Covered m rest p := by
      rintro ⟨x, hx, d, hd, h1, h2⟩
      exact hp ⟨x, List.mem_cons_of_mem _ hx, d, hd, h1, h2⟩
    rw [ih hr hrest, getElem?_setBytes hs]
    by_cases h1 : p < e.offsetInBytes
    · rw [if_pos h1]
    · rw [if_neg h1]
      by_cases h2 : p < e.offsetInBytes + (entryBytes e data).length
      · exact absurd ⟨e, List.mem_cons_self _ _, data, hg, Nat.le_of_not_lt h1, h2⟩ hp
      · rw [if_neg h2]

/-- The result of the loop depends only on the bytes it does not cover. -/
theorem packWrite_congr {m : List (JSString × List Byte)} {es : List IMGEntry}
    {buf buf1 img : List Byte} (h : packWrite m es buf = (img, none))
    (hlen : buf1.length = buf.length)
    (hag : ∀ p, ¬ Covered m es p → buf1[p]? = buf[p]?) :
    packWrite m es buf1 = (img, none) := by
  induction es generalizing buf buf1 with
  | nil =>
    rw [(packWrite_nil_ok _ _ _).mp h]
    rw [packWrite_nil_ok]
    apply List.ext_getElem?
    intro p
    exact (hag p (by rintro ⟨x, hx, _⟩; simp at hx)).symm
  | cons e rest ih =>
    obtain ⟨data, buf2, hg, hs, hr⟩ := (packWrite_cons_ok _ _ _ _ _).mp h
    have hle := (setBytes_eq_some hs).1
    have hs1 := setBytes_of_le (t := buf1) (s := entryBytes e data) (o := e.offsetInBytes)
      (by omega)
    rw [packWrite_cons_ok]
    refine ⟨data, _, hg, hs1, ?_⟩
    apply ih hr
    · rw [length_setBytes hs1, length_setBytes hs, hlen]
    · intro p hp
      rw [getElem?_setBytes hs1, getElem?_setBytes hs]
      by_cases h1 : p < e.offsetInBytes
      · rw [if_pos h1, if_pos h1]
        apply hag
        rintro ⟨x, hx, d, hd, h3, h4⟩
        rcases List.mem_cons.mp hx with rfl | hx
        · omega
        · exact hp ⟨x, hx, d, hd, h3, h4⟩
      · rw [if_neg h1, if_neg h1]
        by_cases h2 : p < e.offsetInBytes + (entryBytes e data).length
        · rw [if_pos h2, if_pos h2]
        · rw [if_neg h2, if_neg h2]
          apply hag
          rintro ⟨x, hx, d, hd, h3, h4⟩
          rcases List.mem_cons.mp hx with rfl | hx
          · rw [hg] at hd
            cases hd
            omega
          · exact hp ⟨x, hx, d, hd, h3, h4⟩

/-- Running the loop again on its own result changes nothing. -/
theorem packWrite_idem {m : List (JSString × List Byte)} {es : List IMGEntry}
    {buf img : List Byte} (h : packWrite m es buf = (img, none)) :
    packWrite m es img = (img, none) := by
  induction es generalizing buf with
  | nil => rw [packWrite_nil_ok]
  | cons e rest ih =>
    obtain ⟨data, buf2, hg, hs, hr⟩ := (packWrite_cons_ok _ _ _ _ _).mp h
    have hle := (setBytes_eq_some hs).1
    have hlen : img.length = buf.length := packWrite_length h
    have hs1 := setBytes_of_le (t := img) (s := entryBytes e data) (o := e.offsetInBytes)
      (by omega)
    rw [packWrite_cons_ok]
    refine ⟨data, _, hg, hs1, ?_⟩
    apply packWrite_congr (ih hr)
    · rw [length_setBytes hs1]
    · intro p hp
      rw [getElem?_setBytes hs1]
      have himg : img[p]? = buf2[p]? := packWrite_outside hr p hp
      by_cases h1 : p < e.offsetInBytes
      · rw [if_pos h1]
      · rw [if_neg h1]
        by_cases h2 : p < e.offsetInBytes + (entryBytes e data).length
        · rw [if_pos h2, himg, getElem?_setBytes hs, if_neg h1, if_pos h2]
        · rw [if_neg h2]


theorem size_le_totalSize {es : List IMGEntry} {e : IMGEntry} (h : e ∈ es) :
    e.size ≤ totalSize es := by
  induction es with
  | nil => simp at h
  | cons x rest ih =>
    simp only [totalSize, List.map_cons, List.sum_cons]
    rcases List.mem_cons.mp h with rfl | h
    · omega
    · have := ih h
      simp only [totalSize] at this
      omega

theorem totalSize_cons (e : IMGEntry) (rest : List IMGEntry) :
    totalSize (e :: rest) = e.size + totalSize rest := by
  simp [totalSize]

theorem length_payload {imgData : List Byte} {e : IMGEntry}
    (h : e.offsetInBytes + e.sizeInBytes ≤ imgData.length) :
    (slice imgData e.offsetInBytes (e.offsetInBytes + e.sizeInBytes)).length = e.sizeInBytes := by
  rw [length_slice]
  omega

theorem mem_payloads {imgData : List Byte} {es : List IMGEntry} {k : JSString} {v : List Byte}
    (h : (k, v) ∈ payloads imgData es) :
    ∃ e ∈ es, e.name = k ∧ v = slice imgData e.offsetInBytes (e.offsetInBytes + e.sizeInBytes) := by
  simp only [payloads, List.mem_map, Prod.mk.injEq] at h
  obtain ⟨e, he, h1, h2⟩ := h
  exact ⟨e, he, h1, h2.symm⟩

theorem lastValue_payloads_cons {imgData : List Byte} {e : IMGEntry} {rest : List IMGEntry}
    {k : JSString} {v : List Byte} (h : lastValue (payloads imgData rest) k = some v) :
    lastValue (payloads imgData (e :: rest)) k = some v := by
  simp only [payloads, List.map_cons, lastValue]
  simp only [payloads] at h
  rw [h]

/-- Under the payload map read from a buffer in which every entry lies, the
last loop of `pack` raises no error on a buffer that holds the new layout. -/
theorem packWrite_ok (imgData : List Byte) (m : List (JSString × List Byte))
    (os : List IMGEntry) (cur : Nat) (buf : List Byte)
    (hb : InBounds imgData os)
    (hm : ∀ k v, lastValue (payloads imgData os) k = some v → mapGet m k = some v)
    (hlen : (cur + totalSize os) * BLOCK_SIZE ≤ buf.length) :
    ∃ img, packWrite m (layoutFrom cur os) buf = (img, none) := by
  induction os generalizing cur buf with
  | nil => exact ⟨buf, rfl⟩
  | cons e rest ih =>
    have hrest : InBounds imgData rest := fun x hx => hb x (List.mem_cons_of_mem _ hx)
    obtain ⟨v, hv⟩ : ∃ v, lastValue (payloads imgData (e :: rest)) e.name = some v := by
      cases hl : lastValue (payloads imgData (e :: rest)) e.name with
      | some v => exact ⟨v, rfl⟩
      | none =>
        rw [lastValue_eq_none] at hl
        exact absurd rfl (hl (e.name, slice imgData e.offsetInBytes
          (e.offsetInBytes + e.sizeInBytes)) (by simp [payloads]))
    obtain ⟨x, hx, -, hvx⟩ := mem_payloads (lastValue_mem hv)
    have hvl : v.length = x.sizeInBytes := by
      rw [hvx]
      exact length_payload (hb x hx)
    have hxs := size_le_totalSize hx
    have hes := size_le_totalSize (List.mem_cons_self e rest)
    have hsum : (cur + totalSize (e :: rest)) * BLOCK_SIZE =
        cur * BLOCK_SIZE + totalSize (e :: rest) * BLOCK_SIZE := by ring
    have hx2 : x.size * BLOCK_SIZE ≤ totalSize (e :: rest) * BLOCK_SIZE :=
      Nat.mul_le_mul_right _ hxs
    have he2 : e.size * BLOCK_SIZE ≤ totalSize (e :: rest) * BLOCK_SIZE :=
      Nat.mul_le_mul_right _ hes
    have hset : (namedEntry cur e.size e.name).offsetInBytes +
        (entryBytes (namedEntry cur e.size e.name) v).length ≤ buf.length := by
      simp only [entryBytes, List.length_append, zeros_length, IMGEntry.offsetInBytes,
        IMGEntry.sizeInBytes, namedEntry, hvl]
      omega
    have hs := setBytes_of_le hset
    have hlen2 : (cur + e.size + totalSize rest) * BLOCK_SIZE ≤
        (List.take (namedEntry cur e.size e.name).offsetInBytes buf ++
          entryBytes (namedEntry cur e.size e.name) v ++
          List.drop ((namedEntry cur e.size e.name).offsetInBytes +
            (entryBytes (namedEntry cur e.size e.name) v).length) buf).length := by
      rw [← (setBytes_eq_some hs).2, length_setBytes hs]
      rw [totalSize_cons] at hlen
      rw [Nat.add_assoc]
      exact hlen
    obtain ⟨img, himg⟩ := ih (cur + e.size) _ hrest
      (fun k w hw => hm k w (lastValue_payloads_cons hw)) hlen2
    refine ⟨img, ?_⟩
    simp only [layoutFrom]
    rw [packWrite_cons_ok]
    exact ⟨v, _, by rw [namedEntry_name]; exact hm _ _ hv, hs, himg⟩


theorem offset_ge_of_mem_layoutFrom {cur : Nat} {os : List IMGEntry} {e : IMGEntry}
    (h : e ∈ layoutFrom cur os) : cur ≤ e.offset := by
  induction os generalizing cur with
  | nil => simp [layoutFrom] at h
  | cons x rest ih =>
    simp only [layoutFrom, List.mem_cons] at h
    rcases h with rfl | h
    · simp [namedEntry]
    · have := ih h
      omega

/-- The loop run over a table laid out from block `cur` on leaves every byte
range below block `cur` unchanged. -/
theorem packWrite_slice_below {m : List (JSString × List Byte)} {os : List IMGEntry}
    {cur : Nat} {buf img : List Byte} (h : packWrite m (layoutFrom cur os) buf = (img, none))
    (a b : Nat) (hb : b ≤ cur * BLOCK_SIZE) : slice img a b = slice buf a b := by
  apply List.ext_getElem?
  intro i
  rw [getElem?_slice, getElem?_slice]
  by_cases hi : a + i < b
  · rw [if_pos hi, if_pos hi]
    apply packWrite_outside h
    rintro ⟨e, he, d, -, h1, -⟩
    have := offset_ge_of_mem_layoutFrom he
    have : cur * BLOCK_SIZE ≤ e.offset * BLOCK_SIZE := Nat.mul_le_mul_right _ this
    simp only [IMGEntry.offsetInBytes] at h1
    omega
  · rw [if_neg hi, if_neg hi]

theorem payloads_layoutFrom_keys (img : List Byte) (cur : Nat) (os : List IMGEntry) :
    (payloads img (layoutFrom cur os)).map (fun p => p.1) = os.map (fun e => e.name) := by
  induction os generalizing cur with
  | nil => rfl
  | cons e rest ih =>
    simp only [layoutFrom, payloads, List.map_cons, namedEntry_name, List.cons.injEq, true_and]
    have := ih (cur + e.size)
    simp only [payloads] at this
    exact this

/-- After the last loop of `pack`, reading the new table from the new buffer
gives, under every name, the payload the old table held under it. -/
theorem packWrite_lastValue (imgData : List Byte) (m : List (JSString × List Byte))
    (os : List IMGEntry) (cur : Nat) (buf img : List Byte)
    (hb : InBounds imgData os)
    (hm : ∀ k v, lastValue (payloads imgData os) k = some v → mapGet m k = some v)
    (hw : packWrite m (layoutFrom cur os) buf = (img, none)) (k : JSString) (v : List Byte)
    (hk : lastValue (payloads imgData os) k = some v) :
    lastValue (payloads img (layoutFrom cur os)) k = some v := by
  induction os generalizing cur buf with
  | nil => simp [payloads, lastValue] at hk
  | cons e rest ih =>
    have hrest : InBounds imgData rest := fun x hx => hb x (List.mem_cons_of_mem _ hx)
    simp only [layoutFrom] at hw
    obtain ⟨data, buf2, hg, hs, hr⟩ := (packWrite_cons_ok _ _ _ _ _).mp hw
    cases hl : lastValue (payloads imgData rest) k with
    | some w =>
      have hkw : some w = some v := by
        rw [← hk]
        exact (lastValue_payloads_cons hl).symm
      cases hkw
      have := ih (cur + e.size) buf2 hrest
        (fun k w hw => hm k w (lastValue_payloads_cons hw)) hr hl
      simp only [layoutFrom]
      exact lastValue_payloads_cons this
    | none =>
      have hk2 := hk
      simp only [payloads, List.map_cons, lastValue] at hk2
      simp only [payloads] at hl
      rw [hl] at hk2
      by_cases hname : e.name = k
      · simp only [hname, if_true, Option.some.injEq] at hk2
        have hnone : lastValue (payloads img (layoutFrom (cur + e.size) rest)) k = none := by
          rw [lastValue_eq_none]
          intro p hp
          have hmem : p.1 ∈ (payloads img (layoutFrom (cur + e.size) rest)).map (fun p => p.1) :=
            List.mem_map.mpr ⟨p, hp, rfl⟩
          rw [payloads_layoutFrom_keys] at hmem
          obtain ⟨x, hx, hxk⟩ := List.mem_map.mp hmem
          have := (lastValue_eq_none.mp hl) (x.name, slice imgData x.offsetInBytes
            (x.offsetInBytes + x.sizeInBytes)) (List.mem_map.mpr ⟨x, hx, rfl⟩)
          rw [← hxk]
          exact this
        have hdata : data = v := by
          have := hm k v hk
          rw [namedEntry_name, hname, this] at hg
          exact (Option.some.inj hg).symm
        have hvl : v.length = e.sizeInBytes := by
          rw [← hk2]
          exact length_payload (hb e (List.mem_cons_self _ _))
        have hbytes : entryBytes (namedEntry cur e.size e.name) data = v := by
          simp only [entryBytes, hdata, hvl, IMGEntry.sizeInBytes, namedEntry, Nat.sub_self]
          simp [zeros]
        rw [hbytes] at hs
        have hread : slice img (cur * BLOCK_SIZE) (cur * BLOCK_SIZE + e.size * BLOCK_SIZE) = v := by
          rw [packWrite_slice_below hr _ _ (by
            rw [Nat.add_mul])]
          have := slice_setBytes_self hs
          simp only [IMGEntry.offsetInBytes, namedEntry, hvl, IMGEntry.sizeInBytes] at this
          exact this
        simp only [layoutFrom, payloads, List.map_cons, lastValue]
        simp only [payloads] at hnone
        rw [hnone]
        simp only [namedEntry_name, hname, if_true, Option.some.injEq]
        simp only [IMGEntry.offsetInBytes, IMGEntry.sizeInBytes, namedEntry]
        exact hread
      · simp [hname] at hk2


/-! ## `pack` as a whole -/

theorem getDataEndOffset_eq (a : IMGArchive) :
    _getDataEndOffset a =
      match a.entries.getLast? with
      | none => a._headerReservedSpace
      | some e => e.offset + e.size := by
  unfold _getDataEndOffset IMGArchive.entries
  cases hl : a._entries using List.reverseRecOn with
  | nil => simp
  | append_singleton init r =>
    simp [List.getD_eq_getElem?_getD]

theorem layoutFrom_getLast (cur : Nat) (os : List IMGEntry) (h : os ≠ []) :
    ∃ e, (layoutFrom cur os).getLast? = some e ∧ e.offset + e.size = cur + totalSize os := by
  induction os generalizing cur with
  | nil => exact absurd rfl h
  | cons x rest ih =>
    cases rest with
    | nil =>
      exact ⟨namedEntry cur x.size x.name, by simp [layoutFrom], by simp [namedEntry, totalSize]⟩
    | cons y tail =>
      obtain ⟨e, he, hsum⟩ := ih (cur + x.size) (by simp)
      refine ⟨e, ?_, ?_⟩
      · simp only [layoutFrom] at he ⊢
        rw [List.getLast?_cons_cons]
        exact he
      · rw [hsum, totalSize_cons x (y :: tail)]
        omega

theorem entries_ne_nil {a : IMGArchive} (h : a._entries ≠ []) : a.entries ≠ [] := by
  simpa [IMGArchive.entries] using h

/-- The data end offset after `pack`: header blocks plus all entry sizes. -/
theorem getDataEndOffset_packState (toLowerCase : JSString → JSString) (a : IMGArchive)
    (img : List Byte) (hne : a._entries ≠ []) :
    _getDataEndOffset (packState toLowerCase a img) = packHeaderSize a + totalSize a.entries := by
  rw [getDataEndOffset_eq, packState_entries]
  obtain ⟨e, he, hsum⟩ := layoutFrom_getLast (packHeaderSize a) a.entries (entries_ne_nil hne)
  rw [he]
  exact hsum

/-- `pack` succeeds on a writable archive whose entries lie within the data
buffer and whose names fit the name field. -/
theorem pack_success (toLowerCase : JSString → JSString) (a : IMGArchive)
    (hm : a._mode ≠ .READ_ONLY) (hne : a._entries ≠ [])
    (hb : InBounds a._imgData a.entries) (hf : NamesFit a.entries) :
    ∃ img,
      packWrite (mapSetAll [] (payloads a._imgData a.entries))
        (layoutFrom (packHeaderSize a) a.entries)
        (a._imgData ++
          zeros ((packHeaderSize a + totalSize a.entries) * BLOCK_SIZE - a._imgData.length)) =
        (img, none) ∧
      pack toLowerCase a =
        .ok (packHeaderSize a + totalSize a.entries) (packState toLowerCase a img) := by
  obtain ⟨img, himg⟩ := packWrite_ok a._imgData (mapSetAll [] (payloads a._imgData a.entries))
    a.entries (packHeaderSize a)
    (a._imgData ++
      zeros ((packHeaderSize a + totalSize a.entries) * BLOCK_SIZE - a._imgData.length))
    hb (fun k v hk => by rw [mapGet_mapSetAll_nil]; exact hk)
    (by simp only [List.length_append, zeros_length]; omega)
  refine ⟨img, himg, ?_⟩
  rw [pack_unfold toLowerCase a hm hne hb hf, himg]
  simp only []
  rw [getDataEndOffset_packState toLowerCase a img hne]

/-- What a successful `pack` on a non-empty table implies. -/
theorem pack_ok_inv (toLowerCase : JSString → JSString) (a a1 : IMGArchive) (ret : Nat)
    (h : pack toLowerCase a = .ok ret a1) (hne : a._entries ≠ []) :
    a._mode ≠ .READ_ONLY ∧ InBounds a._imgData a.entries ∧ NamesFit a.entries := by
  have hlen : a._entries.length ≠ 0 := fun h0 => hne (List.length_eq_zero.mp h0)
  have hm : a._mode ≠ .READ_ONLY := by
    intro hro
    unfold pack at h
    rw [if_pos hro] at h
    cases h
  have hb : InBounds a._imgData a.entries := by
    by_contra hnb
    unfold pack at h
    rw [if_neg hm, if_neg hlen, packRead_error _ _ _ hnb] at h
    cases h
  have hf : NamesFit a.entries := by
    by_contra hnf
    unfold pack at h
    rw [if_neg hm, if_neg hlen, packRead_ok _ _ _ hb] at h
    simp only [packLayout_none _ _ hnf] at h
    cases h
  exact ⟨hm, hb, hf⟩

/-- A successful `pack` on a non-empty table in closed form. -/
theorem pack_ok_eq (toLowerCase : JSString → JSString) (a a1 : IMGArchive) (ret : Nat)
    (h : pack toLowerCase a = .ok ret a1) (hne : a._entries ≠ []) :
    ∃ img,
      packWrite (mapSetAll [] (payloads a._imgData a.entries))
        (layoutFrom (packHeaderSize a) a.entries)
        (a._imgData ++
          zeros ((packHeaderSize a + totalSize a.entries) * BLOCK_SIZE - a._imgData.length)) =
        (img, none) ∧
      a1 = packState toLowerCase a img ∧ ret = packHeaderSize a + totalSize a.entries := by
  obtain ⟨hm, hb, hf⟩ := pack_ok_inv toLowerCase a a1 ret h hne
  obtain ⟨img, himg, hp⟩ := pack_success toLowerCase a hm hne hb hf
  rw [hp] at h
  simp only [Res.ok.injEq] at h
  exact ⟨img, himg, h.2.symm, h.1.symm⟩


/-! ## Layout after `pack` -/

theorem totalSize_layoutFrom (cur : Nat) (os : List IMGEntry) :
    totalSize (layoutFrom cur os) = totalSize os := by
  induction os generalizing cur with
  | nil => rfl
  | cons e rest ih =>
    simp only [layoutFrom, totalSize_cons, ih]
    rfl

theorem layoutFrom_head (cur : Nat) (os : List IMGEntry) :
    ((layoutFrom cur os).head?).map (fun e => e.offset) = (os.head?).map (fun _ => cur) := by
  cases os with
  | nil => rfl
  | cons e rest => rfl

theorem layoutFrom_chain (cur : Nat) (os : List IMGEntry) :
    List.Chain' (fun x y : IMGEntry => y.offset = x.offset + x.size) (layoutFrom cur os) := by
  induction os generalizing cur with
  | nil => exact List.chain'_nil
  | cons e rest ih =>
    cases rest with
    | nil => exact List.chain'_singleton _
    | cons y tail =>
      have := ih (cur + e.size)
      simp only [layoutFrom] at this ⊢
      exact List.Chain'.cons rfl this

/-- C5: after a successful `pack()` on an archive with `n ≥ 1` entries the
table still has `n` entries, the first entry's offset is
`ceil((32 * n + h) / 2048)` with `h = 8` for the unified and `0` for the split
layout, every later entry's offset is the previous entry's offset plus the
previous entry's size, and the returned value is the data end offset, which is
the header blocks plus the sum of all entry sizes. -/
theorem pack_contiguous (toLowerCase : JSString → JSString) (a a1 : IMGArchive) (ret : Nat)
    (h : pack toLowerCase a = .ok ret a1) (hn : 1 ≤ a.entryCount) :
    a1.entryCount = a.entryCount ∧
    (a1.entries.head?).map (fun e => e.offset) =
      some ⌈((32 * a.entryCount + (if a._version = .VER2 then 8 else 0) : ℕ) : ℚ) / 2048⌉₊ ∧
    List.Chain' (fun x y : IMGEntry => y.offset = x.offset + x.size) a1.entries ∧
    ret = _getDataEndOffset a1 ∧
    ret = ⌈((32 * a.entryCount + (if a._version = .VER2 then 8 else 0) : ℕ) : ℚ) / 2048⌉₊ +
      (a1.entries.map fun e => e.size).sum := by
  have hne : a._entries ≠ [] := by
    intro h0
    simp [IMGArchive.entryCount, h0] at hn
  obtain ⟨img, -, rfl, rfl⟩ := pack_ok_eq toLowerCase a a1 ret h hne
  have hhdr : packHeaderSize a =
      ⌈((32 * a.entryCount + (if a._version = .VER2 then 8 else 0) : ℕ) : ℚ) / 2048⌉₊ := by
    rw [← bytesToBlocks_eq_ceil, packHeaderSize, IMGArchive.entryCount, ENTRY_SIZE,
      Nat.mul_comm]
  have hcount : (packState toLowerCase a img).entryCount = a.entryCount := by
    simp [IMGArchive.entryCount, packState, length_layoutFrom, IMGArchive.entries]
  refine ⟨hcount, ?_, ?_, ?_, ?_⟩
  · rw [packState_entries, layoutFrom_head, ← hhdr]
    cases hes : a.entries with
    | nil => exact absurd hes (entries_ne_nil hne)
    | cons e rest => rfl
  · rw [packState_entries]
    exact layoutFrom_chain _ _
  · rw [getDataEndOffset_packState toLowerCase a img hne]
  · rw [packState_entries, ← hhdr]
    have := totalSize_layoutFrom (packHeaderSize a) a.entries
    simp only [totalSize] at this
    rw [this]
    rfl


/-! ## Buffer size, payloads and idempotence of `pack` -/

theorem pack_empty (toLowerCase : JSString → JSString) (a : IMGArchive)
    (hm : a._mode ≠ .READ_ONLY) (he : a._entries = []) :
    pack toLowerCase a = .ok a._headerReservedSpace a := by
  unfold pack
  rw [if_neg hm, if_pos (by rw [he]; rfl)]

theorem packState_imgData_length (toLowerCase : JSString → JSString) (a : IMGArchive)
    (img : List Byte)
    (h : packWrite (mapSetAll [] (payloads a._imgData a.entries))
        (layoutFrom (packHeaderSize a) a.entries)
        (a._imgData ++
          zeros ((packHeaderSize a + totalSize a.entries) * BLOCK_SIZE - a._imgData.length)) =
        (img, none)) :
    (packState toLowerCase a img)._imgData.length =
      max a._imgData.length ((packHeaderSize a + totalSize a.entries) * BLOCK_SIZE) := by
  simp only [packState]
  rw [packWrite_length h, List.length_append, zeros_length]
  omega

/-- After a successful `pack()` on a non-empty archive the data buffer's
length is the larger of its previous length and the returned block count times
2048: `_ensureImgSize` only ever grows the buffer. -/
theorem pack_buffer_length (toLowerCase : JSString → JSString) (a a1 : IMGArchive) (ret : Nat)
    (h : pack toLowerCase a = .ok ret a1) (hn : 1 ≤ a.entryCount) :
    a1._imgData.length = max a._imgData.length (ret * 2048) := by
  have hne : a._entries ≠ [] := by
    intro h0
    simp [IMGArchive.entryCount, h0] at hn
  obtain ⟨img, himg, rfl, rfl⟩ := pack_ok_eq toLowerCase a a1 ret h hne
  exact packState_imgData_length toLowerCase a img himg

theorem mem_layoutFrom_bound {cur : Nat} {os : List IMGEntry} {e : IMGEntry}
    (h : e ∈ layoutFrom cur os) : e.offset + e.size ≤ cur + totalSize os := by
  induction os generalizing cur with
  | nil => simp [layoutFrom] at h
  | cons x rest ih =>
    simp only [layoutFrom, List.mem_cons] at h
    rw [totalSize_cons]
    rcases h with rfl | h
    · simp only [namedEntry]
      omega
    · have := ih h
      omega

theorem layoutFrom_names (cur : Nat) (os : List IMGEntry) :
    (layoutFrom cur os).map (fun e => e.name) = os.map (fun e => e.name) := by
  induction os generalizing cur with
  | nil => rfl
  | cons e rest ih => simp only [layoutFrom, List.map_cons, namedEntry_name, ih]

theorem layoutFrom_idem (cur : Nat) (os : List IMGEntry) :
    layoutFrom cur (layoutFrom cur os) = layoutFrom cur os := by
  induction os generalizing cur with
  | nil => rfl
  | cons e rest ih =>
    simp only [layoutFrom, namedEntry_name, List.cons.injEq]
    exact ⟨rfl, ih _⟩

theorem namesFit_layoutFrom {cur : Nat} {os : List IMGEntry} (h : NamesFit os) :
    NamesFit (layoutFrom cur os) := by
  intro e he
  have hmem : e.name ∈ (layoutFrom cur os).map (fun e => e.name) :=
    List.mem_map.mpr ⟨e, he, rfl⟩
  rw [layoutFrom_names] at hmem
  obtain ⟨x, hx, hxe⟩ := List.mem_map.mp hmem
  rw [← hxe]
  exact h x hx

/-- The last loop of `pack` only looks the names of its entries up. -/
theorem packWrite_map_congr {m m1 : List (JSString × List Byte)} {es : List IMGEntry}
    (h : ∀ e ∈ es, mapGet m1 e.name = mapGet m e.name) (buf : List Byte) :
    packWrite m1 es buf = packWrite m es buf := by
  induction es generalizing buf with
  | nil => rfl
  | cons e rest ih =>
    have hrest : ∀ x ∈ rest, mapGet m1 x.name = mapGet m x.name :=
      fun x hx => h x (List.mem_cons_of_mem _ hx)
    simp only [packWrite, h e (List.mem_cons_self _ _)]
    cases mapGet m e.name with
    | none => rfl
    | some data =>
      simp only []
      cases setBytes buf data e.offsetInBytes with
      | none => rfl
      | some buf1 =>
        simp only []
        split
        · cases setBytes buf1 (zeros (e.sizeInBytes - data.length))
            (e.offsetInBytes + data.length) with
          | none => rfl
          | some buf2 => exact ih hrest buf2
        · exact ih hrest buf1


theorem packState_entries_length (toLowerCase : JSString → JSString) (a : IMGArchive)
    (img : List Byte) : (packState toLowerCase a img)._entries.length = a._entries.length := by
  simp [packState, length_layoutFrom, IMGArchive.entries]

theorem packHeaderSize_packState (toLowerCase : JSString → JSString) (a : IMGArchive)
    (img : List Byte) : packHeaderSize (packState toLowerCase a img) = packHeaderSize a := by
  unfold packHeaderSize
  rw [packState_entries_length]
  rfl

/-- C6: `pack` is idempotent.  If `pack()` succeeds on an archive, calling
`pack()` again immediately afterwards succeeds, returns the same block count
and leaves the entry table (every entry with its name, offset and size, in the
same order), the data buffer and the reserved header value as they were after
the first call. -/
theorem pack_idempotent (toLowerCase : JSString → JSString) (a a1 : IMGArchive) (ret : Nat)
    (h : pack toLowerCase a = .ok ret a1) :
    ∃ a2, pack toLowerCase a1 = .ok ret a2 ∧ a2.entries = a1.entries ∧
      a2._imgData = a1._imgData ∧ a2._headerReservedSpace = a1._headerReservedSpace := by
  by_cases hne : a._entries = []
  · have hm : a._mode ≠ .READ_ONLY := by
      intro hro
      unfold pack at h
      rw [if_pos hro] at h
      cases h
    rw [pack_empty toLowerCase a hm hne] at h
    simp only [Res.ok.injEq] at h
    obtain ⟨rfl, rfl⟩ := h
    exact ⟨a, pack_empty toLowerCase a hm hne, rfl, rfl, rfl⟩
  · obtain ⟨hm, hb, hf⟩ := pack_ok_inv toLowerCase a a1 ret h hne
    obtain ⟨img, himg, rfl, rfl⟩ := pack_ok_eq toLowerCase a a1 ret h hne
    have hlen := packState_imgData_length toLowerCase a img himg
    have hent := packState_entries toLowerCase a img
    have hhdr := packHeaderSize_packState toLowerCase a img
    have hne1 : (packState toLowerCase a img)._entries ≠ [] := by
      intro h0
      have := packState_entries_length toLowerCase a img
      rw [h0] at this
      exact hne (List.length_eq_zero.mp this.symm)
    have hb1 : InBounds (packState toLowerCase a img)._imgData
        (packState toLowerCase a img).entries := by
      intro e he
      rw [hent] at he
      have h1 := mem_layoutFrom_bound he
      have h2 : (e.offset + e.size) * BLOCK_SIZE ≤
          (packHeaderSize a + totalSize a.entries) * BLOCK_SIZE := Nat.mul_le_mul_right _ h1
      rw [Nat.add_mul] at h2
      simp only [IMGEntry.offsetInBytes, IMGEntry.sizeInBytes]
      omega
    have hf1 : NamesFit (packState toLowerCase a img).entries := by
      rw [hent]
      exact namesFit_layoutFrom hf
    obtain ⟨img2, himg2, hp2⟩ :=
      pack_success toLowerCase (packState toLowerCase a img) hm hne1 hb1 hf1
    rw [hhdr, hent, layoutFrom_idem, totalSize_layoutFrom] at himg2
    rw [hhdr, hent, totalSize_layoutFrom] at hp2
    have hz : (packHeaderSize a + totalSize a.entries) * BLOCK_SIZE -
        (packState toLowerCase a img)._imgData.length = 0 := by omega
    have hz0 : zeros 0 = [] := rfl
    rw [hz, hz0, List.append_nil] at himg2
    have hcongr : ∀ e ∈ layoutFrom (packHeaderSize a) a.entries,
        mapGet (mapSetAll [] (payloads (packState toLowerCase a img)._imgData
          (layoutFrom (packHeaderSize a) a.entries))) e.name =
        mapGet (mapSetAll [] (payloads a._imgData a.entries)) e.name := by
      intro e he
      rw [mapGet_mapSetAll_nil, mapGet_mapSetAll_nil]
      have hmem : e.name ∈ (layoutFrom (packHeaderSize a) a.entries).map (fun e => e.name) :=
        List.mem_map.mpr ⟨e, he, rfl⟩
      rw [layoutFrom_names] at hmem
      obtain ⟨x, hx, hxe⟩ := List.mem_map.mp hmem
      cases hl : lastValue (payloads a._imgData a.entries) e.name with
      | none =>
        rw [lastValue_eq_none] at hl
        exact absurd hxe (hl (x.name, slice a._imgData x.offsetInBytes
          (x.offsetInBytes + x.sizeInBytes)) (List.mem_map.mpr ⟨x, hx, rfl⟩))
      | some v =>
        exact packWrite_lastValue a._imgData _ a.entries (packHeaderSize a) _ img hb
          (fun k v hk => by rw [mapGet_mapSetAll_nil]; exact hk) himg e.name v hl
    have hsame : (img2, (none : Option IMGError)) = (img, none) := by
      rw [← himg2, packWrite_map_congr hcongr]
      exact packWrite_idem himg
    have himg_eq : img2 = img := (Prod.mk.inj hsame).1
    subst himg_eq
    refine ⟨_, hp2, ?_, rfl, ?_⟩
    · rw [packState_entries, hhdr, hent, layoutFrom_idem]
    · simp only [packState]
      exact hhdr


theorem readData_ok {imgData : List Byte} {e : IMGEntry}
    (h : e.offsetInBytes + e.sizeInBytes ≤ imgData.length) :
    readData imgData e =
      .ok (slice imgData e.offsetInBytes (e.offsetInBytes + e.sizeInBytes)) := by
  unfold readData
  simp only []
  rw [if_neg (by omega)]

theorem forall₂_layoutFrom (cur : Nat) (os : List IMGEntry) :
    List.Forall₂
      (fun ne e : IMGEntry =>
        ne ∈ layoutFrom cur os ∧ e ∈ os ∧ ne.name = e.name ∧ ne.size = e.size)
      (layoutFrom cur os) os := by
  induction os generalizing cur with
  | nil => exact List.Forall₂.nil
  | cons x rest ih =>
    simp only [layoutFrom]
    refine List.Forall₂.cons ⟨List.mem_cons_self _ _, List.mem_cons_self _ _,
      namedEntry_name _ _ _, rfl⟩ ?_
    exact (ih (cur + x.size)).imp fun ne e ⟨h1, h2, h3, h4⟩ =>
      ⟨List.mem_cons_of_mem _ h1, List.mem_cons_of_mem _ h2, h3, h4⟩

theorem inBounds_after_packWrite {a : IMGArchive} {m : List (JSString × List Byte)}
    {img : List Byte}
    (h : packWrite m (layoutFrom (packHeaderSize a) a.entries)
        (a._imgData ++
          zeros ((packHeaderSize a + totalSize a.entries) * BLOCK_SIZE - a._imgData.length)) =
        (img, none)) :
    InBounds img (layoutFrom (packHeaderSize a) a.entries) := by
  intro e he
  have h1 := mem_layoutFrom_bound he
  have h2 : (e.offset + e.size) * BLOCK_SIZE ≤
      (packHeaderSize a + totalSize a.entries) * BLOCK_SIZE := Nat.mul_le_mul_right _ h1
  rw [Nat.add_mul] at h2
  have h3 := packWrite_length h
  simp only [List.length_append, zeros_length] at h3
  simp only [IMGEntry.offsetInBytes, IMGEntry.sizeInBytes]
  omega

/-- C4 (as amended): on a writable archive whose entries have pairwise
distinct names, all lie within the data buffer and have names whose encoding
fits the 24-byte name field (every ASCII name of at most 24 characters does),
`pack()` succeeds; afterwards the table has the same length, its i-th entry
has the same name and size as the i-th entry before, and `readEntryData` of
the i-th entry returns the same bytes as it did before `pack`. -/
theorem pack_preserves_payloads (toLowerCase : JSString → JSString) (a : IMGArchive)
    (hm : a._mode = .READ_WRITE) (hnd : (a.entries.map fun e => e.name).Nodup)
    (hb : InBounds a._imgData a.entries) (hf : NamesFit a.entries) :
    ∃ ret a1, pack toLowerCase a = .ok ret a1 ∧ a1.entryCount = a.entryCount ∧
      List.Forall₂
        (fun r1 r =>
          (a1.heap r1).name = (a.heap r).name ∧ (a1.heap r1).size = (a.heap r).size ∧
          readEntryData a1 (some r1) = readEntryData a (some r))
        a1._entries a._entries := by
  have hmode : a._mode ≠ .READ_ONLY := by rw [hm]; decide
  by_cases hne : a._entries = []
  · refine ⟨_, a, pack_empty toLowerCase a hmode hne, rfl, ?_⟩
    rw [hne]
    exact List.Forall₂.nil
  · obtain ⟨img, himg, hp⟩ := pack_success toLowerCase a hmode hne hb hf
    refine ⟨_, _, hp, ?_, ?_⟩
    · simp [IMGArchive.entryCount, packState, length_layoutFrom, IMGArchive.entries]
    · have hb1 := inBounds_after_packWrite himg
      have hkeys : ((payloads a._imgData a.entries).map fun p => p.1) =
          a.entries.map fun e => e.name := by
        simp [payloads]
      have hvals : List.Forall₂
          (fun ne e : IMGEntry =>
            ne.name = e.name ∧ ne.size = e.size ∧
            (match readData img ne with
              | .error err => Except.error err
              | .ok d => Except.ok (some d)) =
            (match readData a._imgData e with
              | .error err => Except.error err
              | .ok d => Except.ok (some d)))
          (layoutFrom (packHeaderSize a) a.entries) a.entries := by
        refine (forall₂_layoutFrom (packHeaderSize a) a.entries).imp ?_
        rintro ne e ⟨hne1, he1, hname, hsize⟩
        refine ⟨hname, hsize, ?_⟩
        rw [readData_ok (hb1 ne hne1), readData_ok (hb e he1)]
        simp only [Except.ok.injEq, Option.some.injEq]
        have hold : lastValue (payloads a._imgData a.entries) e.name =
            some (slice a._imgData e.offsetInBytes (e.offsetInBytes + e.sizeInBytes)) :=
          lastValue_of_nodup (p := (e.name, _)) (by rw [hkeys]; exact hnd)
            (List.mem_map.mpr ⟨e, he1, rfl⟩)
        have hnew := packWrite_lastValue a._imgData _ a.entries (packHeaderSize a) _ img hb
          (fun k v hk => by rw [mapGet_mapSetAll_nil]; exact hk) himg e.name _ hold
        have hown : lastValue (payloads img (layoutFrom (packHeaderSize a) a.entries)) ne.name =
            some (slice img ne.offsetInBytes (ne.offsetInBytes + ne.sizeInBytes)) :=
          lastValue_of_nodup (p := (ne.name, _))
            (by rw [payloads_layoutFrom_keys]; exact hnd)
            (List.mem_map.mpr ⟨ne, hne1, rfl⟩)
        rw [hname, hnew] at hown
        exact (Option.some.inj hown).symm
      have hrefs : (packState toLowerCase a img)._entries.map (packState toLowerCase a img).heap =
          layoutFrom (packHeaderSize a) a.entries := packState_entries toLowerCase a img
      rw [← hrefs] at hvals
      have hvals2 := List.forall₂_map_left_iff.mp hvals
      unfold IMGArchive.entries at hvals2
      have hvals3 := List.forall₂_map_right_iff.mp hvals2
      exact hvals3.imp fun r1 r h => h


/-! ## The create, add, add, remove, pack scenario -/

theorem scenarioOne_ok (toLowerCase : JSString → JSString) (d1 : List Byte) :
    addEntry toLowerCase (createArchive .VER2) aTxt d1 = .ok 0 (scenarioOne toLowerCase d1) :=
  addEntry_eq toLowerCase (createArchive .VER2) aTxt d1 (by decide) (by decide) (by decide)

theorem scenarioOne_entry (toLowerCase : JSString → JSString) (d1 : List Byte)
    (h1 : d1.length = 5000) :
    (scenarioOne toLowerCase d1).heap 0 = namedEntry 1 3 aTxt := by
  have hoff : addOffset (createArchive .VER2) = 1 := by decide
  have hsz : bytesToBlocks 5000 = 3 := by decide
  simp only [scenarioOne, addEntryState, heapSet, hoff, h1, hsz]
  rfl

theorem scenarioOne_length (toLowerCase : JSString → JSString) (d1 : List Byte)
    (h1 : d1.length = 5000) : (scenarioOne toLowerCase d1)._imgData.length = 8192 := by
  have hoff : addOffset (createArchive .VER2) = 1 := by decide
  have hsz : bytesToBlocks 5000 = 3 := by decide
  have h0 : (createArchive .VER2)._imgData.length = 8 := by decide
  simp only [scenarioOne, addEntryState, addImgData_length, hoff, h1, hsz, h0, BLOCK_SIZE]
  rfl

theorem scenarioTwo_ok (toLowerCase : JSString → JSString) (d1 d2 : List Byte) :
    addEntry toLowerCase (scenarioOne toLowerCase d1) bTxt d2 =
      .ok 1 (scenarioTwo toLowerCase d1 d2) :=
  addEntry_eq toLowerCase (scenarioOne toLowerCase d1) bTxt d2
    (by rw [show (scenarioOne toLowerCase d1)._mode = .READ_WRITE from rfl]; decide)
    (by decide) (by decide)

theorem scenarioTwo_offset (toLowerCase : JSString → JSString) (d1 : List Byte)
    (h1 : d1.length = 5000) : addOffset (scenarioOne toLowerCase d1) = 4 := by
  have he := scenarioOne_entry toLowerCase d1 h1
  have hen : (scenarioOne toLowerCase d1)._entries = [0] := rfl
  simp only [addOffset, reserveHeaderSpace_snd, _getDataEndOffset, hen]
  simp [he, namedEntry]

theorem scenarioTwo_entries (toLowerCase : JSString → JSString) (d1 d2 : List Byte)
    (h1 : d1.length = 5000) (h2 : d2.length = 10) :
    (scenarioTwo toLowerCase d1 d2).entries = [namedEntry 1 3 aTxt, namedEntry 4 1 bTxt] := by
  have he := scenarioOne_entry toLowerCase d1 h1
  have hoff := scenarioTwo_offset toLowerCase d1 h1
  have hsz : bytesToBlocks 10 = 1 := by decide
  have hen : (scenarioOne toLowerCase d1)._entries = [0] := rfl
  have hnr : (scenarioOne toLowerCase d1).nextRef = 1 := rfl
  simp only [IMGArchive.entries, scenarioTwo, addEntryState, hen, hnr, hoff, h2, hsz]
  simp [heapSet, he]

theorem scenarioTwo_length (toLowerCase : JSString → JSString) (d1 d2 : List Byte)
    (h1 : d1.length = 5000) (h2 : d2.length = 10) :
    (scenarioTwo toLowerCase d1 d2)._imgData.length = 10240 := by
  have hoff := scenarioTwo_offset toLowerCase d1 h1
  have hsz : bytesToBlocks 10 = 1 := by decide
  have h0 := scenarioOne_length toLowerCase d1 h1
  simp only [scenarioTwo, addEntryState, addImgData_length, hoff, h2, hsz, h0, BLOCK_SIZE]
  rfl

theorem scenarioThree_ok (toLowerCase : JSString → JSString) (d1 d2 : List Byte)
    (h1 : d1.length = 5000) :
    removeEntry toLowerCase (scenarioTwo toLowerCase d1 d2) aTxt =
      .ok true (scenarioThree toLowerCase d1 d2) := by
  have he := scenarioOne_entry toLowerCase d1 h1
  have hen : (scenarioTwo toLowerCase d1 d2)._entries = [0, 1] := rfl
  have hh0 : (scenarioTwo toLowerCase d1 d2).heap 0 = namedEntry 1 3 aTxt := by
    simp only [scenarioTwo, addEntryState, heapSet]
    have hnr : (scenarioOne toLowerCase d1).nextRef = 1 := rfl
    simp [hnr, he]
  unfold removeEntry
  rw [if_neg (by rw [show (scenarioTwo toLowerCase d1 d2)._mode = .READ_WRITE from rfl]; decide)]
  simp only [hen, List.findIdx?_cons, hh0, namedEntry_name, decide_True, if_true]
  rfl


theorem scenarioThree_entries (toLowerCase : JSString → JSString) (d1 d2 : List Byte)
    (h1 : d1.length = 5000) (h2 : d2.length = 10) :
    (scenarioThree toLowerCase d1 d2).entries = [namedEntry 4 1 bTxt] := by
  have h := scenarioTwo_entries toLowerCase d1 d2 h1 h2
  have hen : (scenarioTwo toLowerCase d1 d2)._entries = [0, 1] := rfl
  simp only [IMGArchive.entries, hen, List.map_cons, List.map_nil, List.cons.injEq,
    and_true] at h
  simp only [IMGArchive.entries, scenarioThree, List.map_cons, List.map_nil, h.2]

theorem scenarioThree_pack (toLowerCase : JSString → JSString) (d1 d2 : List Byte)
    (h1 : d1.length = 5000) (h2 : d2.length = 10) :
    ∃ img,
      pack toLowerCase (scenarioThree toLowerCase d1 d2) =
        .ok 2 (packState toLowerCase (scenarioThree toLowerCase d1 d2) img) ∧
      (packState toLowerCase (scenarioThree toLowerCase d1 d2) img)._imgData.length = 10240 ∧
      (packState toLowerCase (scenarioThree toLowerCase d1 d2) img).entries =
        [namedEntry 1 1 bTxt] := by
  have hent := scenarioThree_entries toLowerCase d1 d2 h1 h2
  have hlen : (scenarioThree toLowerCase d1 d2)._imgData.length = 10240 :=
    scenarioTwo_length toLowerCase d1 d2 h1 h2
  have hhdr : packHeaderSize (scenarioThree toLowerCase d1 d2) = 1 := by
    have hv : (scenarioThree toLowerCase d1 d2)._version = .VER2 := rfl
    have hl : (scenarioThree toLowerCase d1 d2)._entries = [1] := rfl
    simp only [packHeaderSize, hv, hl]
    decide
  have htot : totalSize (scenarioThree toLowerCase d1 d2).entries = 1 := by
    rw [hent]; rfl
  have hb : InBounds (scenarioThree toLowerCase d1 d2)._imgData
      (scenarioThree toLowerCase d1 d2).entries := by
    intro e he
    rw [hent] at he
    simp only [List.mem_singleton] at he
    subst he
    rw [hlen]
    decide
  have hf : NamesFit (scenarioThree toLowerCase d1 d2).entries := by
    rw [hent]
    decide
  obtain ⟨img, himg, hp⟩ := pack_success toLowerCase (scenarioThree toLowerCase d1 d2)
    (by rw [show (scenarioThree toLowerCase d1 d2)._mode = .READ_WRITE from rfl]; decide)
    (by rw [show (scenarioThree toLowerCase d1 d2)._entries = [1] from rfl]; decide) hb hf
  rw [hhdr, htot] at hp
  refine ⟨img, hp, ?_, ?_⟩
  · rw [packState_imgData_length toLowerCase _ img himg, hlen, hhdr, htot]
    decide
  · rw [packState_entries, hhdr, hent]
    rfl

/-- C8: the concrete scenario.  Starting from `createArchive(VER2)`,
`addEntry('a.txt', d1)` with 5000 bytes yields size 3 blocks (6144 bytes) at
offset 1, the reserved header blocks; `addEntry('b.txt', d2)` with 10 bytes
yields size 1 at offset 4, the previous offset plus 3; after
`removeEntry('a.txt')` and `pack()` the table holds exactly the entry `b.txt`
at offset 1, the new header block count, `pack` returns 2 and the `size`
accessor is 2, the header blocks plus 1. -/
theorem concrete_scenario (toLowerCase : JSString → JSString) (d1 d2 : List Byte)
    (h1 : d1.length = 5000) (h2 : d2.length = 10) :
    ∃ r1 s1 r2 s2 s3 s4,
      addEntry toLowerCase (createArchive .VER2) aTxt d1 = .ok r1 s1 ∧
      (s1.heap r1).size = 3 ∧ (s1.heap r1).sizeInBytes = 6144 ∧
      (s1.heap r1).offset = s1._headerReservedSpace ∧ s1._headerReservedSpace = 1 ∧
      addEntry toLowerCase s1 bTxt d2 = .ok r2 s2 ∧
      (s2.heap r2).size = 1 ∧ (s2.heap r2).offset = (s1.heap r1).offset + 3 ∧
      (s2.heap r2).offset = 4 ∧
      removeEntry toLowerCase s2 aTxt = .ok true s3 ∧
      pack toLowerCase s3 = .ok 2 s4 ∧
      s4.entries.map (fun e => (e.name, e.offset, e.size)) = [(bTxt, 1, 1)] ∧
      s4._headerReservedSpace = 1 ∧ s4.size = 2 ∧ s4.size = s4._headerReservedSpace + 1 := by
  obtain ⟨img, hp, -, hent⟩ := scenarioThree_pack toLowerCase d1 d2 h1 h2
  have he1 := scenarioOne_entry toLowerCase d1 h1
  have he2 : (scenarioTwo toLowerCase d1 d2).heap 1 = namedEntry 4 1 bTxt := by
    have := scenarioTwo_entries toLowerCase d1 d2 h1 h2
    have hen : (scenarioTwo toLowerCase d1 d2)._entries = [0, 1] := rfl
    simp only [IMGArchive.entries, hen, List.map_cons, List.map_nil, List.cons.injEq,
      and_true] at this
    exact this.2
  have hsize : (packState toLowerCase (scenarioThree toLowerCase d1 d2) img).size = 2 := by
    have hv : (packState toLowerCase (scenarioThree toLowerCase d1 d2) img)._version = .VER2 :=
      rfl
    simp only [IMGArchive.size, hv, if_true]
    rw [getDataEndOffset_eq, hent]
    rfl
  have hhrs : (packState toLowerCase (scenarioThree toLowerCase d1 d2) img)._headerReservedSpace
      = 1 := by
    have hv : (scenarioThree toLowerCase d1 d2)._version = .VER2 := rfl
    have hl : (scenarioThree toLowerCase d1 d2)._entries = [1] := rfl
    simp only [packState, packHeaderSize, hv, hl]
    decide
  refine ⟨0, scenarioOne toLowerCase d1, 1, scenarioTwo toLowerCase d1 d2,
    scenarioThree toLowerCase d1 d2, packState toLowerCase (scenarioThree toLowerCase d1 d2) img,
    scenarioOne_ok toLowerCase d1, ?_, ?_, ?_, ?_, scenarioTwo_ok toLowerCase d1 d2, ?_, ?_, ?_,
    scenarioThree_ok toLowerCase d1 d2 h1, hp, ?_, hhrs, hsize, ?_⟩
  · rw [he1]; rfl
  · rw [he1]; rfl
  · rw [he1]; rfl
  · rfl
  · rw [he2]; rfl
  · rw [he1, he2]; rfl
  · rw [he2]; rfl
  · rw [hent]
    simp only [List.map_cons, List.map_nil, namedEntry_name]
    rfl
  · rw [hsize, hhrs]

/-- Instance of `concrete_scenario` with ASCII lower-casing and payloads of
5000 and 10 zero bytes. -/
theorem concrete_scenario_witness :
    ∃ r1 s1 r2 s2 s3 s4,
      addEntry asciiLower (createArchive .VER2) aTxt (List.replicate 5000 0) = .ok r1 s1 ∧
      (s1.heap r1).size = 3 ∧ (s1.heap r1).sizeInBytes = 6144 ∧
      (s1.heap r1).offset = s1._headerReservedSpace ∧ s1._headerReservedSpace = 1 ∧
      addEntry asciiLower s1 bTxt (List.replicate 10 0) = .ok r2 s2 ∧
      (s2.heap r2).size = 1 ∧ (s2.heap r2).offset = (s1.heap r1).offset + 3 ∧
      (s2.heap r2).offset = 4 ∧
      removeEntry asciiLower s2 aTxt = .ok true s3 ∧
      pack asciiLower s3 = .ok 2 s4 ∧
      s4.entries.map (fun e => (e.name, e.offset, e.size)) = [(bTxt, 1, 1)] ∧
      s4._headerReservedSpace = 1 ∧ s4.size = 2 ∧ s4.size = s4._headerReservedSpace + 1 :=
  concrete_scenario asciiLower (List.replicate 5000 0) (List.replicate 10 0)
    (List.length_replicate _ _) (List.length_replicate _ _)


/-! ## Concrete archives for `pack` -/

theorem pack_rangeError (toLowerCase : JSString → JSString) (a : IMGArchive)
    (hm : a._mode ≠ .READ_ONLY) (hne : a._entries ≠ [])
    (hb : InBounds a._imgData a.entries) (hf : ¬ NamesFit a.entries) :
    pack toLowerCase a = .throw .rangeError a := by
  have hlen : a._entries.length ≠ 0 := fun h0 => hne (List.length_eq_zero.mp h0)
  unfold pack
  rw [if_neg hm, if_neg hlen, packRead_ok _ _ _ hb]
  simp only [packLayout_none _ _ hf]

theorem sampleArchive_entries :
    sampleArchive.entries = [namedEntry 1 3 aTxt, namedEntry 4 1 bTxt] :=
  scenarioTwo_entries asciiLower _ _ (List.length_replicate _ _) (List.length_replicate _ _)

theorem sampleArchive_length : sampleArchive._imgData.length = 10240 :=
  scenarioTwo_length asciiLower _ _ (List.length_replicate _ _) (List.length_replicate _ _)

theorem sampleArchive_inBounds : InBounds sampleArchive._imgData sampleArchive.entries := by
  intro e he
  rw [sampleArchive_entries] at he
  rw [sampleArchive_length]
  simp only [List.mem_cons, List.mem_singleton, List.not_mem_nil, or_false] at he
  rcases he with rfl | rfl <;> decide

theorem sampleArchive_namesFit : NamesFit sampleArchive.entries := by
  rw [sampleArchive_entries]
  decide

theorem sampleArchive_nodup : (sampleArchive.entries.map fun e => e.name).Nodup := by
  rw [sampleArchive_entries]
  decide

theorem sampleArchive_pack :
    ∃ ret a1, pack asciiLower sampleArchive = .ok ret a1 := by
  obtain ⟨img, -, hp⟩ := pack_success asciiLower sampleArchive (by decide) (by decide)
    sampleArchive_inBounds sampleArchive_namesFit
  exact ⟨_, _, hp⟩

theorem latin1Archive_facts :
    latin1Archive._mode = .READ_WRITE ∧ latin1Archive._entries = [0] ∧
    latin1Archive.entries.map (fun e => (e.name, e.offset, e.size)) =
      [(List.replicate 13 233, 1, 1)] ∧
    latin1Archive._imgData.length = 4096 ∧
    InBounds latin1Archive._imgData latin1Archive.entries ∧
    ¬ NamesFit latin1Archive.entries := by
  decide!


/-! ## Instances and counterexamples for the claims about `pack` -/

/-- Instance of `pack_preserves_payloads` on the scenario archive holding
`a.txt` and `b.txt`. -/
theorem pack_preserves_payloads_witness :
    ∃ ret a1, pack asciiLower sampleArchive = .ok ret a1 ∧
      a1.entryCount = sampleArchive.entryCount ∧
      List.Forall₂
        (fun r1 r =>
          (a1.heap r1).name = (sampleArchive.heap r).name ∧
          (a1.heap r1).size = (sampleArchive.heap r).size ∧
          readEntryData a1 (some r1) = readEntryData sampleArchive (some r))
        a1._entries sampleArchive._entries :=
  pack_preserves_payloads asciiLower sampleArchive rfl sampleArchive_nodup
    sampleArchive_inBounds sampleArchive_namesFit

/-- C4 fails as stated.  The archive opened from `latin1File` is writable, its
single entry (offset 1, size 1) lies within the 4096-byte buffer and its name,
thirteen letters U+00E9, is trivially distinct from all others; yet `pack()`
raises a `RangeError` when it copies the name, whose encoding takes 26 bytes,
and the archive is left unpacked. -/
theorem pack_preserves_payloads_counterexample :
    latin1Archive._mode = .READ_WRITE ∧
    (latin1Archive.entries.map fun e => e.name).Nodup ∧
    InBounds latin1Archive._imgData latin1Archive.entries ∧
    pack asciiLower latin1Archive = .throw .rangeError latin1Archive := by
  obtain ⟨hm, hen, hnames, -, hb, hf⟩ := latin1Archive_facts
  refine ⟨hm, ?_, hb, ?_⟩
  · have := congrArg (List.map fun p : JSString × Nat × Nat => p.1) hnames
    simp only [List.map_map, List.map_cons, List.map_nil] at this
    have h2 : (latin1Archive.entries.map fun e => e.name) = [List.replicate 13 233] := this
    rw [h2]
    exact List.nodup_singleton _
  · exact pack_rangeError asciiLower latin1Archive (by rw [hm]; decide) (by rw [hen]; decide)
      hb hf

/-- Instance of `pack_contiguous` on the scenario archive holding `a.txt` and
`b.txt`. -/
theorem pack_contiguous_witness :
    ∃ ret a1, pack asciiLower sampleArchive = .ok ret a1 ∧
      a1.entryCount = sampleArchive.entryCount ∧
      (a1.entries.head?).map (fun e => e.offset) =
        some ⌈((32 * sampleArchive.entryCount +
          (if sampleArchive._version = .VER2 then 8 else 0) : ℕ) : ℚ) / 2048⌉₊ ∧
      List.Chain' (fun x y : IMGEntry => y.offset = x.offset + x.size) a1.entries ∧
      ret = _getDataEndOffset a1 ∧
      ret = ⌈((32 * sampleArchive.entryCount +
          (if sampleArchive._version = .VER2 then 8 else 0) : ℕ) : ℚ) / 2048⌉₊ +
        (a1.entries.map fun e => e.size).sum := by
  obtain ⟨ret, a1, hp⟩ := sampleArchive_pack
  exact ⟨ret, a1, hp, pack_contiguous asciiLower sampleArchive a1 ret hp (by decide)⟩

/-- Instance of `pack_idempotent` on the scenario archive holding `a.txt` and
`b.txt`. -/
theorem pack_idempotent_witness :
    ∃ ret a1 a2, pack asciiLower sampleArchive = .ok ret a1 ∧
      pack asciiLower a1 = .ok ret a2 ∧ a2.entries = a1.entries ∧
      a2._imgData = a1._imgData ∧ a2._headerReservedSpace = a1._headerReservedSpace := by
  obtain ⟨ret, a1, hp⟩ := sampleArchive_pack
  obtain ⟨a2, h2⟩ := pack_idempotent asciiLower sampleArchive a1 ret hp
  exact ⟨ret, a1, a2, hp, h2⟩

/-- C7 fails on the code.  In the scenario (create a unified archive, add
`a.txt` with 5000 bytes, add `b.txt` with 10 bytes, remove `a.txt`) `pack()`
succeeds and returns 2, but the data buffer keeps its 10240 bytes instead of
shrinking to `2 * 2048 = 4096`. -/
theorem pack_keeps_buffer_length :
    addEntry asciiLower (createArchive .VER2) aTxt (List.replicate 5000 0) =
      .ok 0 (scenarioOne asciiLower (List.replicate 5000 0)) ∧
    addEntry asciiLower (scenarioOne asciiLower (List.replicate 5000 0)) bTxt
        (List.replicate 10 0) = .ok 1 sampleArchive ∧
    removeEntry asciiLower sampleArchive aTxt =
      .ok true (scenarioThree asciiLower (List.replicate 5000 0) (List.replicate 10 0)) ∧
    ∃ s4,
      pack asciiLower (scenarioThree asciiLower (List.replicate 5000 0) (List.replicate 10 0)) =
        .ok 2 s4 ∧
      s4._imgData.length = 10240 ∧ s4._imgData.length ≠ 2 * 2048 := by
  obtain ⟨img, hp, hlen, -⟩ := scenarioThree_pack asciiLower (List.replicate 5000 0)
    (List.replicate 10 0) (List.length_replicate _ _) (List.length_replicate _ _)
  refine ⟨scenarioOne_ok _ _, scenarioTwo_ok _ _ _,
    scenarioThree_ok _ _ _ (List.length_replicate _ _), _, hp, hlen, ?_⟩
  rw [hlen]
  decide


/-! ## Parsing normalises the order of the table -/

theorem sortedFlag_eq_true (sorted : Bool) (lastOffset : Nat) (records : List IMGEntry) :
    sortedFlag sorted lastOffset records = true ↔
      sorted = true ∧ List.Chain (fun a b => a ≤ b) lastOffset (records.map fun e => e.offset) := by
  induction records generalizing sorted lastOffset with
  | nil => simp [sortedFlag]
  | cons e rest ih =>
    simp only [sortedFlag, ih, List.map_cons, List.chain_cons]
    by_cases h : e.offset < lastOffset
    · simp only [h, if_true, Bool.false_eq_true, false_and, false_iff, not_and]
      intro _ hle
      omega
    · simp only [h, if_false]
      constructor
      · rintro ⟨h1, h2⟩
        exact ⟨h1, Nat.le_of_not_lt h, h2⟩
      · rintro ⟨h1, -, h2⟩
        exact ⟨h1, h2⟩

/-- The flag `sorted` of the reading loop is true exactly when the records
are in non-decreasing offset order. -/
theorem sortedFlag_iff (records : List IMGEntry) :
    sortedFlag true 0 records = true ↔ records.Sorted offsetLE := by
  rw [sortedFlag_eq_true]
  simp only [true_and]
  have hchain : List.Chain (fun a b => a ≤ b) 0 (records.map fun e => e.offset) ↔
      List.Chain' (fun a b : Nat => a ≤ b) (records.map fun e => e.offset) := by
    cases records with
    | nil => simp
    | cons e rest => simp [List.Chain']
  rw [hchain, List.chain'_iff_pairwise, List.Sorted, List.pairwise_map]
  rfl

theorem sortByOffset_map (heap : Ref → IMGEntry) (refs : List Ref) :
    (sortByOffset heap refs).map heap = (refs.map heap).insertionSort offsetLE := by
  unfold sortByOffset
  exact List.map_insertionSort _ offsetLE heap refs (fun a _ b _ => Iff.rfl)

/-- The table after parsing is the stable sort by offset of the records read. -/
theorem installRecords_entries (toLowerCase : JSString → JSString) (a : IMGArchive)
    (records : List IMGEntry) :
    (installRecords toLowerCase a records).entries = records.insertionSort offsetLE := by
  have hmap := map_allocAll a.heap a.nextRef records
  unfold installRecords
  simp only []
  by_cases hs : sortedFlag true 0 records = false ∧
      (List.range' a.nextRef records.length).length > 1
  · rw [if_pos hs]
    split <;>
    · simp only [IMGArchive.entries]
      rw [sortByOffset_map, hmap]
  · rw [if_neg hs]
    have hsorted : records.Sorted offsetLE := by
      by_cases hf : sortedFlag true 0 records = true
      · exact (sortedFlag_iff records).mp hf
      · have hlen : records.length ≤ 1 := by
          have : ¬ (List.range' a.nextRef records.length).length > 1 := by
            intro hgt
            exact hs ⟨by simpa using hf, hgt⟩
          simpa using this
        match records, hlen with
        | [], _ => exact List.sorted_nil
        | [e], _ => exact List.sorted_singleton e
    split <;>
    · simp only [IMGArchive.entries]
      rw [hmap, hsorted.insertionSort_eq]

/-- A stable sort keeps, for every offset, the records with that offset in
their original order. -/
theorem insertionSort_filter_offset (records : List IMGEntry) (k : Nat) :
    (records.insertionSort offsetLE).filter (fun e => e.offset = k) =
      records.filter (fun e => e.offset = k) := by
  have hpw : (records.filter (fun e => e.offset = k)).Pairwise offsetLE := by
    apply List.pairwise_of_forall_mem_list
    intro x hx y hy
    have h1 := (List.mem_filter.mp hx).2
    have h2 := (List.mem_filter.mp hy).2
    simp only [decide_eq_true_eq] at h1 h2
    simp only [offsetLE, h1, h2, le_refl]
  have hsub : List.Sublist (records.filter (fun e => e.offset = k))
      (records.insertionSort offsetLE) :=
    List.sublist_insertionSort hpw (List.filter_sublist _)
  have hsub2 := hsub.filter (fun e => e.offset = k)
  rw [List.filter_filter] at hsub2
  simp only [Bool.and_self] at hsub2
  have hlen : ((records.insertionSort offsetLE).filter (fun e => e.offset = k)).length =
      (records.filter (fun e => e.offset = k)).length :=
    ((List.perm_insertionSort offsetLE records).filter _).length_eq
  exact (hsub2.eq_of_length hlen.symm).symm

theorem parsed_order (records : List IMGEntry) :
    (records.insertionSort offsetLE).Sorted offsetLE ∧
    (records.insertionSort offsetLE).Perm records ∧
    (∀ k, (records.insertionSort offsetLE).filter (fun e => e.offset = k) =
      records.filter (fun e => e.offset = k)) ∧
    (records.Sorted offsetLE → records.insertionSort offsetLE = records) :=
  ⟨List.sorted_insertionSort offsetLE records, List.perm_insertionSort offsetLE records,
    insertionSort_filter_offset records, fun h => h.insertionSort_eq⟩

theorem readHeaderVer2_entries (toLowerCase : JSString → JSString) (a : IMGArchive) :
    (_readHeaderVer2 toLowerCase a).entries =
      (recordsVer2 a._imgData).insertionSort offsetLE := by
  unfold _readHeaderVer2 recordsVer2
  by_cases h : a._imgData.length < 8
  · simp only [h, if_true]
    rfl
  · simp only [h, if_false]
    exact installRecords_entries toLowerCase _ _

theorem readHeaderVer1_entries (toLowerCase : JSString → JSString) (a : IMGArchive) :
    (_readHeaderVer1 toLowerCase a).entries =
      (recordsVer1 a._dirData).insertionSort offsetLE := by
  unfold _readHeaderVer1 recordsVer1
  cases a._dirData with
  | none => rfl
  | some dir => exact installRecords_entries toLowerCase _ _

/-- C9: parsing normalises the order of the table.  For every archive state,
the entries sequence left by `_readHeaderVer2` (unified layout) and by
`_readHeaderVer1` (split layout) is sorted by non-decreasing offset, is a
permutation of the records read, keeps the records of equal offset in their
file order, and is exactly the file order when the records are already in
non-decreasing offset order. -/
theorem parse_normalises_order (toLowerCase : JSString → JSString) (a : IMGArchive) :
    ((_readHeaderVer2 toLowerCase a).entries.Sorted offsetLE ∧
      (_readHeaderVer2 toLowerCase a).entries.Perm (recordsVer2 a._imgData) ∧
      (∀ k, (_readHeaderVer2 toLowerCase a).entries.filter (fun e => e.offset = k) =
        (recordsVer2 a._imgData).filter (fun e => e.offset = k)) ∧
      ((recordsVer2 a._imgData).Sorted offsetLE →
        (_readHeaderVer2 toLowerCase a).entries = recordsVer2 a._imgData)) ∧
    ((_readHeaderVer1 toLowerCase a).entries.Sorted offsetLE ∧
      (_readHeaderVer1 toLowerCase a).entries.Perm (recordsVer1 a._dirData) ∧
      (∀ k, (_readHeaderVer1 toLowerCase a).entries.filter (fun e => e.offset = k) =
        (recordsVer1 a._dirData).filter (fun e => e.offset = k)) ∧
      ((recordsVer1 a._dirData).Sorted offsetLE →
        (_readHeaderVer1 toLowerCase a).entries = recordsVer1 a._dirData)) := by
  rw [readHeaderVer2_entries, readHeaderVer1_entries]
  exact ⟨parsed_order _, parsed_order _⟩


/-! ## `renameEntry` -/

theorem clearedNameBytes_of_fieldOk {e : IMGEntry} (h : e.fieldOk) :
    clearedNameBytes e.nameBytes = zeros NAME_FIELD_SIZE := by
  unfold clearedNameBytes
  cases hnb : e.nameBytes with
  | none => rfl
  | some nb =>
    have hl := h nb hnb
    simp only [hl, Nat.min_self]
    rw [List.drop_of_length_le (by omega)]
    simp

/-- On an entry whose name field has its 24 bytes the setter succeeds when
the encoded name fits; offset and size are untouched and the getter returns
the new name. -/
theorem setName_ok (e : IMGEntry) (value : JSString) (hfield : e.fieldOk)
    (h : nameFits value) :
    ∃ e1, IMGEntry.setName e value = .ok () e1 ∧ e1.offset = e.offset ∧ e1.size = e.size ∧
      e1.name = value ∧ e1.fieldOk := by
  unfold nameFits at h
  unfold IMGEntry.setName
  rw [clearedNameBytes_of_fieldOk hfield]
  by_cases hv : value = []
  · subst hv
    refine ⟨{ e with _name := [], nameBytes := some (zeros NAME_FIELD_SIZE) }, ?_, rfl, rfl,
      ?_, ?_⟩
    · simp only [ne_eq, not_true_eq_false, if_false]
    · simp only [IMGEntry.name, ne_eq, not_true_eq_false, if_false, takeWhile_zeros, textDecode,
        List.map_nil]
    · intro nb hnb
      simp only [Option.some.injEq] at hnb
      rw [← hnb, zeros_length]
  · have hle : 0 + (textEncode (value.take MAX_NAME_LENGTH)).length ≤
        (zeros NAME_FIELD_SIZE).length := by
      rw [zeros_length]; omega
    simp only [ne_eq, hv, not_false_eq_true, if_true, setBytes_of_le hle]
    refine ⟨_, rfl, rfl, rfl, ?_, ?_⟩
    · simp [IMGEntry.name, hv]
    · intro nb hnb
      simp only [Option.some.injEq] at hnb
      rw [← hnb, ← (setBytes_eq_some (setBytes_of_le hle)).2, length_setBytes (setBytes_of_le hle),
        zeros_length]

theorem mapHas_eq_false {ν : Type} {m : List (JSString × ν)} {k : JSString}
    (h : mapHas m k = false) : mapGet m k = none := by
  unfold mapHas at h
  cases hg : mapGet m k with
  | none => rfl
  | some v => rw [hg] at h; simp at h

/-- C10 (as amended): on a writable archive, for every name `A` present in
the index and every name `B` of at most 23 code units that is not present
(case-insensitively) and whose UTF-8 encoding fits the 24-byte name field
(every ASCII name does), `renameEntry(A, B)` succeeds; afterwards
`getEntryByName(B)` returns the entry object formerly found under `A`, now
named `B`, with its offset and size unchanged, `getEntryByName(A)` returns
`null`, the table is unchanged, and `containsEntry` is true for every case
variant of `B`. -/
theorem renameEntry_success (toLowerCase : JSString → JSString) (a : IMGArchive)
    (A B : JSString) (r : Ref) (hm : a._mode = .READ_WRITE)
    (hA : getEntryByName toLowerCase a A = some r) (hl : B.length ≤ 23)
    (hB : containsEntry toLowerCase a B = false) (hfit : nameFits B)
    (hfield : (a.heap r).fieldOk) :
    ∃ a1, renameEntry toLowerCase a A B = .ok () a1 ∧
      getEntryByName toLowerCase a1 B = some r ∧
      (a1.heap r).name = B ∧
      (a1.heap r).offset = (a.heap r).offset ∧ (a1.heap r).size = (a.heap r).size ∧
      getEntryByName toLowerCase a1 A = none ∧
      a1._entries = a._entries ∧
      ∀ B1, toLowerCase B1 = toLowerCase B → containsEntry toLowerCase a1 B1 = true := by
  obtain ⟨e1, hset, hoff, hsize, hname, -⟩ := setName_ok (a.heap r) B hfield hfit
  have hne : toLowerCase A ≠ toLowerCase B := by
    intro heq
    have h1 := mapHas_eq_false hB
    unfold getEntryByName at hA
    rw [heq, h1] at hA
    cases hA
  unfold renameEntry
  rw [if_neg (by rw [hm]; decide), if_neg (by simp only [MAX_NAME_LENGTH]; omega), hA]
  simp only [hset]
  refine ⟨_, rfl, ?_, ?_, ?_, ?_, ?_, rfl, ?_⟩
  · simp only [getEntryByName, mapGet_mapSet_self]
  · simp only [heapSet, if_true, hname]
  · simp only [heapSet, if_true, hoff]
  · simp only [heapSet, if_true, hsize]
  · simp only [getEntryByName]
    rw [mapGet_mapSet_ne _ _ hne, mapGet_mapDelete_self]
  · intro B1 hB1
    simp only [containsEntry, mapHas, hB1, mapGet_mapSet_self, Option.isSome_some]


theorem setName_throw (e : IMGEntry) (value : JSString) (hfield : e.fieldOk)
    (h : ¬ nameFits value) : ∃ e1, IMGEntry.setName e value = .throw .rangeError e1 := by
  unfold nameFits at h
  unfold IMGEntry.setName
  rw [clearedNameBytes_of_fieldOk hfield]
  have hv : value ≠ [] := by
    rintro rfl
    simp [textEncode_nil] at h
  have hgt : 0 + (textEncode (value.take MAX_NAME_LENGTH)).length >
      (zeros NAME_FIELD_SIZE).length := by
    rw [zeros_length]; omega
  simp only [ne_eq, hv, not_false_eq_true, if_true, setBytes, hgt]
  exact ⟨_, rfl⟩

theorem namedEntry_fieldOk (offset size : Nat) (name : JSString) (h : nameFits name) :
    (namedEntry offset size name).fieldOk := by
  intro nb hnb
  simp only [namedEntry, Option.some.injEq] at hnb
  unfold nameFits at h
  rw [← hnb, List.length_append, zeros_length]
  omega

/-- When the new name does not fit the name field `renameEntry` raises a
`RangeError` after the old key has been deleted from the index. -/
theorem renameEntry_throw (toLowerCase : JSString → JSString) (a : IMGArchive)
    (A B : JSString) (r : Ref) (hm : a._mode = .READ_WRITE)
    (hA : getEntryByName toLowerCase a A = some r) (hl : B.length ≤ 23)
    (hfit : ¬ nameFits B) (hfield : (a.heap r).fieldOk) :
    ∃ a1, renameEntry toLowerCase a A B = .throw .rangeError a1 ∧
      a1._entryMap = mapDelete a._entryMap (toLowerCase A) := by
  obtain ⟨e1, hset⟩ := setName_throw (a.heap r) B hfield hfit
  unfold renameEntry
  rw [if_neg (by rw [hm]; decide), if_neg (by simp only [MAX_NAME_LENGTH]; omega), hA]
  simp only [hset]
  exact ⟨_, rfl, rfl⟩

theorem fooArchive_ok :
    addEntry asciiLower (createArchive .VER2) [70, 111, 111] [1, 2, 3] = .ok 0 fooArchive :=
  addEntry_eq asciiLower (createArchive .VER2) [70, 111, 111] [1, 2, 3] (by decide) (by decide)
    (by decide)

theorem fooArchive_fieldOk : (fooArchive.heap 0).fieldOk := by
  have h : fooArchive.heap 0 =
      namedEntry (addOffset (createArchive .VER2)) (bytesToBlocks 3) [70, 111, 111] := rfl
  rw [h]
  exact namedEntry_fieldOk _ _ _ (by decide)

/-- Instance of `renameEntry_success`: in the archive holding `Foo`, renaming
`Foo` to `BAR` makes `containsEntry('bar')` true. -/
theorem renameEntry_success_witness :
    ∃ a1, renameEntry asciiLower fooArchive [70, 111, 111] [66, 65, 82] = .ok () a1 ∧
      getEntryByName asciiLower a1 [66, 65, 82] = some 0 ∧
      (a1.heap 0).name = [66, 65, 82] ∧
      getEntryByName asciiLower a1 [70, 111, 111] = none ∧
      containsEntry asciiLower a1 [98, 97, 114] = true := by
  obtain ⟨a1, h1, h2, h3, -, -, h4, -, h5⟩ :=
    renameEntry_success asciiLower fooArchive [70, 111, 111] [66, 65, 82] 0 rfl (by decide)
      (by decide) (by decide) (by decide) fooArchive_fieldOk
  exact ⟨a1, h1, h2, h3, h4, h5 [98, 97, 114] (by decide)⟩

/-- C10 fails as stated.  In the archive holding `Foo`, the name of thirteen
code units U+00E9 has at most 23 characters and is not present, yet
`renameEntry('Foo', name)` raises a `RangeError` in the name setter; the key
of `Foo` has already been deleted, so afterwards `getEntryByName` finds the
entry under neither name. -/
theorem renameEntry_success_counterexample :
    addEntry asciiLower (createArchive .VER2) [70, 111, 111] [1, 2, 3] = .ok 0 fooArchive ∧
    getEntryByName asciiLower fooArchive [70, 111, 111] = some 0 ∧
    (List.replicate 13 233 : JSString).length ≤ 23 ∧
    containsEntry asciiLower fooArchive (List.replicate 13 233) = false ∧
    ∃ a1, renameEntry asciiLower fooArchive [70, 111, 111] (List.replicate 13 233) =
        .throw .rangeError a1 ∧
      getEntryByName asciiLower a1 (List.replicate 13 233) = none ∧
      getEntryByName asciiLower a1 [70, 111, 111] = none := by
  obtain ⟨a1, h1, h2⟩ := renameEntry_throw asciiLower fooArchive [70, 111, 111]
    (List.replicate 13 233) 0 rfl (by decide) (by decide) (by decide) fooArchive_fieldOk
  refine ⟨fooArchive_ok, by decide, by decide, by decide, a1, h1, ?_, ?_⟩
  · simp only [getEntryByName, h2]
    decide
  · simp only [getEntryByName, h2, mapGet_mapDelete_self]


/-! ## The reading loop of `_readHeaderVer1` ends by its guard -/

/-- With enough fuel the loop of `_readHeaderVer1` reads the whole records
from `pos` on, one every 32 bytes, and stops at the first position whose
record would pass the end of the buffer. -/
theorem readRecordsVer1_eq (data : List Byte) (fuel pos : Nat)
    (h : data.length ≤ pos + 32 * fuel) :
    readRecordsVer1 data fuel pos =
      (List.range ((data.length - pos) / 32)).map fun i => _readEntry data (pos + 32 * i) := by
  induction fuel generalizing pos with
  | zero =>
    have : (data.length - pos) / 32 = 0 := by omega
    rw [this]
    rfl
  | succ n ih =>
    unfold readRecordsVer1
    by_cases hg : pos + ENTRY_SIZE ≤ data.length
    · rw [if_pos hg]
      simp only [ENTRY_SIZE] at hg ⊢
      rw [ih (pos + 32) (by omega)]
      have hk : (data.length - pos) / 32 = (data.length - (pos + 32)) / 32 + 1 := by omega
      rw [hk, List.range_succ_eq_map, List.map_cons, List.map_map]
      congr 1
      apply List.map_congr_left
      intro i _
      simp only [Function.comp, Nat.succ_eq_add_one]
      congr 1
      omega
    · rw [if_neg hg]
      simp only [ENTRY_SIZE] at hg
      have : (data.length - pos) / 32 = 0 := by omega
      rw [this]
      rfl

/-- The fuel `_readHeaderVer1` is given suffices: the records read are the
`floor(length / 32)` whole records of the index buffer. -/
theorem recordsVer1_some (dir : List Byte) :
    recordsVer1 (some dir) =
      (List.range (dir.length / 32)).map fun i => _readEntry dir (32 * i) := by
  have h := readRecordsVer1_eq dir dir.length 0 (by omega)
  simp only [Nat.sub_zero, Nat.zero_add] at h
  exact h

/-! ## Read-only archives -/

/-- C15: read-only archives are immutable.  On an archive in `READ_ONLY` mode
`addEntry`, `writeEntryData`, `removeEntry`, `renameEntry` and `pack` each
throw the read-only error and `sync()` returns normally, and in every case the
archive (entries table, index, data and index buffers, reserved header value
and dirty flag, with every other field) is exactly as before the call. -/
theorem readOnly_immutable (toLowerCase : JSString → JSString) (a : IMGArchive)
    (name newName : JSString) (data : List Byte) (hm : a._mode = .READ_ONLY) :
    addEntry toLowerCase a name data = .throw .readOnly a ∧
    writeEntryData toLowerCase a name data = .throw .readOnly a ∧
    removeEntry toLowerCase a name = .throw .readOnly a ∧
    renameEntry toLowerCase a name newName = .throw .readOnly a ∧
    pack toLowerCase a = .throw .readOnly a ∧
    sync a = .ok () a := by
  refine ⟨?_, ?_, ?_, ?_, ?_, ?_⟩
  · unfold addEntry; rw [if_pos hm]
  · unfold writeEntryData; rw [if_pos hm]
  · unfold removeEntry; rw [if_pos hm]
  · unfold renameEntry; rw [if_pos hm]
  · unfold pack; rw [if_pos hm]
  · unfold sync; rw [if_pos hm]

/-- Instance of `readOnly_immutable`: the scenario archive holding `a.txt` and
`b.txt`, switched to `READ_ONLY` mode. -/
theorem readOnly_immutable_witness :
    addEntry asciiLower { sampleArchive with _mode := .READ_ONLY } aTxt [1] =
      .throw .readOnly { sampleArchive with _mode := .READ_ONLY } ∧
    writeEntryData asciiLower { sampleArchive with _mode := .READ_ONLY } aTxt [1] =
      .throw .readOnly { sampleArchive with _mode := .READ_ONLY } ∧
    removeEntry asciiLower { sampleArchive with _mode := .READ_ONLY } aTxt =
      .throw .readOnly { sampleArchive with _mode := .READ_ONLY } ∧
    renameEntry asciiLower { sampleArchive with _mode := .READ_ONLY } aTxt bTxt =
      .throw .readOnly { sampleArchive with _mode := .READ_ONLY } ∧
    pack asciiLower { sampleArchive with _mode := .READ_ONLY } =
      .throw .readOnly { sampleArchive with _mode := .READ_ONLY } ∧
    sync { sampleArchive with _mode := .READ_ONLY } =
      .ok () { sampleArchive with _mode := .READ_ONLY } :=
  readOnly_immutable asciiLower { sampleArchive with _mode := .READ_ONLY } aTxt bTxt [1] rfl

/-! ## `writeEntryData` -/

/-- C13: the size limit of `writeEntryData`.  On a writable archive, for a
name found in the index with entry `r`: when `data.length > size * 2048` the
call throws the too-large error and leaves the archive (data buffer, table,
dirty flag and all else) exactly as it was; when `data.length <= size * 2048`
it does not throw the too-large error. -/
theorem writeEntryData_size_limit (toLowerCase : JSString → JSString) (a : IMGArchive)
    (name : JSString) (data : List Byte) (r : Ref) (hm : a._mode = .READ_WRITE)
    (hr : getEntryByName toLowerCase a name = some r) :
    (data.length > (a.heap r).size * 2048 →
      writeEntryData toLowerCase a name data = .throw .tooLarge a) ∧
    (data.length ≤ (a.heap r).size * 2048 →
      (writeEntryData toLowerCase a name data).err? ≠ some .tooLarge) := by
  have hmode : a._mode ≠ .READ_ONLY := by rw [hm]; decide
  constructor
  · intro hgt
    unfold writeEntryData
    rw [if_neg hmode, hr]
    simp only [IMGEntry.sizeInBytes, BLOCK_SIZE]
    rw [if_pos hgt]
  · intro hle
    unfold writeEntryData
    rw [if_neg hmode, hr]
    simp only [IMGEntry.sizeInBytes, BLOCK_SIZE]
    rw [if_neg (by omega)]
    split
    · simp [Res.err?]
    · split
      · split <;> simp [Res.err?]
      · simp [Res.err?]

/-! ## A failed `pack` -/

/-- C19: a failed `pack` is atomic.  On a writable archive in which some table
entry's byte range exceeds the data buffer, `pack()` throws the out-of-bounds
error and leaves the archive (table, index, data buffer, reserved header value,
dirty flag and all else) exactly as it was. -/
theorem pack_outOfBounds_atomic (toLowerCase : JSString → JSString) (a : IMGArchive)
    (hm : a._mode = .READ_WRITE)
    (hout : ∃ r ∈ a._entries,
      (a.heap r).offset * 2048 + (a.heap r).size * 2048 > a._imgData.length) :
    pack toLowerCase a = .throw .outOfBounds a := by
  obtain ⟨r, hr, hgt⟩ := hout
  have hmode : a._mode ≠ .READ_ONLY := by rw [hm]; decide
  have hlen : a._entries.length ≠ 0 := by
    intro h0
    rw [List.length_eq_zero.mp h0] at hr
    simp at hr
  have hnb : ¬ InBounds a._imgData a.entries := by
    intro hb
    have := hb (a.heap r) (List.mem_map.mpr ⟨r, hr, rfl⟩)
    simp only [IMGEntry.offsetInBytes, IMGEntry.sizeInBytes, BLOCK_SIZE] at this
    omega
  unfold pack
  rw [if_neg hmode, if_neg hlen, packRead_error _ _ _ hnb]

/-- Instance of `writeEntryData_size_limit`: in the archive holding `Foo`
(one block), 2049 bytes are too large and 3 bytes are not. -/
theorem writeEntryData_size_limit_witness :
    (writeEntryData asciiLower fooArchive [70, 111, 111] (List.replicate 2049 0) =
      .throw .tooLarge fooArchive) ∧
    (writeEntryData asciiLower fooArchive [70, 111, 111] [7, 8, 9]).err? ≠ some .tooLarge :=
  ⟨(writeEntryData_size_limit asciiLower fooArchive [70, 111, 111] (List.replicate 2049 0) 0
      rfl (by decide)).1 (by rw [List.length_replicate]; decide),
   (writeEntryData_size_limit asciiLower fooArchive [70, 111, 111] [7, 8, 9] 0
      rfl (by decide)).2 (by decide)⟩

/-- Instance of `pack_outOfBounds_atomic`: the archive opened from a file cut
off after its header. -/
theorem pack_outOfBounds_atomic_witness :
    pack asciiLower truncatedArchive = .throw .outOfBounds truncatedArchive :=
  pack_outOfBounds_atomic asciiLower truncatedArchive (by decide)
    ⟨0, by decide, by decide⟩

/-! ## `removeEntry` -/

/-- C12: `removeEntry`.  On a writable archive `removeEntry(name)` returns
without raising; it returns `true` exactly when some table entry's name equals
`name` ignoring case, and then `containsEntry(name)` is false afterwards; when
no such entry exists it returns `false` and leaves the archive (table, index,
data buffer, dirty flag and all else) as it was; in both cases the data buffer
is not modified. -/
theorem removeEntry_spec (toLowerCase : JSString → JSString) (a : IMGArchive)
    (name : JSString) (hm : a._mode = .READ_WRITE) :
    ∃ ret a1, removeEntry toLowerCase a name = .ok ret a1 ∧
      (ret = true ↔ ∃ r ∈ a._entries, toLowerCase (a.heap r).name = toLowerCase name) ∧
      (ret = true → containsEntry toLowerCase a1 name = false) ∧
      (ret = false → a1 = a) ∧
      a1._imgData = a._imgData := by
  have hmode : a._mode ≠ .READ_ONLY := by rw [hm]; decide
  unfold removeEntry
  rw [if_neg hmode]
  simp only []
  cases hf : a._entries.findIdx?
      (fun r => decide (toLowerCase (a.heap r).name = toLowerCase name)) with
  | none =>
    refine ⟨false, a, rfl, ?_, ?_, fun _ => rfl, rfl⟩
    · simp only [Bool.false_eq_true, false_iff, not_exists, not_and]
      intro r hr
      have := (List.findIdx?_eq_none_iff.mp hf) r hr
      simpa using this
    · intro h; cases h
  | some index =>
    refine ⟨true, _, rfl, ?_, ?_, ?_, rfl⟩
    · simp only [true_iff]
      obtain ⟨hlt, hp, -⟩ := List.findIdx?_eq_some_iff_getElem.mp hf
      exact ⟨a._entries[index], List.getElem_mem _, by simpa using hp⟩
    · intro _
      simp only [containsEntry, mapHas, mapGet_mapDelete_self, Option.isSome_none]
    · intro h; cases h

/-- Instance of `removeEntry_spec`: removing `A.TXT` from the scenario archive
holding `a.txt` and `b.txt`. -/
theorem removeEntry_spec_witness :
    ∃ ret a1, removeEntry asciiLower sampleArchive [65, 46, 84, 88, 84] = .ok ret a1 ∧
      (ret = true ↔ ∃ r ∈ sampleArchive._entries,
        asciiLower (sampleArchive.heap r).name = asciiLower [65, 46, 84, 88, 84]) ∧
      (ret = true → containsEntry asciiLower a1 [65, 46, 84, 88, 84] = false) ∧
      (ret = false → a1 = sampleArchive) ∧
      a1._imgData = sampleArchive._imgData :=
  removeEntry_spec asciiLower sampleArchive [65, 46, 84, 88, 84] rfl

/-! ## `writeEntryData` in place -/

theorem setBytes_nil {t t1 : List Byte} {o : Nat} (h : setBytes t (zeros 0) o = some t1) :
    t1 = t := by
  obtain ⟨-, rfl⟩ := setBytes_eq_some h
  simp [zeros]

/-- The buffer `writeEntryData` leaves: the payload and its zero padding in
the block range of the entry. -/
theorem writeEntryData_eq (toLowerCase : JSString → JSString) (a : IMGArchive)
    (name : JSString) (data : List Byte) (r : Ref) (hm : a._mode = .READ_WRITE)
    (hr : getEntryByName toLowerCase a name = some r)
    (hb : (a.heap r).offset * 2048 + (a.heap r).size * 2048 ≤ a._imgData.length)
    (hle : data.length ≤ (a.heap r).size * 2048) :
    writeEntryData toLowerCase a name data =
      .ok () { a with
        _imgData :=
          a._imgData.take ((a.heap r).offset * 2048) ++ data ++
            zeros ((a.heap r).size * 2048 - data.length) ++
            a._imgData.drop ((a.heap r).offset * 2048 + (a.heap r).size * 2048),
        _hasUnsavedChanges := true } := by
  have hmode : a._mode ≠ .READ_ONLY := by rw [hm]; decide
  obtain ⟨img1, h1, h2⟩ := setBytes_pair a._imgData data ((a.heap r).offset * 2048)
    ((a.heap r).size * 2048 - data.length) (by omega)
  have e : (a.heap r).offset * 2048 + data.length + ((a.heap r).size * 2048 - data.length) =
      (a.heap r).offset * 2048 + (a.heap r).size * 2048 := by omega
  rw [e] at h2
  unfold writeEntryData
  rw [if_neg hmode, hr]
  simp only [IMGEntry.sizeInBytes, IMGEntry.offsetInBytes, BLOCK_SIZE]
  rw [if_neg (by omega), h1]
  simp only []
  by_cases hp : (a.heap r).size * 2048 - data.length > 0
  · rw [if_pos hp, h2]
  · rw [if_neg hp]
    have hz : (a.heap r).size * 2048 - data.length = 0 := by omega
    rw [hz] at h2
    have h4 := setBytes_nil h2
    rw [hz, h4]

/-- C14: `writeEntryData` overwrites in place.  On a writable archive, when
the index gives an entry for `name`, the entry's byte range lies within the
data buffer and `data.length <= entry.size*2048`, the call succeeds; after it
`readEntryData` of that entry returns `data` followed by zero bytes up to
`size*2048`, the buffer length and every byte outside the range
`[offset*2048, (offset+size)*2048)` are unchanged, and no entry object
(offset, size, name), the table and the index are unchanged; the dirty flag is
set. -/
theorem writeEntryData_in_place (toLowerCase : JSString → JSString) (a : IMGArchive)
    (name : JSString) (data : List Byte) (r : Ref) (hm : a._mode = .READ_WRITE)
    (hr : getEntryByName toLowerCase a name = some r)
    (hb : (a.heap r).offset * 2048 + (a.heap r).size * 2048 ≤ a._imgData.length)
    (hle : data.length ≤ (a.heap r).size * 2048) :
    ∃ a1, writeEntryData toLowerCase a name data = .ok () a1 ∧
      readEntryData a1 (some r) =
        .ok (some (data ++ zeros ((a.heap r).size * 2048 - data.length))) ∧
      a1._imgData.length = a._imgData.length ∧
      (∀ i, i < (a.heap r).offset * 2048 ∨ ((a.heap r).offset + (a.heap r).size) * 2048 ≤ i →
        a1._imgData[i]? = a._imgData[i]?) ∧
      a1.heap = a.heap ∧ a1._entries = a._entries ∧ a1._entryMap = a._entryMap ∧
      a1._hasUnsavedChanges = true := by
  refine ⟨_, writeEntryData_eq toLowerCase a name data r hm hr hb hle, ?_, ?_, ?_,
    rfl, rfl, rfl, rfl⟩
  · simp only [readEntryData]
    have hfront : (a._imgData.take ((a.heap r).offset * 2048)).length =
        (a.heap r).offset * BLOCK_SIZE := by
      simp only [List.length_take, BLOCK_SIZE]; omega
    have hpay : (data ++ zeros ((a.heap r).size * 2048 - data.length)).length =
        (a.heap r).size * BLOCK_SIZE := by
      simp only [List.length_append, zeros_length, BLOCK_SIZE]; omega
    have := readData_block _ (a._imgData.drop ((a.heap r).offset * 2048 + (a.heap r).size * 2048))
      _ (a.heap r) hfront hpay
    rw [← List.append_assoc] at this
    rw [this]
  · simp only [List.length_append, List.length_take, List.length_drop, zeros_length]
    omega
  · intro i hi
    simp only []
    rcases hi with hi | hi
    · rw [List.append_assoc, List.append_assoc, List.getElem?_append_left
        (by simp only [List.length_take]; omega), List.getElem?_take_of_lt hi]
    · have hl : (List.take ((a.heap r).offset * 2048) a._imgData ++ data ++
          zeros ((a.heap r).size * 2048 - data.length)).length =
          (a.heap r).offset * 2048 + (a.heap r).size * 2048 := by
        simp only [List.length_append, List.length_take, zeros_length]; omega
      rw [List.getElem?_append_right (by rw [hl]; omega), hl, List.getElem?_drop]
      congr 1
      omega

/-- Instance of `writeEntryData_in_place`: three bytes written over `Foo`. -/
theorem writeEntryData_in_place_witness :
    ∃ a1, writeEntryData asciiLower fooArchive [70, 111, 111] [7, 8, 9] = .ok () a1 ∧
      readEntryData a1 (some 0) =
        .ok (some ([7, 8, 9] ++ zeros ((fooArchive.heap 0).size * 2048 - 3))) ∧
      a1._imgData.length = fooArchive._imgData.length ∧
      (∀ i, i < (fooArchive.heap 0).offset * 2048 ∨
          ((fooArchive.heap 0).offset + (fooArchive.heap 0).size) * 2048 ≤ i →
        a1._imgData[i]? = fooArchive._imgData[i]?) ∧
      a1.heap = fooArchive.heap ∧ a1._entries = fooArchive._entries ∧
      a1._entryMap = fooArchive._entryMap ∧ a1._hasUnsavedChanges = true :=
  writeEntryData_in_place asciiLower fooArchive [70, 111, 111] [7, 8, 9] 0 rfl (by decide)
    (by decide!) (by decide)

/-! ## Round trip of the split layout -/

theorem slice_four (buf : List Byte) (pos : Nat) (h : pos + 4 ≤ buf.length) :
    slice buf pos (pos + 4) =
      [buf.getD pos 0, buf.getD (pos + 1) 0, buf.getD (pos + 2) 0, buf.getD (pos + 3) 0] := by
  apply List.ext_getElem?
  intro i
  rw [getElem?_slice]
  match i with
  | 0 => simp [List.getD_eq_getElem?_getD, List.getElem?_eq_getElem (by omega : pos < buf.length)]
  | 1 =>
    simp [List.getD_eq_getElem?_getD, List.getElem?_eq_getElem (by omega : pos + 1 < buf.length)]
  | 2 =>
    simp [List.getD_eq_getElem?_getD, List.getElem?_eq_getElem (by omega : pos + 2 < buf.length)]
  | 3 =>
    simp [List.getD_eq_getElem?_getD, List.getElem?_eq_getElem (by omega : pos + 3 < buf.length)]
  | n + 4 => simp

/-- Storing the 32-bit value read at `pos` writes the four bytes that are
already there. -/
theorem uint32Bytes_getUint32 (buf : List Byte) (pos : Nat) (h : pos + 4 ≤ buf.length) :
    uint32Bytes (getUint32 buf pos) = slice buf pos (pos + 4) := by
  rw [slice_four buf pos h]
  unfold uint32Bytes getUint32 byteOfNat
  have h0 := (buf.getD pos 0).isLt
  have h1 := (buf.getD (pos + 1) 0).isLt
  have h2 := (buf.getD (pos + 2) 0).isLt
  have h3 := (buf.getD (pos + 3) 0).isLt
  congr 1
  · apply Fin.ext; simp only []; omega
  congr 1
  · apply Fin.ext; simp only []; omega
  congr 1
  · apply Fin.ext; simp only []; omega
  congr 1
  · apply Fin.ext; simp only []; omega

/-- Storing a range of a buffer back where it came from changes nothing. -/
theorem setBytes_slice_self (buf : List Byte) (o n : Nat) (h : o + n ≤ buf.length) :
    setBytes buf (slice buf o (o + n)) o = some buf := by
  have hl : (slice buf o (o + n)).length = n := by
    rw [length_slice]; omega
  rw [setBytes_of_le (by rw [hl]; exact h), hl]
  congr 1
  apply List.ext_getElem?
  intro i
  by_cases h1 : i < o
  · rw [List.append_assoc, List.getElem?_append_left (by simp only [List.length_take]; omega),
      List.getElem?_take_of_lt h1]
  · have hlt : (List.take o buf).length = o := by simp only [List.length_take]; omega
    rw [List.append_assoc, List.getElem?_append_right (by omega), hlt]
    by_cases h2 : i - o < n
    · rw [List.getElem?_append_left (by omega), getElem?_slice, if_pos (by omega)]
      congr 1
      omega
    · rw [List.getElem?_append_right (by omega), hl, List.getElem?_drop]
      congr 1
      omega

/-- Writing back the record read at `pos` leaves the buffer as it is. -/
theorem writeRecord_readEntry (buf : List Byte) (pos : Nat) (h : pos + 32 ≤ buf.length) :
    writeRecord buf pos (_readEntry buf pos) = (buf, true) := by
  unfold writeRecord _readEntry
  simp only [NAME_FIELD_SIZE]
  rw [uint32Bytes_getUint32 buf pos (by omega), setBytes_slice_self buf pos 4 (by omega)]
  simp only []
  rw [uint32Bytes_getUint32 buf (pos + 4) (by omega),
    setBytes_slice_self buf (pos + 4) 4 (by omega)]
  simp only []
  rw [setBytes_slice_self buf (pos + 8) 24 (by omega)]

theorem writeRecords_readEntry (buf : List Byte) (k i : Nat) (h : 32 * (i + k) ≤ buf.length) :
    writeRecords 0 buf i ((List.range' i k).map fun j => _readEntry buf (32 * j)) =
      (buf, true) := by
  induction k generalizing i with
  | zero => rfl
  | succ n ih =>
    rw [List.range'_succ, List.map_cons]
    unfold writeRecords
    have e : 0 + i * ENTRY_SIZE = 32 * i := by simp only [ENTRY_SIZE]; omega
    rw [e, writeRecord_readEntry buf (32 * i) (by omega)]
    simp only []
    exact ih (i + 1) (by omega)

/-- The fields the common tail of the header readers leaves alone, and the
length of the table it builds. -/
theorem installRecords_frame (toLowerCase : JSString → JSString) (a : IMGArchive)
    (records : List IMGEntry) :
    (installRecords toLowerCase a records)._imgData = a._imgData ∧
    (installRecords toLowerCase a records)._dirData = a._dirData ∧
    (installRecords toLowerCase a records)._mode = a._mode ∧
    (installRecords toLowerCase a records)._version = a._version ∧
    (installRecords toLowerCase a records)._hasUnsavedChanges = a._hasUnsavedChanges ∧
    (installRecords toLowerCase a records)._entries.length = records.length := by
  have hlen : (installRecords toLowerCase a records)._entries.length = records.length := by
    have h := congrArg List.length (installRecords_entries toLowerCase a records)
    rw [IMGArchive.entries, List.length_map, List.length_insertionSort] at h
    exact h
  refine ⟨?_, ?_, ?_, ?_, ?_, hlen⟩ <;>
  · unfold installRecords
    simp only []
    split <;> split <;> rfl

theorem readHeaderVer1_frame (toLowerCase : JSString → JSString) (a : IMGArchive) :
    (_readHeaderVer1 toLowerCase a)._imgData = a._imgData ∧
    (_readHeaderVer1 toLowerCase a)._dirData = a._dirData ∧
    (_readHeaderVer1 toLowerCase a)._mode = a._mode ∧
    (_readHeaderVer1 toLowerCase a)._version = a._version := by
  unfold _readHeaderVer1
  split
  · exact ⟨rfl, rfl, rfl, rfl⟩
  · obtain ⟨h1, h2, h3, h4, -, -⟩ := installRecords_frame toLowerCase
      { a with _entries := [], _entryMap := [] } (readRecordsVer1 _ (List.length _) 0)
    exact ⟨h1, h2, h3, h4⟩

/-- C20: round trip of the split layout.  For every index buffer `dir` whose
length is a multiple of 32 and whose records are in non-decreasing offset
order, and every archive object of the split layout holding `dir` and any data
buffer, parsing with `_readHeaderVer1` and then calling `sync()` returns
without raising and leaves the index buffer equal to `dir`, whose length is
exactly `32 * entryCount`, and the data buffer unchanged. -/
theorem sync_split_round_trip (toLowerCase : JSString → JSString) (a : IMGArchive)
    (dir : List Byte) (hv : a._version = .VER1) (hd : a._dirData = some dir)
    (hlen : dir.length % 32 = 0) (hsorted : (recordsVer1 (some dir)).Sorted offsetLE) :
    ∃ a1, sync (_readHeaderVer1 toLowerCase a) = .ok () a1 ∧
      a1._dirData = some dir ∧
      dir.length = 32 * (_readHeaderVer1 toLowerCase a).entryCount ∧
      a1._imgData = a._imgData ∧
      a1._entries = (_readHeaderVer1 toLowerCase a)._entries := by
  have hentries : (_readHeaderVer1 toLowerCase a).entries =
      (List.range' 0 (dir.length / 32)).map fun j => _readEntry dir (32 * j) := by
    rw [readHeaderVer1_entries, hd, hsorted.insertionSort_eq, recordsVer1_some,
      List.range_eq_range']
  have hframe : (_readHeaderVer1 toLowerCase a)._imgData = a._imgData ∧
      (_readHeaderVer1 toLowerCase a)._dirData = some dir ∧
      (_readHeaderVer1 toLowerCase a)._version = .VER1 := by
    obtain ⟨h1, h2, -, h4⟩ := readHeaderVer1_frame toLowerCase a
    exact ⟨h1, h2.trans hd, h4.trans hv⟩
  obtain ⟨himg, hdir, hver⟩ := hframe
  have hcount : (_readHeaderVer1 toLowerCase a)._entries.length = dir.length / 32 := by
    have h := congrArg List.length hentries
    rw [IMGArchive.entries, List.length_map, List.length_map, List.length_range'] at h
    exact h
  have hrw : _rewriteHeaderSection (_readHeaderVer1 toLowerCase a) =
      .ok () { _readHeaderVer1 toLowerCase a with _dirData := some dir } := by
    unfold _rewriteHeaderSection
    rw [if_neg (by rw [hver]; decide), hdir]
    simp only [ENTRY_SIZE]
    rw [if_neg (by rw [hcount]; omega), hentries,
      writeRecords_readEntry dir (dir.length / 32) 0 (by omega)]
    simp only []
    rw [if_neg (by rw [hcount]; omega)]
  unfold sync
  by_cases hm : (_readHeaderVer1 toLowerCase a)._mode = .READ_ONLY
  · rw [if_pos hm]
    refine ⟨_, rfl, hdir, ?_, himg, rfl⟩
    rw [IMGArchive.entryCount, hcount]; omega
  · rw [if_neg hm, hrw]
    refine ⟨_, rfl, rfl, ?_, himg, rfl⟩
    rw [IMGArchive.entryCount, hcount]; omega

/-- Instance of `sync_split_round_trip`: `openArchiveWithDir` on a data
buffer of three bytes and the index buffer of two records, then `sync()`. -/
theorem sync_split_round_trip_witness :
    ∃ a1, sync (openArchiveWithDir asciiLower [1, 2, 3] twoRecordDir) = .ok () a1 ∧
      a1._dirData = some twoRecordDir ∧
      twoRecordDir.length =
        32 * (openArchiveWithDir asciiLower [1, 2, 3] twoRecordDir).entryCount ∧
      a1._imgData = [1, 2, 3] ∧
      a1._entries = (openArchiveWithDir asciiLower [1, 2, 3] twoRecordDir)._entries :=
  sync_split_round_trip asciiLower
    { IMGArchive.new with
      _mode := .READ_WRITE, _version := .VER1, _imgData := [1, 2, 3],
      _dirData := some twoRecordDir }
    twoRecordDir rfl rfl (by decide) (by decide)

/-! ## The archive each operation leaves -/

theorem takeWhile_cleared (nb : Option (List Byte)) :
    (clearedNameBytes nb).takeWhile (fun b => b ≠ 0) = [] := by
  cases nb with
  | none => exact takeWhile_zeros _
  | some b =>
    simp only [clearedNameBytes]
    cases b with
    | nil => rfl
    | cons x rest =>
      have : min NAME_FIELD_SIZE (x :: rest).length = (min NAME_FIELD_SIZE (x :: rest).length - 1) + 1 := by
        simp only [NAME_FIELD_SIZE, List.length_cons]; omega
      rw [this]
      simp [zeros, List.replicate_succ, List.takeWhile]

/-- Whether the setter returns or raises, the object is left with the new
name and its offset and size. -/
theorem setName_state (e : IMGEntry) (value : JSString) :
    (IMGEntry.setName e value).state.name = value ∧
    (IMGEntry.setName e value).state.offset = e.offset ∧
    (IMGEntry.setName e value).state.size = e.size := by
  by_cases hv : value = []
  · subst hv
    have h : IMGEntry.setName e [] =
        .ok () { e with _name := [], nameBytes := some (clearedNameBytes e.nameBytes) } := rfl
    rw [h]
    refine ⟨?_, rfl, rfl⟩
    simp only [Res.state, IMGEntry.name, ne_eq, not_true_eq_false, if_false]
    rw [takeWhile_cleared]
    rfl
  · unfold IMGEntry.setName
    simp only [ne_eq, hv, not_false_eq_true, if_true]
    split <;> simp [Res.state, IMGEntry.name, hv]

/-- The archive `addEntry` leaves: the table, the store, the index and the
data buffer as they were when it raises, the closed form when it returns. -/
theorem addEntry_state (toLowerCase : JSString → JSString) (a : IMGArchive) (name : JSString)
    (data : List Byte) :
    ((addEntry toLowerCase a name data).state._entries = a._entries ∧
      (addEntry toLowerCase a name data).state.heap = a.heap ∧
      (addEntry toLowerCase a name data).state.nextRef = a.nextRef ∧
      (addEntry toLowerCase a name data).state._entryMap = a._entryMap ∧
      (addEntry toLowerCase a name data).state._imgData = a._imgData) ∨
    (nameFits name ∧
      (addEntry toLowerCase a name data).state = addEntryState toLowerCase a name data) := by
  by_cases hm : a._mode = .READ_ONLY
  · left
    unfold addEntry
    rw [if_pos hm]
    exact ⟨rfl, rfl, rfl, rfl, rfl⟩
  by_cases hl : name.length > MAX_NAME_LENGTH
  · left
    unfold addEntry
    rw [if_neg hm, if_pos hl]
    exact ⟨rfl, rfl, rfl, rfl, rfl⟩
  by_cases hf : nameFits name
  · right
    rw [addEntry_eq toLowerCase a name data hm (by omega) hf]
    exact ⟨hf, rfl⟩
  · left
    unfold addEntry
    rw [if_neg hm, if_neg hl]
    simp only [reserveHeaderSpace_fst, Bool.true_eq_false, if_false]
    obtain ⟨e, he⟩ := setName_new_throw
      (_getDataEndOffset (_reserveHeaderSpace a (a._entries.length + 1)).2)
      (bytesToBlocks data.length) name hf
    rw [he]
    simp [Res.state, reserveHeaderSpace_snd]

/-- The archive `writeEntryData` leaves differs at most in the bytes of the
data buffer and in the dirty flag. -/
theorem writeEntryData_state (toLowerCase : JSString → JSString) (a : IMGArchive)
    (name : JSString) (data : List Byte) :
    ∃ img flag, (writeEntryData toLowerCase a name data).state =
        { a with _imgData := img, _hasUnsavedChanges := flag } ∧
      img.length = a._imgData.length := by
  unfold writeEntryData
  split
  · exact ⟨a._imgData, a._hasUnsavedChanges, rfl, rfl⟩
  split
  · exact ⟨a._imgData, a._hasUnsavedChanges, rfl, rfl⟩
  simp only []
  split
  · exact ⟨a._imgData, a._hasUnsavedChanges, rfl, rfl⟩
  split
  · exact ⟨a._imgData, a._hasUnsavedChanges, rfl, rfl⟩
  · rename_i img1 h1
    split
    · split
      · exact ⟨img1, a._hasUnsavedChanges, rfl, length_setBytes h1⟩
      · rename_i img2 h2
        exact ⟨img2, true, rfl, (length_setBytes h2).trans (length_setBytes h1)⟩
    · exact ⟨img1, true, rfl, length_setBytes h1⟩

/-- The archive `removeEntry` leaves: unchanged, or without the first table
row whose name matches and without the key. -/
theorem removeEntry_state (toLowerCase : JSString → JSString) (a : IMGArchive)
    (name : JSString) :
    (removeEntry toLowerCase a name).state = a ∨
    ∃ index, ∃ h : index < a._entries.length,
      toLowerCase (a.heap (a._entries.get ⟨index, h⟩)).name = toLowerCase name ∧
      (removeEntry toLowerCase a name).state =
        { a with
          _entries := a._entries.eraseIdx index,
          _entryMap := mapDelete a._entryMap (toLowerCase name),
          _hasUnsavedChanges := true } := by
  unfold removeEntry
  split
  · left; rfl
  simp only []
  cases hf : a._entries.findIdx?
      (fun r => decide (toLowerCase (a.heap r).name = toLowerCase name)) with
  | none => left; rfl
  | some index =>
    right
    obtain ⟨hlt, hp, -⟩ := List.findIdx?_eq_some_iff_getElem.mp hf
    exact ⟨index, hlt, by simpa using hp, rfl⟩

/-- The archive `renameEntry` leaves: unchanged, or with the entry object the
index gave for the old name renamed in place and the old key deleted; the new
key is set unless the name setter raised. -/
theorem renameEntry_state (toLowerCase : JSString → JSString) (a : IMGArchive)
    (oldName newName : JSString) :
    (renameEntry toLowerCase a oldName newName).state = a ∨
    ∃ r e1, getEntryByName toLowerCase a oldName = some r ∧
      e1.name = newName ∧ e1.offset = (a.heap r).offset ∧ e1.size = (a.heap r).size ∧
      ((∃ err, IMGEntry.setName (a.heap r) newName = .throw err e1) ∧
          (renameEntry toLowerCase a oldName newName).state =
            { a with
              heap := heapSet a.heap r e1,
              _entryMap := mapDelete a._entryMap (toLowerCase oldName) } ∨
        (∃ u, IMGEntry.setName (a.heap r) newName = .ok u e1) ∧
          (renameEntry toLowerCase a oldName newName).state =
            { a with
              heap := heapSet a.heap r e1,
              _entryMap :=
                mapSet (mapDelete a._entryMap (toLowerCase oldName)) (toLowerCase newName) r,
              _hasUnsavedChanges := true }) := by
  unfold renameEntry
  split
  · left; rfl
  split
  · left; rfl
  split
  · left; rfl
  · rename_i r hr
    right
    have hs := setName_state (a.heap r) newName
    simp only []
    cases hset : IMGEntry.setName (a.heap r) newName with
    | throw err e1 =>
      rw [hset] at hs
      exact ⟨r, e1, hr, hs.1, hs.2.1, hs.2.2, Or.inl ⟨⟨err, hset⟩, rfl⟩⟩
    | ok u e1 =>
      rw [hset] at hs
      exact ⟨r, e1, hr, hs.1, hs.2.1, hs.2.2, Or.inr ⟨⟨u, hset⟩, rfl⟩⟩

/-- The archive `pack` leaves: unchanged, or the closed form of a successful
`pack`. -/
theorem pack_state (toLowerCase : JSString → JSString) (a : IMGArchive) :
    (pack toLowerCase a).state = a ∨
    ∃ img, a._entries ≠ [] ∧ NamesFit a.entries ∧
      packWrite (mapSetAll [] (payloads a._imgData a.entries))
        (layoutFrom (packHeaderSize a) a.entries)
        (a._imgData ++
          zeros ((packHeaderSize a + totalSize a.entries) * BLOCK_SIZE - a._imgData.length)) =
        (img, none) ∧
      (pack toLowerCase a).state = packState toLowerCase a img := by
  by_cases hm : a._mode = .READ_ONLY
  · left
    unfold pack
    rw [if_pos hm]
    rfl
  by_cases hne : a._entries = []
  · left
    unfold pack
    rw [if_neg hm, if_pos (by rw [hne]; rfl)]
    rfl
  have hlen : a._entries.length ≠ 0 := fun h0 => hne (List.length_eq_zero.mp h0)
  by_cases hb : InBounds a._imgData a.entries
  · by_cases hf : NamesFit a.entries
    · right
      obtain ⟨img, himg, hp⟩ := pack_success toLowerCase a hm hne hb hf
      exact ⟨img, hne, hf, himg, by rw [hp]; rfl⟩
    · left
      unfold pack
      rw [if_neg hm, if_neg hlen, packRead_ok _ _ _ hb]
      simp only [packLayout_none _ _ hf]
      rfl
  · left
    unfold pack
    rw [if_neg hm, if_neg hlen, packRead_error _ _ _ hb]
    rfl

theorem rewriteHeaderSection_state (a : IMGArchive) :
    ∃ img dir, (_rewriteHeaderSection a).state = { a with _imgData := img, _dirData := dir } ∧
      a._imgData.length ≤ img.length := by
  have hens : ∀ k, ∃ img, _ensureImgSize a k = { a with _imgData := img } ∧
      a._imgData.length ≤ img.length := by
    intro k
    refine ⟨(_ensureImgSize a k)._imgData, ?_, ?_⟩
    · unfold _ensureImgSize
      simp only []
      split <;> rfl
    · rw [ensureImgSize_length]
      omega
  unfold _rewriteHeaderSection
  split
  · obtain ⟨img, himg, hle⟩ := hens (8 + a._entries.length * ENTRY_SIZE)
    simp only []
    rw [himg]
    split
    · exact ⟨img, a._dirData, rfl, hle⟩
    split
    · exact ⟨img, a._dirData, rfl, hle⟩
    split
    · exact ⟨img, a._dirData, rfl, hle⟩
    split
    · exact ⟨img, a._dirData, rfl, hle⟩
    · rename_i img2 h2
      refine ⟨img2, a._dirData, rfl, ?_⟩
      have := length_setBytes h2
      simp only [] at this
      omega
  · simp only []
    split
    · rename_i d _
      exact ⟨a._imgData, some d, rfl, le_refl _⟩
    · rename_i d _
      split
      · exact ⟨a._imgData, _, rfl, le_refl _⟩
      · exact ⟨a._imgData, _, rfl, le_refl _⟩

/-- The archive `sync` leaves differs at most in the two buffers and the dirty
flag, and the data buffer does not get shorter. -/
theorem sync_state (a : IMGArchive) :
    ∃ img dir flag, (sync a).state =
        { a with _imgData := img, _dirData := dir, _hasUnsavedChanges := flag } ∧
      a._imgData.length ≤ img.length := by
  obtain ⟨img, dir, hs, hle⟩ := rewriteHeaderSection_state a
  unfold sync
  split
  · exact ⟨a._imgData, a._dirData, a._hasUnsavedChanges, rfl, le_refl _⟩
  cases h : _rewriteHeaderSection a with
  | throw e a1 =>
    rw [h] at hs
    simp only [Res.state] at hs
    exact ⟨img, dir, a._hasUnsavedChanges, by simp only [Res.state]; rw [hs], hle⟩
  | ok u a1 =>
    rw [h] at hs
    simp only [Res.state] at hs
    exact ⟨img, dir, false, by simp only [Res.state]; rw [hs], hle⟩

/-! ## Invariants of call sequences: references and bounds -/

theorem createArchive_entries (version : IMGVersion) :
    (createArchive version)._entries = [] ∧ (createArchive version)._entryMap = [] := by
  cases version <;> exact ⟨rfl, rfl⟩

/-- Old references keep their objects when `addEntry` creates a new one. -/
theorem heapSet_of_fresh {a : IMGArchive} (hf : FreshRefs a) (e : IMGEntry) {r : Ref}
    (hr : r ∈ a._entries) : heapSet a.heap a.nextRef e r = a.heap r := by
  unfold heapSet
  rw [if_neg (Nat.ne_of_lt (hf r hr))]

theorem addEntryState_entries (toLowerCase : JSString → JSString) {a : IMGArchive}
    (hf : FreshRefs a) (name : JSString) (data : List Byte) :
    (addEntryState toLowerCase a name data).entries =
      a.entries ++ [namedEntry (addOffset a) (bytesToBlocks data.length) name] := by
  simp only [IMGArchive.entries, addEntryState, List.map_append, List.map_cons, List.map_nil]
  congr 1
  · apply List.map_congr_left
    intro r hr
    exact heapSet_of_fresh hf _ hr
  · simp [heapSet]

theorem freshRefs_step (toLowerCase : JSString → JSString) (a : IMGArchive) (c : Call)
    (hf : FreshRefs a) : FreshRefs (runCall toLowerCase a c) := by
  cases c with
  | addEntry name data =>
    simp only [runCall]
    rcases addEntry_state toLowerCase a name data with ⟨h1, -, h3, -, -⟩ | ⟨-, h⟩
    · intro r hr
      rw [h1] at hr
      rw [h3]
      exact hf r hr
    · rw [h]
      intro r hr
      simp only [addEntryState, List.mem_append, List.mem_singleton] at hr ⊢
      rcases hr with hr | rfl
      · exact Nat.lt_succ_of_lt (hf r hr)
      · exact Nat.lt_succ_self _
  | writeEntryData name data =>
    simp only [runCall]
    obtain ⟨img, flag, h, -⟩ := writeEntryData_state toLowerCase a name data
    rw [h]
    exact hf
  | removeEntry name =>
    simp only [runCall]
    rcases removeEntry_state toLowerCase a name with h | ⟨index, hlt, -, h⟩
    · rw [h]; exact hf
    · rw [h]
      intro r hr
      exact hf r (List.mem_of_mem_eraseIdx hr)
  | renameEntry oldName newName =>
    simp only [runCall]
    rcases renameEntry_state toLowerCase a oldName newName with h | ⟨r, e1, -, -, -, -, ⟨-, h⟩ | ⟨-, h⟩⟩
    · rw [h]; exact hf
    · rw [h]; exact hf
    · rw [h]; exact hf
  | pack =>
    simp only [runCall]
    rcases pack_state toLowerCase a with h | ⟨img, -, -, -, h⟩
    · rw [h]; exact hf
    · rw [h]
      intro r hr
      simp only [packState, List.mem_range'_1] at hr ⊢
      exact hr.2
  | sync =>
    simp only [runCall]
    obtain ⟨img, dir, flag, h, -⟩ := sync_state a
    rw [h]
    exact hf

theorem inBounds_mono {img img1 : List Byte} {es : List IMGEntry} (h : InBounds img es)
    (hle : img.length ≤ img1.length) : InBounds img1 es := by
  intro e he
  have := h e he
  omega

theorem inBounds_step (toLowerCase : JSString → JSString) (a : IMGArchive) (c : Call)
    (hf : FreshRefs a) (hb : InBounds a._imgData a.entries) :
    InBounds (runCall toLowerCase a c)._imgData (runCall toLowerCase a c).entries := by
  cases c with
  | addEntry name data =>
    simp only [runCall]
    rcases addEntry_state toLowerCase a name data with ⟨h1, h2, -, -, h5⟩ | ⟨-, h⟩
    · rw [IMGArchive.entries, h1, h2, h5]
      exact hb
    · rw [h, addEntryState_entries toLowerCase hf]
      have hlen : (addEntryState toLowerCase a name data)._imgData.length =
          max a._imgData.length ((addOffset a + bytesToBlocks data.length) * BLOCK_SIZE) :=
        addImgData_length a data
      intro e he
      rcases List.mem_append.mp he with he | he
      · have := hb e he
        omega
      · rw [List.mem_singleton] at he
        subst he
        simp only [IMGEntry.offsetInBytes, IMGEntry.sizeInBytes, namedEntry]
        rw [hlen, Nat.add_mul]
        omega
  | writeEntryData name data =>
    simp only [runCall]
    obtain ⟨img, flag, h, hlen⟩ := writeEntryData_state toLowerCase a name data
    rw [h]
    exact inBounds_mono hb (by simp only []; omega)
  | removeEntry name =>
    simp only [runCall]
    rcases removeEntry_state toLowerCase a name with h | ⟨index, hlt, -, h⟩
    · rw [h]; exact hb
    · rw [h]
      intro e he
      simp only [IMGArchive.entries, List.mem_map] at he
      obtain ⟨r, hr, rfl⟩ := he
      exact hb _ (List.mem_map.mpr ⟨r, List.mem_of_mem_eraseIdx hr, rfl⟩)
  | renameEntry oldName newName =>
    simp only [runCall]
    have key : ∀ (r : Ref) (e1 : IMGEntry) (m : List (JSString × Ref)) (flag : Bool),
        e1.offset = (a.heap r).offset → e1.size = (a.heap r).size →
        InBounds a._imgData
          ({ a with heap := heapSet a.heap r e1, _entryMap := m,
                    _hasUnsavedChanges := flag } : IMGArchive).entries := by
      intro r e1 m flag ho hs e he
      simp only [IMGArchive.entries, List.mem_map] at he
      obtain ⟨r1, hr1, rfl⟩ := he
      have h0 := hb (a.heap r1) (List.mem_map.mpr ⟨r1, hr1, rfl⟩)
      by_cases hr : r1 = r
      · subst hr
        simp only [heapSet, if_true, IMGEntry.offsetInBytes, IMGEntry.sizeInBytes, ho, hs]
        exact h0
      · simp only [heapSet, if_neg hr]
        exact h0
    rcases renameEntry_state toLowerCase a oldName newName with
      h | ⟨r, e1, -, -, ho, hs, ⟨-, h⟩ | ⟨-, h⟩⟩
    · rw [h]; exact hb
    · rw [h]; exact key r e1 _ a._hasUnsavedChanges ho hs
    · rw [h]; exact key r e1 _ true ho hs
  | pack =>
    simp only [runCall]
    rcases pack_state toLowerCase a with h | ⟨img, -, -, hw, h⟩
    · rw [h]; exact hb
    · rw [h, packState_entries]
      exact inBounds_after_packWrite hw
  | sync =>
    simp only [runCall]
    obtain ⟨img, dir, flag, h, hle⟩ := sync_state a
    rw [h]
    exact inBounds_mono hb hle

theorem reachable_fresh {toLowerCase : JSString → JSString}
    {allowed : IMGArchive → Call → Prop} {a : IMGArchive}
    (h : ReachableBy toLowerCase allowed a) : FreshRefs a := by
  induction h with
  | create version =>
    intro r hr
    rw [(createArchive_entries version).1] at hr
    simp at hr
  | step c _ _ ih => exact freshRefs_step toLowerCase _ c ih

theorem reachable_inBounds {toLowerCase : JSString → JSString}
    {allowed : IMGArchive → Call → Prop} {a : IMGArchive}
    (h : ReachableBy toLowerCase allowed a) : InBounds a._imgData a.entries := by
  induction h with
  | create version =>
    intro e he
    rw [IMGArchive.entries, (createArchive_entries version).1] at he
    simp at he
  | step c h0 _ ih => exact inBounds_step toLowerCase _ c (reachable_fresh h0) ih

/-- C17: the bounds invariant.  In every archive state reachable from
`createArchive` (either layout) by any sequence of `addEntry`,
`writeEntryData`, `removeEntry`, `renameEntry`, `pack` and `sync` calls,
whether they return or raise, every table entry's byte range
`[offset*2048, (offset+size)*2048)` lies within the data buffer, and
`readEntryData` of every table entry returns its bytes without raising. -/
theorem bounds_invariant (toLowerCase : JSString → JSString) (a : IMGArchive)
    (h : ReachableBy toLowerCase anyCall a) :
    (∀ r ∈ a._entries,
      ((a.heap r).offset + (a.heap r).size) * 2048 ≤ a._imgData.length) ∧
    (∀ r ∈ a._entries, ∃ d, readEntryData a (some r) = .ok (some d)) := by
  have hb := reachable_inBounds h
  have hr : ∀ r ∈ a._entries,
      (a.heap r).offsetInBytes + (a.heap r).sizeInBytes ≤ a._imgData.length :=
    fun r hr => hb (a.heap r) (List.mem_map.mpr ⟨r, hr, rfl⟩)
  constructor
  · intro r hmem
    have := hr r hmem
    simp only [IMGEntry.offsetInBytes, IMGEntry.sizeInBytes, BLOCK_SIZE] at this
    omega
  · intro r hmem
    refine ⟨slice a._imgData (a.heap r).offsetInBytes
      ((a.heap r).offsetInBytes + (a.heap r).sizeInBytes), ?_⟩
    simp only [readEntryData, readData_ok (hr r hmem)]

/-- Instance of `bounds_invariant`: the state after `createArchive` (unified
layout), `addEntry('a.txt', [1, 2, 3])` and `pack()`. -/
theorem bounds_invariant_witness :
    (∀ r ∈ (runCall asciiLower
          (runCall asciiLower (createArchive .VER2) (.addEntry aTxt [1, 2, 3])) .pack)._entries,
      (((runCall asciiLower
          (runCall asciiLower (createArchive .VER2) (.addEntry aTxt [1, 2, 3])) .pack).heap
            r).offset +
        ((runCall asciiLower
          (runCall asciiLower (createArchive .VER2) (.addEntry aTxt [1, 2, 3])) .pack).heap
            r).size) * 2048 ≤
      (runCall asciiLower
        (runCall asciiLower (createArchive .VER2) (.addEntry aTxt [1, 2, 3]))
          .pack)._imgData.length) ∧
    (∀ r ∈ (runCall asciiLower
          (runCall asciiLower (createArchive .VER2) (.addEntry aTxt [1, 2, 3])) .pack)._entries,
      ∃ d, readEntryData
        (runCall asciiLower
          (runCall asciiLower (createArchive .VER2) (.addEntry aTxt [1, 2, 3])) .pack)
        (some r) = .ok (some d)) :=
  bounds_invariant asciiLower _
    (.step .pack (.step (.addEntry aTxt [1, 2, 3]) (.create .VER2) trivial) trivial)

/-! ## `renameEntry` onto a name that is present -/

/-- A `renameEntry` whose new name fits, in closed form: no check is made on
the new name beyond its length. -/
theorem renameEntry_ok_eq (toLowerCase : JSString → JSString) (a : IMGArchive)
    (A B : JSString) (r : Ref) (hm : a._mode = .READ_WRITE)
    (hA : getEntryByName toLowerCase a A = some r) (hl : B.length ≤ 23)
    (hfit : nameFits B) (hfield : (a.heap r).fieldOk) :
    ∃ e1, e1.name = B ∧ e1.offset = (a.heap r).offset ∧ e1.size = (a.heap r).size ∧
      e1.fieldOk ∧
      renameEntry toLowerCase a A B =
        .ok ()
          { a with
            heap := heapSet a.heap r e1,
            _entryMap := mapSet (mapDelete a._entryMap (toLowerCase A)) (toLowerCase B) r,
            _hasUnsavedChanges := true } := by
  obtain ⟨e1, hset, hoff, hsize, hname, hok⟩ := setName_ok (a.heap r) B hfield hfit
  refine ⟨e1, hname, hoff, hsize, hok, ?_⟩
  unfold renameEntry
  rw [if_neg (by rw [hm]; decide), if_neg (by simp only [MAX_NAME_LENGTH]; omega), hA]
  simp only [hset]

/-- C11 (as amended): `renameEntry` makes no duplicate check.  On a writable
archive whose index holds an entry for `A`, for every name `B` different from
`A` ignoring case, whether or not an entry named `B` is present, and every
case variant `B1` of `B` (at most 23 code units, encoding within the 24-byte
name field), `renameEntry(A, B1)` returns without raising: the entry formerly
found under `A` is renamed to `B1`, the index key of `B` now leads to that
entry, so an entry formerly found under `B` stays in the table, untouched, but
can no longer be found by name, the key of `A` is gone, the table keeps its
rows, and the dirty flag is set. -/
theorem renameEntry_duplicate (toLowerCase : JSString → JSString) (a : IMGArchive)
    (A B B1 : JSString) (rA : Ref) (hm : a._mode = .READ_WRITE)
    (hA : getEntryByName toLowerCase a A = some rA)
    (hne : toLowerCase A ≠ toLowerCase B) (hcase : toLowerCase B1 = toLowerCase B)
    (hl : B1.length ≤ 23) (hfit : nameFits B1) (hfield : (a.heap rA).fieldOk) :
    ∃ a1, renameEntry toLowerCase a A B1 = .ok () a1 ∧
      a1._entries = a._entries ∧
      (a1.heap rA).name = B1 ∧
      getEntryByName toLowerCase a1 B = some rA ∧
      getEntryByName toLowerCase a1 B1 = some rA ∧
      getEntryByName toLowerCase a1 A = none ∧
      (∀ r, r ≠ rA → a1.heap r = a.heap r) ∧
      a1._hasUnsavedChanges = true := by
  obtain ⟨e1, hname, -, -, -, heq⟩ := renameEntry_ok_eq toLowerCase a A B1 rA hm hA hl hfit hfield
  refine ⟨_, heq, rfl, ?_, ?_, ?_, ?_, ?_, rfl⟩
  · simp only [heapSet, if_true, hname]
  · simp only [getEntryByName, ← hcase, mapGet_mapSet_self]
  · simp only [getEntryByName, mapGet_mapSet_self]
  · simp only [getEntryByName]
    rw [mapGet_mapSet_ne _ _ (by rw [hcase]; exact hne), mapGet_mapDelete_self]
  · intro r h
    simp only [heapSet, if_neg h]

theorem sampleArchive_heap :
    sampleArchive.heap 0 = namedEntry 1 3 aTxt ∧ sampleArchive.heap 1 = namedEntry 4 1 bTxt := by
  have h := sampleArchive_entries
  have hen : sampleArchive._entries = [0, 1] := rfl
  simp only [IMGArchive.entries, hen, List.map_cons, List.map_nil, List.cons.injEq,
    and_true] at h
  exact h

/-- Instance of `renameEntry_duplicate`: in the scenario archive holding
`a.txt` and `b.txt`, `renameEntry('a.txt', 'B.TXT')`. -/
theorem renameEntry_duplicate_witness :
    ∃ a1, renameEntry asciiLower sampleArchive aTxt [66, 46, 84, 88, 84] = .ok () a1 ∧
      a1._entries = sampleArchive._entries ∧
      (a1.heap 0).name = [66, 46, 84, 88, 84] ∧
      getEntryByName asciiLower a1 bTxt = some 0 ∧
      getEntryByName asciiLower a1 [66, 46, 84, 88, 84] = some 0 ∧
      getEntryByName asciiLower a1 aTxt = none ∧
      (∀ r, r ≠ 0 → a1.heap r = sampleArchive.heap r) ∧
      a1._hasUnsavedChanges = true :=
  renameEntry_duplicate asciiLower sampleArchive aTxt bTxt [66, 46, 84, 88, 84] 0 rfl
    (by decide) (by decide) (by decide) (by decide) (by decide)
    (by rw [sampleArchive_heap.1]; exact namedEntry_fieldOk _ _ _ (by decide))

/-- C11 fails as stated.  The scenario archive is writable and holds `a.txt`
and `b.txt`; `renameEntry('a.txt', 'B.TXT')` raises no error: it returns, the
table then holds two entries whose names are equal ignoring case, and the
index key `b.txt` leads to the renamed entry (reference 0) where it led to
the entry `b.txt` (reference 1) before. -/
theorem renameEntry_duplicate_counterexample :
    sampleArchive._mode = .READ_WRITE ∧
    sampleArchive.entries.map (fun e => e.name) = [aTxt, bTxt] ∧
    getEntryByName asciiLower sampleArchive bTxt = some 1 ∧
    ∃ a1, renameEntry asciiLower sampleArchive aTxt [66, 46, 84, 88, 84] = .ok () a1 ∧
      a1.entries.map (fun e => asciiLower e.name) = [bTxt, bTxt] ∧
      getEntryByName asciiLower a1 bTxt = some 0 := by
  refine ⟨rfl, ?_, by decide, ?_⟩
  · rw [sampleArchive_entries]
    simp only [List.map_cons, List.map_nil, namedEntry_name]
  · obtain ⟨e1, hname, -, -, -, heq⟩ := renameEntry_ok_eq asciiLower sampleArchive aTxt
      [66, 46, 84, 88, 84] 0 rfl (by decide) (by decide) (by decide)
      (by rw [sampleArchive_heap.1]; exact namedEntry_fieldOk _ _ _ (by decide))
    refine ⟨_, heq, ?_, ?_⟩
    · have hen : sampleArchive._entries = [0, 1] := rfl
      have h10 : ¬ ((1 : Ref) = 0) := by decide
      simp only [IMGArchive.entries, hen, List.map_cons, List.map_nil, heapSet, if_true,
        if_neg h10, hname, sampleArchive_heap.2, namedEntry_name]
      decide
    · simp only [getEntryByName]
      have hk : asciiLower [66, 46, 84, 88, 84] = asciiLower bTxt := by decide
      rw [hk, mapGet_mapSet_self]

/-! ## Invariants of call sequences: unique names -/

theorem lowerNames_eq_map (toLowerCase : JSString → JSString) (a : IMGArchive) :
    lowerNames toLowerCase a = (a.entries.map fun e => e.name).map toLowerCase := by
  simp only [lowerNames, IMGArchive.entries, List.map_map]
  rfl

theorem lowerNames_addEntryState (toLowerCase : JSString → JSString) {a : IMGArchive}
    (hf : FreshRefs a) (name : JSString) (data : List Byte) :
    lowerNames toLowerCase (addEntryState toLowerCase a name data) =
      lowerNames toLowerCase a ++ [toLowerCase name] := by
  rw [lowerNames_eq_map, addEntryState_entries toLowerCase hf, lowerNames_eq_map]
  simp only [List.map_append, List.map_cons, List.map_nil, namedEntry_name]

theorem lowerNames_packState (toLowerCase : JSString → JSString) (a : IMGArchive)
    (img : List Byte) :
    lowerNames toLowerCase (packState toLowerCase a img) = lowerNames toLowerCase a := by
  rw [lowerNames_eq_map, packState_entries, layoutFrom_names, lowerNames_eq_map]

theorem lowerNames_step (toLowerCase : JSString → JSString) (a : IMGArchive) (c : Call)
    (hf : FreshRefs a) (hn : (lowerNames toLowerCase a).Nodup)
    (hc : tableGuard toLowerCase a c) :
    (lowerNames toLowerCase (runCall toLowerCase a c)).Nodup := by
  cases c with
  | addEntry name data =>
    simp only [runCall]
    rcases addEntry_state toLowerCase a name data with ⟨h1, h2, -, -, -⟩ | ⟨-, h⟩
    · unfold lowerNames
      rw [h1, h2]
      exact hn
    · rw [h, lowerNames_addEntryState toLowerCase hf]
      refine List.Nodup.append hn (List.nodup_singleton _) ?_
      intro k hk hk2
      rw [List.mem_singleton] at hk2
      subst hk2
      obtain ⟨r, hr, hrk⟩ := List.mem_map.mp hk
      exact hc r hr hrk
  | writeEntryData name data =>
    simp only [runCall]
    obtain ⟨img, flag, h, -⟩ := writeEntryData_state toLowerCase a name data
    rw [h]
    exact hn
  | removeEntry name =>
    simp only [runCall]
    rcases removeEntry_state toLowerCase a name with h | ⟨index, hlt, -, h⟩
    · rw [h]; exact hn
    · rw [h]
      exact List.Nodup.sublist ((List.eraseIdx_sublist a._entries index).map _) hn
  | renameEntry oldName newName =>
    simp only [runCall]
    have key : ∀ (r : Ref) (e1 : IMGEntry) (m : List (JSString × Ref)) (flag : Bool),
        getEntryByName toLowerCase a oldName = some r → e1.name = newName →
        (lowerNames toLowerCase
          ({ a with heap := heapSet a.heap r e1, _entryMap := m,
                    _hasUnsavedChanges := flag } : IMGArchive)).Nodup := by
      intro r e1 m flag hr hname
      have hinj := List.inj_on_of_nodup_map hn
      have hguard : ∀ y ∈ a._entries, y ≠ r →
          toLowerCase (a.heap y).name ≠ toLowerCase newName := by
        intro y hy hyr
        apply hc y hy
        rw [hr]
        intro h
        exact hyr (Option.some.inj h)
      unfold lowerNames
      apply List.Nodup.map_on _ hn.of_map
      intro x hx y hy hxy
      simp only [heapSet] at hxy
      by_cases h1 : x = r
      · by_cases h2 : y = r
        · rw [h1, h2]
        · rw [if_pos h1, if_neg h2, hname] at hxy
          exact absurd hxy.symm (hguard y hy h2)
      · by_cases h2 : y = r
        · rw [if_neg h1, if_pos h2, hname] at hxy
          exact absurd hxy (hguard x hx h1)
        · rw [if_neg h1, if_neg h2] at hxy
          exact hinj hx hy hxy
    rcases renameEntry_state toLowerCase a oldName newName with
      h | ⟨r, e1, hr, hname, -, -, ⟨-, h⟩ | ⟨-, h⟩⟩
    · rw [h]; exact hn
    · rw [h]; exact key r e1 _ a._hasUnsavedChanges hr hname
    · rw [h]; exact key r e1 _ true hr hname
  | pack =>
    simp only [runCall]
    rcases pack_state toLowerCase a with h | ⟨img, -, -, -, h⟩
    · rw [h]; exact hn
    · rw [h, lowerNames_packState]
      exact hn
  | sync =>
    simp only [runCall]
    obtain ⟨img, dir, flag, h, -⟩ := sync_state a
    rw [h]
    exact hn

theorem reachable_lowerNames {toLowerCase : JSString → JSString} {a : IMGArchive}
    (h : ReachableBy toLowerCase (tableGuard toLowerCase) a) :
    (lowerNames toLowerCase a).Nodup := by
  induction h with
  | create version =>
    unfold lowerNames
    rw [(createArchive_entries version).1]
    exact List.nodup_nil
  | step c h0 hc ih => exact lowerNames_step toLowerCase _ c (reachable_fresh h0) ih hc

/-- C16 (as amended): uniqueness of names.  In every archive state reachable
from `createArchive` by a sequence of `addEntry`, `writeEntryData`,
`removeEntry`, `renameEntry`, `pack` and `sync` calls, returning or raising,
in which `addEntry` is never given a name equal, ignoring case, to the name of
a table entry and `renameEntry` is never given a new name equal, ignoring
case, to the name of a table entry other than the one it renames, no two
entries of the table have names that are equal ignoring case. -/
theorem name_uniqueness (toLowerCase : JSString → JSString) (a : IMGArchive)
    (h : ReachableBy toLowerCase (tableGuard toLowerCase) a) :
    a.entries.Pairwise fun e f => toLowerCase e.name ≠ toLowerCase f.name := by
  have hn := reachable_lowerNames h
  rw [lowerNames_eq_map, List.map_map] at hn
  exact List.pairwise_map.mp hn

/-- Instance of `name_uniqueness`: `addEntry('a.txt')`, then
`addEntry('b.txt')`, on a new archive of the unified layout. -/
theorem name_uniqueness_witness :
    (runCall asciiLower (runCall asciiLower (createArchive .VER2) (.addEntry aTxt [1]))
      (.addEntry bTxt [2])).entries.Pairwise
        fun e f => asciiLower e.name ≠ asciiLower f.name :=
  name_uniqueness asciiLower _
    (.step (.addEntry bTxt [2])
      (.step (.addEntry aTxt [1]) (.create .VER2) (by unfold tableGuard; decide))
      (by unfold tableGuard; decide!))

/-- C16 fails as stated.  `addEntry` makes no duplicate check: after
`createArchive` and two calls `addEntry('a.txt', ...)`, both of which return,
the table holds two entries named `a.txt`. -/
theorem name_uniqueness_counterexample :
    ∃ a, ReachableBy asciiLower anyCall a ∧
      (addEntry asciiLower (createArchive .VER2) aTxt [1]).err? = none ∧
      (addEntry asciiLower (runCall asciiLower (createArchive .VER2) (.addEntry aTxt [1]))
        aTxt [2]).err? = none ∧
      a.entries.map (fun e => e.name) = [aTxt, aTxt] :=
  ⟨runCall asciiLower (runCall asciiLower (createArchive .VER2) (.addEntry aTxt [1]))
      (.addEntry aTxt [2]),
    .step (.addEntry aTxt [2]) (.step (.addEntry aTxt [1]) (.create .VER2) trivial) trivial,
    by decide!, by decide!, by decide!⟩

/-! ## Invariants of call sequences: the index -/

theorem rebuildMap_eq (toLowerCase : JSString → JSString) (heap : Ref → IMGEntry)
    (refs : List Ref) (acc : List (JSString × Ref)) :
    rebuildMap toLowerCase heap refs acc =
      mapSetAll acc (refs.map fun r => (toLowerCase (heap r).name, r)) := by
  induction refs generalizing acc with
  | nil => rfl
  | cons r rest ih =>
    simp only [rebuildMap, ih, List.map_cons]
    rfl

theorem fieldOk_of_mem_layoutFrom {cur : Nat} {os : List IMGEntry} (hfit : NamesFit os)
    {e : IMGEntry} (he : e ∈ layoutFrom cur os) : e.fieldOk := by
  induction os generalizing cur with
  | nil => simp [layoutFrom] at he
  | cons x rest ih =>
    simp only [layoutFrom, List.mem_cons] at he
    rcases he with rfl | he
    · exact namedEntry_fieldOk _ _ _ (hfit x (List.mem_cons_self _ _))
    · exact ih (fun y hy => hfit y (List.mem_cons_of_mem _ hy)) he

theorem indexOk_lowerNames {toLowerCase : JSString → JSString} {a : IMGArchive}
    (hi : IndexOk toLowerCase a) : (lowerNames toLowerCase a).Nodup := by
  obtain ⟨hnd, -, hcomp, -⟩ := hi
  unfold lowerNames
  apply List.Nodup.map_on _ hnd
  intro x hx y hy hxy
  have h1 := hcomp x hx
  have h2 := hcomp y hy
  rw [hxy, h2] at h1
  exact (Option.some.inj h1).symm

theorem indexOk_congr {toLowerCase : JSString → JSString} {a b : IMGArchive}
    (hi : IndexOk toLowerCase a) (h1 : b._entries = a._entries) (h2 : b.heap = a.heap)
    (h3 : b._entryMap = a._entryMap) : IndexOk toLowerCase b := by
  unfold IndexOk
  rw [h1, h2, h3]
  exact hi

theorem indexOk_addEntryState (toLowerCase : JSString → JSString) {a : IMGArchive}
    (hf : FreshRefs a) (hi : IndexOk toLowerCase a) (name : JSString) (data : List Byte)
    (hfit : nameFits name) (hc : containsEntry toLowerCase a name = false) :
    IndexOk toLowerCase (addEntryState toLowerCase a name data) := by
  obtain ⟨hnd, hsound, hcomp, hfield⟩ := hi
  have hnone : mapGet a._entryMap (toLowerCase name) = none := mapHas_eq_false hc
  have hnew : heapSet a.heap a.nextRef
      (namedEntry (addOffset a) (bytesToBlocks data.length) name) a.nextRef =
      namedEntry (addOffset a) (bytesToBlocks data.length) name := by
    simp only [heapSet, if_true]
  have hnotin : a.nextRef ∉ a._entries := fun h => Nat.lt_irrefl _ (hf _ h)
  refine ⟨?_, ?_, ?_, ?_⟩
  · simp only [addEntryState]
    refine List.Nodup.append hnd (List.nodup_singleton _) ?_
    intro r hr hr2
    rw [List.mem_singleton] at hr2
    subst hr2
    exact hnotin hr
  · intro k r hk
    simp only [addEntryState] at hk ⊢
    by_cases hkn : k = toLowerCase name
    · subst hkn
      rw [mapGet_mapSet_self] at hk
      have hr : a.nextRef = r := Option.some.inj hk
      subst hr
      exact ⟨List.mem_append_right _ (List.mem_singleton_self _), by
        rw [hnew, namedEntry_name]⟩
    · rw [mapGet_mapSet_ne _ _ hkn] at hk
      obtain ⟨hr, hname⟩ := hsound k r hk
      exact ⟨List.mem_append_left _ hr, by rw [heapSet_of_fresh hf _ hr]; exact hname⟩
  · intro r hr
    simp only [addEntryState, List.mem_append, List.mem_singleton] at hr ⊢
    rcases hr with hr | rfl
    · rw [heapSet_of_fresh hf _ hr]
      have hkn : toLowerCase (a.heap r).name ≠ toLowerCase name := by
        intro heq
        have := hcomp r hr
        rw [heq, hnone] at this
        cases this
      rw [mapGet_mapSet_ne _ _ hkn]
      exact hcomp r hr
    · rw [hnew, namedEntry_name, mapGet_mapSet_self]
  · intro r hr
    simp only [addEntryState, List.mem_append, List.mem_singleton] at hr ⊢
    rcases hr with hr | rfl
    · rw [heapSet_of_fresh hf _ hr]
      exact hfield r hr
    · rw [hnew]
      exact namedEntry_fieldOk _ _ _ hfit

theorem indexOk_remove (toLowerCase : JSString → JSString) {a : IMGArchive}
    (hi : IndexOk toLowerCase a) (name : JSString) (index : Nat) (hlt : index < a._entries.length)
    (hname : toLowerCase (a.heap (a._entries.get ⟨index, hlt⟩)).name = toLowerCase name) :
    IndexOk toLowerCase
      { a with
        _entries := a._entries.eraseIdx index,
        _entryMap := mapDelete a._entryMap (toLowerCase name),
        _hasUnsavedChanges := true } := by
  obtain ⟨hnd, hsound, hcomp, hfield⟩ := hi
  have herase : a._entries.eraseIdx index = a._entries.erase (a._entries.get ⟨index, hlt⟩) :=
    (List.Nodup.erase_get hnd ⟨index, hlt⟩).symm
  have hmem : ∀ r, r ∈ a._entries.eraseIdx index ↔
      r ≠ a._entries.get ⟨index, hlt⟩ ∧ r ∈ a._entries := by
    intro r
    rw [herase]
    exact List.Nodup.mem_erase_iff hnd
  have hr0 : a._entries.get ⟨index, hlt⟩ ∈ a._entries := List.get_mem _ _ _
  have hkey : ∀ r ∈ a._entries, toLowerCase (a.heap r).name = toLowerCase name →
      r = a._entries.get ⟨index, hlt⟩ := by
    intro r hr heq
    have h1 := hcomp r hr
    have h2 := hcomp _ hr0
    rw [heq] at h1
    rw [hname, h1] at h2
    exact Option.some.inj h2
  refine ⟨List.Nodup.eraseIdx index hnd, ?_, ?_, ?_⟩
  · intro k r hk
    simp only [] at hk ⊢
    by_cases hkn : k = toLowerCase name
    · subst hkn
      rw [mapGet_mapDelete_self] at hk
      cases hk
    · rw [mapGet_mapDelete_ne _ hkn] at hk
      obtain ⟨hr, hrn⟩ := hsound k r hk
      refine ⟨(hmem r).mpr ⟨?_, hr⟩, hrn⟩
      intro heq
      apply hkn
      rw [← hrn, heq, hname]
  · intro r hr
    simp only [] at hr ⊢
    obtain ⟨hne, hr1⟩ := (hmem r).mp hr
    have hkn : toLowerCase (a.heap r).name ≠ toLowerCase name :=
      fun heq => hne (hkey r hr1 heq)
    rw [mapGet_mapDelete_ne _ hkn]
    exact hcomp r hr1
  · intro r hr
    simp only [] at hr ⊢
    exact hfield r ((hmem r).mp hr).2

theorem indexOk_rename (toLowerCase : JSString → JSString) {a : IMGArchive}
    (hi : IndexOk toLowerCase a) (oldName newName : JSString) (r : Ref) (e1 : IMGEntry)
    (hr : getEntryByName toLowerCase a oldName = some r) (hname : e1.name = newName)
    (hok : e1.fieldOk)
    (hc : toLowerCase newName = toLowerCase oldName ∨
      containsEntry toLowerCase a newName = false) :
    IndexOk toLowerCase
      { a with
        heap := heapSet a.heap r e1,
        _entryMap := mapSet (mapDelete a._entryMap (toLowerCase oldName)) (toLowerCase newName) r,
        _hasUnsavedChanges := true } := by
  obtain ⟨hnd, hsound, hcomp, hfield⟩ := hi
  unfold getEntryByName at hr
  obtain ⟨hrmem, hrname⟩ := hsound _ r hr
  have hself : heapSet a.heap r e1 r = e1 := by simp only [heapSet, if_true]
  have hother : ∀ r1, r1 ≠ r → heapSet a.heap r e1 r1 = a.heap r1 := by
    intro r1 h
    simp only [heapSet, if_neg h]
  have hold : ∀ r1 ∈ a._entries, r1 ≠ r → toLowerCase (a.heap r1).name ≠ toLowerCase oldName := by
    intro r1 h1 hne heq
    have := hcomp r1 h1
    rw [heq, hr] at this
    exact hne (Option.some.inj this).symm
  have hnew : ∀ r1 ∈ a._entries, r1 ≠ r → toLowerCase (a.heap r1).name ≠ toLowerCase newName := by
    intro r1 h1 hne heq
    rcases hc with hc | hc
    · exact hold r1 h1 hne (heq.trans hc)
    · have := hcomp r1 h1
      rw [heq, mapHas_eq_false hc] at this
      cases this
  refine ⟨hnd, ?_, ?_, ?_⟩
  · intro k r1 hk
    simp only [] at hk ⊢
    by_cases hkn : k = toLowerCase newName
    · subst hkn
      rw [mapGet_mapSet_self] at hk
      have : r = r1 := Option.some.inj hk
      subst this
      exact ⟨hrmem, by rw [hself, hname]⟩
    · rw [mapGet_mapSet_ne _ _ hkn] at hk
      by_cases hko : k = toLowerCase oldName
      · subst hko
        rw [mapGet_mapDelete_self] at hk
        cases hk
      · rw [mapGet_mapDelete_ne _ hko] at hk
        obtain ⟨h1, h2⟩ := hsound k r1 hk
        have hne : r1 ≠ r := by
          intro heq
          apply hko
          rw [← h2, heq, hrname]
        exact ⟨h1, by rw [hother r1 hne]; exact h2⟩
  · intro r1 h1
    simp only [] at h1 ⊢
    by_cases hne : r1 = r
    · subst hne
      rw [hself, hname, mapGet_mapSet_self]
    · rw [hother r1 hne, mapGet_mapSet_ne _ _ (hnew r1 h1 hne),
        mapGet_mapDelete_ne _ (hold r1 h1 hne)]
      exact hcomp r1 h1
  · intro r1 h1
    simp only [] at h1 ⊢
    by_cases hne : r1 = r
    · subst hne
      rw [hself]
      exact hok
    · rw [hother r1 hne]
      exact hfield r1 h1

theorem indexOk_packState (toLowerCase : JSString → JSString) {a : IMGArchive}
    (hi : IndexOk toLowerCase a) (img : List Byte) (hfit : NamesFit a.entries) :
    IndexOk toLowerCase (packState toLowerCase a img) := by
  have hn : (lowerNames toLowerCase (packState toLowerCase a img)).Nodup := by
    rw [lowerNames_packState]
    exact indexOk_lowerNames hi
  obtain ⟨refs, hrefs⟩ : ∃ l, l = (packState toLowerCase a img)._entries := ⟨_, rfl⟩
  obtain ⟨heap1, hheap⟩ : ∃ f, f = (packState toLowerCase a img).heap := ⟨_, rfl⟩
  have hmap : (packState toLowerCase a img)._entryMap =
      mapSetAll [] (refs.map fun r => (toLowerCase (heap1 r).name, r)) := by
    rw [hrefs, hheap]
    exact rebuildMap_eq toLowerCase _ _ []
  have hkeys : ((refs.map fun r => (toLowerCase (heap1 r).name, r)).map fun p => p.1).Nodup := by
    rw [List.map_map, hrefs, hheap]
    exact hn
  refine ⟨List.nodup_range' _ _, ?_, ?_, ?_⟩
  · intro k r hk
    rw [hmap, mapGet_mapSetAll_nil] at hk
    have hmem := lastValue_mem hk
    obtain ⟨r1, h1, h2⟩ := List.mem_map.mp hmem
    simp only [Prod.mk.injEq] at h2
    obtain ⟨h3, h4⟩ := h2
    subst h4
    rw [← hrefs, ← hheap]
    exact ⟨h1, h3⟩
  · intro r hr
    rw [← hrefs] at hr
    rw [hmap, mapGet_mapSetAll_nil, ← hheap]
    have hp : (toLowerCase (heap1 r).name, r) ∈
        refs.map fun r => (toLowerCase (heap1 r).name, r) :=
      List.mem_map.mpr ⟨r, hr, rfl⟩
    exact lastValue_of_nodup hkeys hp
  · intro r hr
    have hmem : (packState toLowerCase a img).heap r ∈ (packState toLowerCase a img).entries :=
      List.mem_map.mpr ⟨r, hr, rfl⟩
    rw [packState_entries] at hmem
    exact fieldOk_of_mem_layoutFrom hfit hmem

theorem indexOk_step (toLowerCase : JSString → JSString) (a : IMGArchive) (c : Call)
    (hf : FreshRefs a) (hi : IndexOk toLowerCase a) (hc : indexGuard toLowerCase a c) :
    IndexOk toLowerCase (runCall toLowerCase a c) := by
  cases c with
  | addEntry name data =>
    simp only [runCall]
    rcases addEntry_state toLowerCase a name data with ⟨h1, h2, -, h4, -⟩ | ⟨hfit, h⟩
    · exact indexOk_congr hi h1 h2 h4
    · rw [h]
      exact indexOk_addEntryState toLowerCase hf hi name data hfit hc
  | writeEntryData name data =>
    simp only [runCall]
    obtain ⟨img, flag, h, -⟩ := writeEntryData_state toLowerCase a name data
    rw [h]
    exact hi
  | removeEntry name =>
    simp only [runCall]
    rcases removeEntry_state toLowerCase a name with h | ⟨index, hlt, hname, h⟩
    · rw [h]; exact hi
    · rw [h]
      exact indexOk_remove toLowerCase hi name index hlt hname
  | renameEntry oldName newName =>
    simp only [runCall]
    obtain ⟨hc1, hfit⟩ := hc
    rcases renameEntry_state toLowerCase a oldName newName with
      h | ⟨r, e1, hr, hname, -, -, h⟩
    · rw [h]; exact hi
    · have hrmem : r ∈ a._entries := (hi.2.1 _ r hr).1
      obtain ⟨e2, hset, -, -, -, hok⟩ := setName_ok (a.heap r) newName (hi.2.2.2 r hrmem) hfit
      rcases h with ⟨⟨err, herr⟩, -⟩ | ⟨⟨u, hu⟩, h⟩
      · rw [hset] at herr
        cases herr
      · rw [h]
        exact indexOk_rename toLowerCase hi oldName newName r e1 hr hname
          (by rw [hset] at hu; cases hu; exact hok) hc1
  | pack =>
    simp only [runCall]
    rcases pack_state toLowerCase a with h | ⟨img, -, hfit, -, h⟩
    · rw [h]; exact hi
    · rw [h]
      exact indexOk_packState toLowerCase hi img hfit
  | sync =>
    simp only [runCall]
    obtain ⟨img, dir, flag, h, -⟩ := sync_state a
    rw [h]
    exact hi

theorem reachable_indexOk {toLowerCase : JSString → JSString} {a : IMGArchive}
    (h : ReachableBy toLowerCase (indexGuard toLowerCase) a) : IndexOk toLowerCase a := by
  induction h with
  | create version =>
    unfold IndexOk
    rw [(createArchive_entries version).1, (createArchive_entries version).2]
    refine ⟨List.nodup_nil, ?_, ?_, ?_⟩
    · intro k r hk
      simp [mapGet] at hk
    · intro r hr
      simp at hr
    · intro r hr
      simp at hr
  | step c h0 hc ih => exact indexOk_step toLowerCase _ c (reachable_fresh h0) ih hc

/-- C18 (as amended): consistency of the index.  In every archive state
reachable from `createArchive` by a sequence of `addEntry`, `removeEntry`,
`renameEntry` and `pack` calls (and `writeEntryData` and `sync` calls),
returning or raising, in which the caller checks `containsEntry` first, that
is, `addEntry` is only given a name for which `containsEntry` is false and
`renameEntry` only a new name whose encoding fits the name field and for
which `containsEntry` is false or which is a case variant of the old name,
`containsEntry(n)` is true if and only if some entry of the table has a name
equal to `n` ignoring case, and `getEntryByName(n)` then returns an entry of
the table with such a name. -/
theorem index_consistency (toLowerCase : JSString → JSString) (a : IMGArchive)
    (h : ReachableBy toLowerCase (indexGuard toLowerCase) a) (n : JSString) :
    (containsEntry toLowerCase a n = true ↔
      ∃ r ∈ a._entries, toLowerCase (a.heap r).name = toLowerCase n) ∧
    (containsEntry toLowerCase a n = true →
      ∃ r, getEntryByName toLowerCase a n = some r ∧ r ∈ a._entries ∧
        toLowerCase (a.heap r).name = toLowerCase n) := by
  obtain ⟨-, hsound, hcomp, -⟩ := reachable_indexOk h
  have hfind : containsEntry toLowerCase a n = true →
      ∃ r, getEntryByName toLowerCase a n = some r ∧ r ∈ a._entries ∧
        toLowerCase (a.heap r).name = toLowerCase n := by
    intro hc
    unfold containsEntry mapHas at hc
    cases hg : mapGet a._entryMap (toLowerCase n) with
    | none => rw [hg] at hc; simp at hc
    | some r =>
      obtain ⟨h1, h2⟩ := hsound _ r hg
      exact ⟨r, hg, h1, h2⟩
  refine ⟨⟨?_, ?_⟩, hfind⟩
  · intro hc
    obtain ⟨r, -, h1, h2⟩ := hfind hc
    exact ⟨r, h1, h2⟩
  · rintro ⟨r, h1, h2⟩
    have := hcomp r h1
    rw [h2] at this
    simp only [containsEntry, mapHas, this, Option.isSome_some]

/-- Instance of `index_consistency`: `addEntry('a.txt')`, then
`renameEntry('a.txt', 'b.txt')`, on a new archive of the unified layout,
asked for `B.TXT`. -/
theorem index_consistency_witness :
    (containsEntry asciiLower
        (runCall asciiLower (runCall asciiLower (createArchive .VER2) (.addEntry aTxt [1]))
          (.renameEntry aTxt bTxt)) [66, 46, 84, 88, 84] = true ↔
      ∃ r ∈ (runCall asciiLower (runCall asciiLower (createArchive .VER2) (.addEntry aTxt [1]))
          (.renameEntry aTxt bTxt))._entries,
        asciiLower
          ((runCall asciiLower (runCall asciiLower (createArchive .VER2) (.addEntry aTxt [1]))
            (.renameEntry aTxt bTxt)).heap r).name = asciiLower [66, 46, 84, 88, 84]) ∧
    (containsEntry asciiLower
        (runCall asciiLower (runCall asciiLower (createArchive .VER2) (.addEntry aTxt [1]))
          (.renameEntry aTxt bTxt)) [66, 46, 84, 88, 84] = true →
      ∃ r, getEntryByName asciiLower
          (runCall asciiLower (runCall asciiLower (createArchive .VER2) (.addEntry aTxt [1]))
            (.renameEntry aTxt bTxt)) [66, 46, 84, 88, 84] = some r ∧
        r ∈ (runCall asciiLower (runCall asciiLower (createArchive .VER2) (.addEntry aTxt [1]))
          (.renameEntry aTxt bTxt))._entries ∧
        asciiLower
          ((runCall asciiLower (runCall asciiLower (createArchive .VER2) (.addEntry aTxt [1]))
            (.renameEntry aTxt bTxt)).heap r).name = asciiLower [66, 46, 84, 88, 84]) :=
  index_consistency asciiLower _
    (.step (.renameEntry aTxt bTxt)
      (.step (.addEntry aTxt [1]) (.create .VER2) (by unfold indexGuard; decide))
      (by unfold indexGuard; decide!))
    [66, 46, 84, 88, 84]

/-- C18 fails as stated, in two ways.  (1) After `createArchive`, two calls
`addEntry('a.txt', ...)` and `removeEntry('a.txt')`, the table still holds an
entry named `a.txt`, yet `containsEntry('a.txt')` is false: the second
`addEntry` took over the key and `removeEntry` deleted it with the first row.
(2) After `createArchive`, `addEntry('a.txt', ...)` and
`renameEntry('a.txt', n)` with `n` thirteen code units U+00E9, whose encoding
does not fit the name field, the call raises after the old key was deleted
and the entry was renamed: the table holds an entry named `n`, yet
`containsEntry(n)` is false. -/
theorem index_consistency_counterexample :
    (∃ a, ReachableBy asciiLower anyCall a ∧
      containsEntry asciiLower a aTxt = false ∧
      ∃ r ∈ a._entries, asciiLower (a.heap r).name = asciiLower aTxt) ∧
    (∃ a, ReachableBy asciiLower anyCall a ∧
      containsEntry asciiLower a (List.replicate 13 233) = false ∧
      ∃ r ∈ a._entries,
        asciiLower (a.heap r).name = asciiLower (List.replicate 13 233)) :=
  ⟨⟨runCall asciiLower
      (runCall asciiLower (runCall asciiLower (createArchive .VER2) (.addEntry aTxt [1]))
        (.addEntry aTxt [2]))
      (.removeEntry aTxt),
    .step (.removeEntry aTxt)
      (.step (.addEntry aTxt [2]) (.step (.addEntry aTxt [1]) (.create .VER2) trivial) trivial)
      trivial,
    by decide!, by decide!⟩,
   ⟨runCall asciiLower (runCall asciiLower (createArchive .VER2) (.addEntry aTxt [1]))
      (.renameEntry aTxt (List.replicate 13 233)),
    .step (.renameEntry aTxt (List.replicate 13 233))
      (.step (.addEntry aTxt [1]) (.create .VER2) trivial) trivial,
    by decide!, by decide!⟩⟩

/-! ## Block arithmetic -/

/-- C26: block arithmetic.  For every natural number `n`, `bytesToBlocks(n)`
equals `ceil(n / 2048)`; it is the least `b` with `b * 2048 >= n`, in
particular 0 for `n = 0`; and `bytesToBlocks(blocksToBytes(b)) = b` for every
natural `b`. -/
theorem block_arithmetic (n : Nat) :
    bytesToBlocks n = ⌈(n : ℚ) / 2048⌉₊ ∧
    n ≤ bytesToBlocks n * 2048 ∧
    (∀ b, n ≤ b * 2048 → bytesToBlocks n ≤ b) ∧
    bytesToBlocks 0 = 0 ∧
    ∀ b, bytesToBlocks (blocksToBytes b) = b := by
  refine ⟨bytesToBlocks_eq_ceil n, ?_, ?_, rfl, ?_⟩
  · have := bytesToBlocks_mul_ge n
    simpa only [BLOCK_SIZE] using this
  · intro b hb
    unfold bytesToBlocks BLOCK_SIZE
    omega
  · intro b
    unfold bytesToBlocks blocksToBytes BLOCK_SIZE
    omega

/-! ## Number of records parsed -/

theorem length_readRecordsVer2 (data : List Byte) (remaining i : Nat) :
    (readRecordsVer2 data remaining i).length =
      min remaining ((data.length - (8 + 32 * i)) / 32) := by
  induction remaining generalizing i with
  | zero => simp [readRecordsVer2]
  | succ r ih =>
    unfold readRecordsVer2
    simp only [ENTRY_SIZE]
    by_cases hg : 8 + i * 32 + 32 > data.length
    · rw [if_pos hg]
      have : (data.length - (8 + 32 * i)) / 32 = 0 := by omega
      rw [this]
      simp
    · rw [if_neg hg, List.length_cons, ih (i + 1)]
      have : (data.length - (8 + 32 * i)) / 32 =
          (data.length - (8 + 32 * (i + 1))) / 32 + 1 := by omega
      rw [this]
      omega

theorem readHeaderVer2_count (toLowerCase : JSString → JSString) (a : IMGArchive)
    (h : 8 ≤ a._imgData.length) :
    (_readHeaderVer2 toLowerCase a).entryCount =
      min (getUint32 a._imgData 4) ((a._imgData.length - 8) / 32) := by
  unfold _readHeaderVer2 IMGArchive.entryCount
  rw [if_neg (by omega)]
  simp only []
  rw [(installRecords_frame toLowerCase _ _).2.2.2.2.2, length_readRecordsVer2]

/-- C24: the number of records parsed.  For a data buffer of length
`L >= 8` whose little-endian 32-bit value at byte 4 is `n`, `_readHeaderVer2`
yields exactly `n` entries when `L >= 8 + 32*n` and `floor((L - 8) / 32)`
entries otherwise; for `L < 8` it yields no entry and the reserved header
value 1; for an index buffer of length `L`, `_readHeaderVer1` yields exactly
`floor(L / 32)` entries. -/
theorem records_parsed (toLowerCase : JSString → JSString) (a : IMGArchive) :
    (8 ≤ a._imgData.length →
      (8 + 32 * getUint32 a._imgData 4 ≤ a._imgData.length →
        (_readHeaderVer2 toLowerCase a).entryCount = getUint32 a._imgData 4) ∧
      (a._imgData.length < 8 + 32 * getUint32 a._imgData 4 →
        (_readHeaderVer2 toLowerCase a).entryCount = (a._imgData.length - 8) / 32)) ∧
    (a._imgData.length < 8 →
      (_readHeaderVer2 toLowerCase a).entryCount = 0 ∧
      (_readHeaderVer2 toLowerCase a)._headerReservedSpace = 1) ∧
    (∀ dir, a._dirData = some dir →
      (_readHeaderVer1 toLowerCase a).entryCount = dir.length / 32) := by
  refine ⟨?_, ?_, ?_⟩
  · intro h8
    rw [readHeaderVer2_count toLowerCase a h8]
    constructor
    · intro h; omega
    · intro h; omega
  · intro h
    unfold _readHeaderVer2
    rw [if_pos h]
    exact ⟨rfl, rfl⟩
  · intro dir hd
    have h := congrArg List.length (readHeaderVer1_entries toLowerCase a)
    rw [IMGArchive.entries, List.length_map, List.length_insertionSort, hd, recordsVer1_some,
      List.length_map, List.length_range] at h
    exact h

/-- Instance of `records_parsed`: the 40-byte data buffer whose count field
is 1 holds one whole record; an empty data buffer gives no entry; the 64-byte
index buffer gives two entries. -/
theorem records_parsed_witness :
    (_readHeaderVer2 asciiLower
      { IMGArchive.new with _imgData := truncatedFile, _dirData := some twoRecordDir }).entryCount =
      getUint32 truncatedFile 4 ∧
    ((_readHeaderVer2 asciiLower IMGArchive.new).entryCount = 0 ∧
      (_readHeaderVer2 asciiLower IMGArchive.new)._headerReservedSpace = 1) ∧
    (_readHeaderVer1 asciiLower
      { IMGArchive.new with _imgData := truncatedFile, _dirData := some twoRecordDir }).entryCount =
      twoRecordDir.length / 32 :=
  ⟨((records_parsed asciiLower
      { IMGArchive.new with _imgData := truncatedFile, _dirData := some twoRecordDir }).1
        (by decide)).1 (by decide),
   (records_parsed asciiLower IMGArchive.new).2.1 (by decide),
   (records_parsed asciiLower
      { IMGArchive.new with _imgData := truncatedFile, _dirData := some twoRecordDir }).2.2
        twoRecordDir rfl⟩

/-! ## The encoding of the name field -/

theorem takeWhile_append_zeros (l : List Byte) (k : Nat) (h : ∀ b ∈ l, b ≠ 0) :
    (l ++ zeros k).takeWhile (fun b => b ≠ 0) = l := by
  induction l with
  | nil => exact takeWhile_zeros k
  | cons x rest ih =>
    have hx : x ≠ 0 := h x (List.mem_cons_self _ _)
    simp only [List.cons_append, List.takeWhile_cons, hx, ne_eq, not_false_eq_true,
      decide_True, if_true]
    exact congrArg _ (ih (fun b hb => h b (List.mem_cons_of_mem _ hb)))

theorem textDecode_ascii (s : JSString) (h : ∀ u ∈ s, u < 128) :
    textDecode (s.map byteOfNat) = s := by
  unfold textDecode
  rw [List.map_map]
  conv_rhs => rw [← List.map_id s]
  apply List.map_congr_left
  intro u hu
  have := h u hu
  simp only [Function.comp, byteOfNat, id]
  have h1 : u % 256 = u := by omega
  rw [if_neg (by omega), h1]

/-- The setter on an ASCII string, in closed form. -/
theorem setName_ascii (e : IMGEntry) (s : JSString) (hfield : e.fieldOk)
    (hascii : ∀ u ∈ s, u < 128) :
    IMGEntry.setName e s =
      .ok () { e with
        _name := s,
        nameBytes := some ((s.take 23).map byteOfNat ++ zeros (24 - min s.length 23)) } := by
  have henc : textEncode (s.take MAX_NAME_LENGTH) = (s.take 23).map byteOfNat :=
    textEncode_ascii _ (fun u hu => hascii u (List.mem_of_mem_take hu))
  unfold IMGEntry.setName
  rw [clearedNameBytes_of_fieldOk hfield, henc]
  by_cases hv : s = []
  · subst hv
    simp [NAME_FIELD_SIZE, zeros]
  · have hlen : ((s.take 23).map byteOfNat).length = min s.length 23 := by
      simp [Nat.min_comm]
    have hle : 0 + ((s.take 23).map byteOfNat).length ≤ (zeros NAME_FIELD_SIZE).length := by
      rw [zeros_length, hlen, NAME_FIELD_SIZE]; omega
    simp only [ne_eq, hv, not_false_eq_true, if_true, setBytes_of_le hle]
    congr 3
    simp only [List.take_zero, List.nil_append, Nat.zero_add, hlen, zeros, NAME_FIELD_SIZE,
      List.drop_replicate]

/-- C27: the encoding of the name field.  For every ASCII string `s`, setting
the name of an entry (whose name field, if it has one, has its 24 bytes) to
`s` returns and leaves a name field of exactly 24 bytes whose first
`min(len(s), 23)` bytes are the first characters of `s` and whose remaining
bytes, byte 23 included, are zero; and when `s` has at most 23 characters and
no NUL, decoding that field (the name getter on an entry that holds the field
and no cached name) returns `s`. -/
theorem name_field_encoding (e : IMGEntry) (s : JSString) (hfield : e.fieldOk)
    (hascii : ∀ u ∈ s, u < 128) :
    ∃ e1 nb, IMGEntry.setName e s = .ok () e1 ∧ e1.nameBytes = some nb ∧
      nb.length = 24 ∧
      (nb.take (min s.length 23)).map (fun b => b.val) = s.take 23 ∧
      (∀ i, min s.length 23 ≤ i → i < 24 → nb[i]? = some 0) ∧
      (s.length ≤ 23 → (∀ u ∈ s, u ≠ 0) → ({ e1 with _name := [] } : IMGEntry).name = s) := by
  have hlen : ((s.take 23).map byteOfNat).length = min s.length 23 := by
    simp [Nat.min_comm]
  refine ⟨_, _, setName_ascii e s hfield hascii, rfl, ?_, ?_, ?_, ?_⟩
  · rw [List.length_append, hlen, zeros_length]; omega
  · rw [← hlen, List.take_left, List.map_map]
    conv_rhs => rw [← List.map_id (s.take 23)]
    apply List.map_congr_left
    intro u hu
    have := hascii u (List.mem_of_mem_take hu)
    simp only [Function.comp, byteOfNat, id]
    omega
  · intro i h1 h2
    rw [List.getElem?_append_right (by rw [hlen]; exact h1), hlen]
    simp only [zeros]
    rw [List.getElem?_replicate, if_pos (by omega)]
  · intro h23 hnul
    have htake : s.take 23 = s := List.take_of_length_le h23
    have hk : 24 - min s.length 23 = (23 - s.length) + 1 := by omega
    simp only [IMGEntry.name, ne_eq, not_true_eq_false, if_false, htake]
    rw [takeWhile_append_zeros _ _ (by
      intro b hb
      obtain ⟨u, hu, rfl⟩ := List.mem_map.mp hb
      have h1 := hascii u hu
      have h2 := hnul u hu
      intro h0
      have h3 := congrArg Fin.val h0
      simp only [byteOfNat] at h3
      have h4 : ((0 : Byte) : Nat) = 0 := rfl
      rw [h4] at h3
      omega)]
    exact textDecode_ascii s hascii

/-- Instance of `name_field_encoding`: the name `a.txt` set on a new entry. -/
theorem name_field_encoding_witness :
    ∃ e1 nb, IMGEntry.setName IMGEntry.new aTxt = .ok () e1 ∧ e1.nameBytes = some nb ∧
      nb.length = 24 ∧
      (nb.take (min aTxt.length 23)).map (fun b => b.val) = aTxt.take 23 ∧
      (∀ i, min aTxt.length 23 ≤ i → i < 24 → nb[i]? = some 0) ∧
      (aTxt.length ≤ 23 → (∀ u ∈ aTxt, u ≠ 0) →
        ({ e1 with _name := [] } : IMGEntry).name = aTxt) :=
  name_field_encoding IMGEntry.new aTxt (by intro nb h; cases h) (by decide)

/-! ## Invariants of call sequences: an ordered table -/

theorem end_le_last {es : List IMGEntry} (hp : es.Pairwise startsAfter) {e l : IMGEntry}
    (he : e ∈ es) (hl : es.getLast? = some l) : e.offset + e.size ≤ l.offset + l.size := by
  induction es using List.reverseRecOn with
  | nil => simp at he
  | append_singleton init x _ =>
    rw [List.getLast?_concat] at hl
    have hl := Option.some.inj hl
    subst hl
    rcases List.mem_append.mp he with h | h
    · have := (List.pairwise_append.mp hp).2.2 e h x (List.mem_singleton_self _)
      unfold startsAfter at this
      omega
    · rw [List.mem_singleton] at h
      subst h
      exact le_refl _

theorem end_le_addOffset {a : IMGArchive} (hp : a.entries.Pairwise startsAfter) {e : IMGEntry}
    (he : e ∈ a.entries) : e.offset + e.size ≤ addOffset a := by
  unfold addOffset
  rw [reserveHeaderSpace_snd, getDataEndOffset_eq]
  have hent : ∀ k, ({ a with _headerReservedSpace := k } : IMGArchive).entries = a.entries :=
    fun _ => rfl
  rw [hent]
  cases hl : a.entries.getLast? with
  | none =>
    rw [List.getLast?_eq_none_iff] at hl
    rw [hl] at he
    simp at he
  | some l => exact end_le_last hp he hl

theorem ordered_step (toLowerCase : JSString → JSString) (a : IMGArchive) (c : Call)
    (hf : FreshRefs a) (hp : a.entries.Pairwise startsAfter) :
    (runCall toLowerCase a c).entries.Pairwise startsAfter := by
  cases c with
  | addEntry name data =>
    simp only [runCall]
    rcases addEntry_state toLowerCase a name data with ⟨h1, h2, -, -, -⟩ | ⟨-, h⟩
    · rw [IMGArchive.entries, h1, h2]
      exact hp
    · rw [h, addEntryState_entries toLowerCase hf]
      refine List.pairwise_append.mpr ⟨hp, List.pairwise_singleton _ _, ?_⟩
      intro e he f hf2
      rw [List.mem_singleton] at hf2
      subst hf2
      exact end_le_addOffset hp he
  | writeEntryData name data =>
    simp only [runCall]
    obtain ⟨img, flag, h, -⟩ := writeEntryData_state toLowerCase a name data
    rw [h]
    exact hp
  | removeEntry name =>
    simp only [runCall]
    rcases removeEntry_state toLowerCase a name with h | ⟨index, hlt, -, h⟩
    · rw [h]; exact hp
    · rw [h]
      exact List.Pairwise.sublist ((List.eraseIdx_sublist a._entries index).map _) hp
  | renameEntry oldName newName =>
    simp only [runCall]
    have key : ∀ (r : Ref) (e1 : IMGEntry) (m : List (JSString × Ref)) (flag : Bool),
        e1.offset = (a.heap r).offset → e1.size = (a.heap r).size →
        ({ a with heap := heapSet a.heap r e1, _entryMap := m,
                  _hasUnsavedChanges := flag } : IMGArchive).entries.Pairwise startsAfter := by
      intro r e1 m flag ho hs
      have hos : ∀ r1, (heapSet a.heap r e1 r1).offset = (a.heap r1).offset ∧
          (heapSet a.heap r e1 r1).size = (a.heap r1).size := by
        intro r1
        by_cases h : r1 = r
        · subst h
          simp only [heapSet, if_true, ho, hs, and_self]
        · simp only [heapSet, if_neg h, and_self]
      simp only [IMGArchive.entries] at hp ⊢
      rw [List.pairwise_map] at hp ⊢
      refine hp.imp ?_
      intro x y hxy
      unfold startsAfter at hxy ⊢
      rw [(hos x).1, (hos x).2, (hos y).1]
      exact hxy
    rcases renameEntry_state toLowerCase a oldName newName with
      h | ⟨r, e1, -, -, ho, hs, ⟨-, h⟩ | ⟨-, h⟩⟩
    · rw [h]; exact hp
    · rw [h]; exact key r e1 _ a._hasUnsavedChanges ho hs
    · rw [h]; exact key r e1 _ true ho hs
  | pack =>
    simp only [runCall]
    rcases pack_state toLowerCase a with h | ⟨img, -, -, -, h⟩
    · rw [h]; exact hp
    · rw [h, packState_entries]
      apply List.chain'_iff_pairwise.mp
      refine (layoutFrom_chain _ _).imp ?_
      intro x y hxy
      unfold startsAfter
      omega
  | sync =>
    simp only [runCall]
    obtain ⟨img, dir, flag, h, -⟩ := sync_state a
    rw [h]
    exact hp

theorem reachable_ordered {toLowerCase : JSString → JSString}
    {allowed : IMGArchive → Call → Prop} {a : IMGArchive}
    (h : ReachableBy toLowerCase allowed a) : a.entries.Pairwise startsAfter := by
  induction h with
  | create version =>
    rw [IMGArchive.entries, (createArchive_entries version).1]
    exact List.Pairwise.nil
  | step c h0 _ ih => exact ordered_step toLowerCase _ c (reachable_fresh h0) ih

/-- C30: an ordered table without overlaps.  In every archive state reachable
from `createArchive` (either layout) by any sequence of `addEntry`,
`writeEntryData`, `removeEntry`, `renameEntry`, `pack` and `sync` calls,
returning or raising, each table entry's offset is at least the previous
entry's offset plus the previous entry's size; hence the table is sorted by
offset, every entry starts at or after the end of every earlier entry (no two
payload ranges overlap), and when the table is not empty the data end offset
(the end of the last table entry) is the maximum of `offset + size` over all
entries. -/
theorem ordered_table (toLowerCase : JSString → JSString) (a : IMGArchive)
    (h : ReachableBy toLowerCase anyCall a) :
    a.entries.Chain' startsAfter ∧
    a.entries.Sorted offsetLE ∧
    a.entries.Pairwise startsAfter ∧
    (a._entries ≠ [] →
      (∀ e ∈ a.entries, e.offset + e.size ≤ _getDataEndOffset a) ∧
      ∃ e ∈ a.entries, e.offset + e.size = _getDataEndOffset a) := by
  have hp := reachable_ordered h
  refine ⟨List.chain'_iff_pairwise.mpr hp, ?_, hp, ?_⟩
  · refine hp.imp ?_
    intro x y hxy
    unfold startsAfter at hxy
    unfold offsetLE
    omega
  · intro hne
    rw [getDataEndOffset_eq]
    cases hl : a.entries.getLast? with
    | none =>
      rw [List.getLast?_eq_none_iff] at hl
      exact absurd hl (entries_ne_nil hne)
    | some l =>
      exact ⟨fun e he => end_le_last hp he hl, l, List.mem_of_getLast?_eq_some hl, rfl⟩

/-- Instance of `ordered_table`: the state after `addEntry('a.txt')`,
`addEntry('b.txt')` and `removeEntry('a.txt')` on a new archive of the split
layout. -/
theorem ordered_table_witness :
    (runCall asciiLower
      (runCall asciiLower (runCall asciiLower (createArchive .VER1) (.addEntry aTxt [1]))
        (.addEntry bTxt [2])) (.removeEntry aTxt)).entries.Chain' startsAfter ∧
    (runCall asciiLower
      (runCall asciiLower (runCall asciiLower (createArchive .VER1) (.addEntry aTxt [1]))
        (.addEntry bTxt [2])) (.removeEntry aTxt)).entries.Sorted offsetLE ∧
    (runCall asciiLower
      (runCall asciiLower (runCall asciiLower (createArchive .VER1) (.addEntry aTxt [1]))
        (.addEntry bTxt [2])) (.removeEntry aTxt)).entries.Pairwise startsAfter ∧
    ((runCall asciiLower
      (runCall asciiLower (runCall asciiLower (createArchive .VER1) (.addEntry aTxt [1]))
        (.addEntry bTxt [2])) (.removeEntry aTxt))._entries ≠ [] →
      (∀ e ∈ (runCall asciiLower
          (runCall asciiLower (runCall asciiLower (createArchive .VER1) (.addEntry aTxt [1]))
            (.addEntry bTxt [2])) (.removeEntry aTxt)).entries,
        e.offset + e.size ≤ _getDataEndOffset (runCall asciiLower
          (runCall asciiLower (runCall asciiLower (createArchive .VER1) (.addEntry aTxt [1]))
            (.addEntry bTxt [2])) (.removeEntry aTxt))) ∧
      ∃ e ∈ (runCall asciiLower
          (runCall asciiLower (runCall asciiLower (createArchive .VER1) (.addEntry aTxt [1]))
            (.addEntry bTxt [2])) (.removeEntry aTxt)).entries,
        e.offset + e.size = _getDataEndOffset (runCall asciiLower
          (runCall asciiLower (runCall asciiLower (createArchive .VER1) (.addEntry aTxt [1]))
            (.addEntry bTxt [2])) (.removeEntry aTxt))) :=
  ordered_table asciiLower _
    (.step (.removeEntry aTxt)
      (.step (.addEntry bTxt [2]) (.step (.addEntry aTxt [1]) (.create .VER1) trivial) trivial)
      trivial)

/-! ## Writing the records of a header -/

theorem length_uint32Bytes (v : Nat) : (uint32Bytes v).length = 4 := rfl

theorem hasField_iff {e : IMGEntry} :
    e.hasField ↔ ∃ nb, e.nameBytes = some nb ∧ nb.length = NAME_FIELD_SIZE := by
  unfold IMGEntry.hasField
  cases e.nameBytes with
  | none => simp
  | some nb => simp

theorem fieldOk_of_hasField {e : IMGEntry} (h : e.hasField) : e.fieldOk := by
  obtain ⟨nb, hnb, hl⟩ := hasField_iff.mp h
  intro nb1 h1
  rw [hnb] at h1
  cases h1
  exact hl

theorem length_recordBytes {e : IMGEntry} (h : e.hasField) : (recordBytes e).length = 32 := by
  obtain ⟨nb, hnb, hl⟩ := hasField_iff.mp h
  simp only [recordBytes, hnb, Option.getD_some, List.length_append, length_uint32Bytes, hl,
    NAME_FIELD_SIZE]

theorem length_recordsBytes {es : List IMGEntry} (h : ∀ e ∈ es, e.hasField) :
    (recordsBytes es).length = 32 * es.length := by
  induction es with
  | nil => rfl
  | cons e rest ih =>
    simp only [recordsBytes, List.length_append, List.length_cons,
      length_recordBytes (h e (List.mem_cons_self _ _)),
      ih (fun x hx => h x (List.mem_cons_of_mem _ hx))]
    omega

/-- One iteration of a header-writing loop is one store of the record. -/
theorem writeRecord_eq {buf b : List Byte} {pos : Nat} {e : IMGEntry}
    (h : setBytes buf (recordBytes e) pos = some b) : writeRecord buf pos e = (b, true) := by
  unfold recordBytes at h
  rw [setBytes_append, setBytes_append] at h
  unfold writeRecord
  cases h1 : setBytes buf (uint32Bytes e.offset) pos with
  | none => rw [h1] at h; simp at h
  | some b1 =>
    rw [h1] at h
    simp only [List.length_append, length_uint32Bytes, Nat.reduceAdd] at h
    cases h2 : setBytes b1 (uint32Bytes e.size) (pos + 4) with
    | none => rw [h2] at h; simp at h
    | some b2 =>
      rw [h2] at h
      simp only [] at h
      cases hnb : e.nameBytes with
      | none =>
        rw [hnb] at h
        simp only [Option.getD_none] at h
        have := setBytes_nil h
        simp only [h2, this]
      | some nb =>
        rw [hnb] at h
        simp only [Option.getD_some] at h
        simp only [h2, h]

/-- The loop over a table whose entries all have their name field is one
store of all the records. -/
theorem writeRecords_eq (base : Nat) (es : List IMGEntry) (buf b : List Byte) (i : Nat)
    (hf : ∀ e ∈ es, e.hasField)
    (h : setBytes buf (recordsBytes es) (base + 32 * i) = some b) :
    writeRecords base buf i es = (b, true) := by
  induction es generalizing buf i with
  | nil =>
    have := setBytes_nil h
    rw [this]
    rfl
  | cons e rest ih =>
    simp only [recordsBytes] at h
    rw [setBytes_append] at h
    have hp : base + i * ENTRY_SIZE = base + 32 * i := by
      simp only [ENTRY_SIZE]; omega
    unfold writeRecords
    rw [hp]
    cases h1 : setBytes buf (recordBytes e) (base + 32 * i) with
    | none => rw [h1] at h; simp at h
    | some b1 =>
      rw [h1] at h
      simp only [length_recordBytes (hf e (List.mem_cons_self _ _))] at h
      rw [writeRecord_eq h1]
      simp only []
      exact ih b1 (i + 1) (fun x hx => hf x (List.mem_cons_of_mem _ hx))
        (by
          have e : base + 32 * (i + 1) = base + 32 * i + 32 := by omega
          rw [e]
          exact h)

theorem setBytes_full (z full : List Byte) (h : full.length = z.length) :
    setBytes z full 0 = some full := by
  rw [setBytes_of_le (by omega)]
  simp [h]

/-- Closed form of `_rewriteHeaderSection` on the unified layout when every
table entry has its name field: the header is written over the start of the
data buffer, which `_ensureImgSize` has grown to `8 + 32 * count` blocks. -/
theorem rewriteHeaderSection_ver2_eq (a : IMGArchive) (hv : a._version = .VER2)
    (hf : ∀ e ∈ a.entries, e.hasField) :
    _rewriteHeaderSection a =
      .ok ()
        { a with
          _imgData :=
            headerBytes a.entries ++
              (a._imgData ++
                zeros ((8 + 32 * a._entries.length) * 2048 - a._imgData.length)).drop
                (8 + 32 * a._entries.length) } := by
  have hn : a.entries.length = a._entries.length := by simp [IMGArchive.entries]
  have hlen : (headerBytes a.entries).length = 8 + 32 * a._entries.length := by
    simp only [headerBytes, List.length_append, length_uint32Bytes, length_recordsBytes hf, hn]
    rfl
  have hsize : 8 + a._entries.length * ENTRY_SIZE = 8 + 32 * a._entries.length := by
    simp only [ENTRY_SIZE]; omega
  have hH : headerBytes a.entries =
      VER2_MAGIC ++ uint32Bytes a._entries.length ++ recordsBytes a.entries := by
    rw [headerBytes, hn]
  have hfull : setBytes (zeros (8 + 32 * a._entries.length))
      (VER2_MAGIC ++ uint32Bytes a._entries.length ++ recordsBytes a.entries) 0 =
      some (headerBytes a.entries) := by
    rw [← hH]
    exact setBytes_full _ _ (by rw [hlen, zeros_length])
  rw [setBytes_append, setBytes_append] at hfull
  have hent : ∀ img, ({ a with _imgData := img } : IMGArchive).entries = a.entries :=
    fun _ => rfl
  unfold _rewriteHeaderSection
  rw [if_pos hv]
  simp only [hsize, ensureImgSize_eq, hent]
  cases h1 : setBytes (zeros (8 + 32 * a._entries.length)) VER2_MAGIC 0 with
  | none => rw [h1] at hfull; simp at hfull
  | some x1 =>
    rw [h1] at hfull
    simp only [] at hfull
    have e4 : 0 + VER2_MAGIC.length = 4 := rfl
    rw [e4] at hfull
    cases h2 : setBytes x1 (uint32Bytes a._entries.length) 4 with
    | none => rw [h2] at hfull; simp at hfull
    | some x2 =>
      rw [h2] at hfull
      simp only [] at hfull
      have e8 : 0 + (VER2_MAGIC ++ uint32Bytes a._entries.length).length = 8 := rfl
      rw [e8] at hfull
      have hw := writeRecords_eq 8 a.entries x2 _ 0 hf
        (by rw [Nat.mul_zero, Nat.add_zero]; exact hfull)
      have hroom : 0 + (headerBytes a.entries).length ≤
          (a._imgData ++ zeros ((8 + 32 * a._entries.length) * 2048 -
            a._imgData.length)).length := by
        rw [hlen, List.length_append, zeros_length]
        omega
      simp only [h2, hw, BLOCK_SIZE]
      rw [setBytes_of_le hroom]
      simp only [hlen, List.take_zero, List.nil_append, Nat.zero_add]

/-- Closed form of `_rewriteHeaderSection` on the split layout when every
table entry has its name field: the index buffer becomes the records of the
table. -/
theorem rewriteHeaderSection_ver1_eq (a : IMGArchive) (hv : a._version = .VER1)
    (hf : ∀ e ∈ a.entries, e.hasField) :
    _rewriteHeaderSection a = .ok () { a with _dirData := some (recordsBytes a.entries) } := by
  have hn : a.entries.length = a._entries.length := by simp [IMGArchive.entries]
  have hlen : (recordsBytes a.entries).length = 32 * a._entries.length := by
    rw [length_recordsBytes hf, hn]
  have hwant : a._entries.length * ENTRY_SIZE = 32 * a._entries.length := by
    simp only [ENTRY_SIZE]; omega
  have key : ∀ dir0 : List Byte, a._entries.length * ENTRY_SIZE ≤ dir0.length →
      (match writeRecords 0 dir0 0 a.entries with
        | (d, false) => Res.throw IMGError.rangeError { a with _dirData := some d }
        | (d, true) =>
          if d.length > a._entries.length * ENTRY_SIZE then
            Res.ok () { a with _dirData := some (slice d 0 (a._entries.length * ENTRY_SIZE)) }
          else Res.ok () { a with _dirData := some d }) =
        .ok () { a with _dirData := some (recordsBytes a.entries) } := by
    intro dir0 hdl
    rw [hwant] at hdl ⊢
    have hset := @setBytes_of_le dir0 (recordsBytes a.entries) 0
      (by rw [hlen]; omega)
    have hw := writeRecords_eq 0 a.entries dir0 _ 0 hf
      (by rw [Nat.mul_zero, Nat.add_zero]; exact hset)
    rw [hw]
    simp only [List.take_zero, List.nil_append, Nat.zero_add, hlen]
    have hsl : slice (recordsBytes a.entries ++ List.drop (32 * a._entries.length) dir0) 0
        (32 * a._entries.length) = recordsBytes a.entries := by
      unfold slice
      rw [List.drop_zero, List.take_left' hlen]
    split
    · rw [hsl]
    · rename_i hgt
      have hnil : List.drop (32 * a._entries.length) dir0 = [] := by
        apply List.drop_eq_nil_of_le
        simp only [List.length_append, hlen, List.length_drop] at hgt
        omega
      rw [hnil, List.append_nil]
  unfold _rewriteHeaderSection
  rw [if_neg (by rw [hv]; decide)]
  refine key _ ?_
  split
  · rw [zeros_length]
  · rename_i d _
    split
    · rename_i hlt
      have hle : 0 + d.length ≤ (zeros (a._entries.length * ENTRY_SIZE)).length := by
        rw [zeros_length]; omega
      rw [setBytes_of_le hle, Option.getD_some]
      simp only [List.length_append, List.length_take, List.length_drop, zeros_length]
      omega
    · omega

/-- On a writable archive whose table entries all have their name field
`sync` returns. -/
theorem sync_ok (a : IMGArchive) (hm : a._mode = .READ_WRITE)
    (hf : ∀ e ∈ a.entries, e.hasField) :
    ∃ img dir, sync a =
      .ok () { a with _imgData := img, _dirData := dir, _hasUnsavedChanges := false } := by
  unfold sync
  rw [if_neg (by rw [hm]; decide)]
  have hcases : a._version = .VER1 ∨ a._version = .VER2 := by
    cases a._version
    · exact Or.inl rfl
    · exact Or.inr rfl
  rcases hcases with hv | hv
  · rw [rewriteHeaderSection_ver1_eq a hv hf]
    exact ⟨a._imgData, _, rfl⟩
  · rw [rewriteHeaderSection_ver2_eq a hv hf]
    exact ⟨_, a._dirData, rfl⟩

/-! ## Reading the records back -/

theorem getD_append_right (front l : List Byte) (p : Nat) :
    (front ++ l).getD (front.length + p) 0 = l.getD p 0 := by
  rw [List.getD_eq_getElem?_getD, List.getD_eq_getElem?_getD,
    List.getElem?_append_right (Nat.le_add_right _ _), Nat.add_sub_cancel_left]

theorem getUint32_append_right (front l : List Byte) (p : Nat) :
    getUint32 (front ++ l) (front.length + p) = getUint32 l p := by
  unfold getUint32
  simp only [Nat.add_assoc, getD_append_right]

theorem slice_append_right (front l : List Byte) (x y : Nat) :
    slice (front ++ l) (front.length + x) (front.length + y) = slice l x y := by
  apply List.ext_getElem?
  intro i
  rw [getElem?_slice, getElem?_slice]
  by_cases h : x + i < y
  · rw [if_pos h, if_pos (by omega), Nat.add_assoc,
      List.getElem?_append_right (Nat.le_add_right _ _), Nat.add_sub_cancel_left]
  · rw [if_neg h, if_neg (by omega)]

theorem readEntry_append_right (front l : List Byte) (p : Nat) :
    _readEntry (front ++ l) (front.length + p) = _readEntry l p := by
  unfold _readEntry
  simp only [Nat.add_assoc, getUint32_append_right, slice_append_right]

theorem getUint32_uint32Bytes (v : Nat) (rest : List Byte) :
    getUint32 (uint32Bytes v ++ rest) 0 = v % 4294967296 := by
  simp only [getUint32, uint32Bytes, byteOfNat, List.cons_append, List.getD_cons_zero,
    List.getD_cons_succ, Nat.zero_add]
  omega

/-- Reading the record an entry was written as gives back its offset and size
modulo `2^32` and its name field. -/
theorem readEntry_record (e : IMGEntry) (rest : List Byte) (h : e.hasField) :
    _readEntry (recordBytes e ++ rest) 0 = reparsed e := by
  obtain ⟨nb, hnb, hl⟩ := hasField_iff.mp h
  have h1 : getUint32 (recordBytes e ++ rest) 0 = e.offset % 4294967296 := by
    simp only [recordBytes, List.append_assoc]
    exact getUint32_uint32Bytes _ _
  have h2 : getUint32 (recordBytes e ++ rest) (0 + 4) = e.size % 4294967296 := by
    simp only [recordBytes, List.append_assoc]
    have := getUint32_append_right (uint32Bytes e.offset)
      (uint32Bytes e.size ++ (e.nameBytes.getD [] ++ rest)) 0
    rw [length_uint32Bytes] at this
    rw [this]
    exact getUint32_uint32Bytes _ _
  have h3 : slice (recordBytes e ++ rest) (0 + 8) (0 + 8 + NAME_FIELD_SIZE) = nb := by
    simp only [recordBytes, hnb, Option.getD_some, List.append_assoc]
    have := slice_append_right (uint32Bytes e.offset ++ uint32Bytes e.size) (nb ++ rest) 0
      NAME_FIELD_SIZE
    simp only [List.length_append, length_uint32Bytes, List.append_assoc] at this
    have this2 : slice (uint32Bytes e.offset ++ (uint32Bytes e.size ++ (nb ++ rest))) 8
        (8 + NAME_FIELD_SIZE) = slice (nb ++ rest) 0 NAME_FIELD_SIZE := this
    rw [this2]
    unfold slice
    rw [List.drop_zero, List.take_left' hl]
  unfold _readEntry reparsed
  rw [h1, h2, h3, hnb]

theorem readEntry_records (es : List IMGEntry) (rest : List Byte) (k : Nat)
    (hf : ∀ e ∈ es, e.hasField) (hk : k < es.length) :
    _readEntry (recordsBytes es ++ rest) (32 * k) = reparsed es[k] := by
  induction es generalizing k with
  | nil => simp at hk
  | cons e tail ih =>
    have he := hf e (List.mem_cons_self _ _)
    simp only [recordsBytes, List.append_assoc]
    cases k with
    | zero => exact readEntry_record e _ he
    | succ j =>
      have hpos : 32 * (j + 1) = (recordBytes e).length + 32 * j := by
        rw [length_recordBytes he]; omega
      rw [hpos, readEntry_append_right]
      simp only [List.getElem_cons_succ]
      exact ih j (fun x hx => hf x (List.mem_cons_of_mem _ hx))
        (by simpa using hk)

/-- Parsing an index buffer that holds the records of a table gives back the
table, entry by entry, as `reparsed` describes. -/
theorem recordsVer1_recordsBytes (es : List IMGEntry) (hf : ∀ e ∈ es, e.hasField) :
    recordsVer1 (some (recordsBytes es)) = es.map reparsed := by
  rw [recordsVer1_some, length_recordsBytes hf]
  have hdiv : 32 * es.length / 32 = es.length := by omega
  rw [hdiv]
  apply List.ext_getElem
  · simp
  · intro i h1 h2
    have hi : i < es.length := by simpa using h2
    simp only [List.getElem_map, List.getElem_range]
    have := readEntry_records es [] i hf hi
    rw [List.append_nil] at this
    exact this

theorem readRecordsVer2_eq (data : List Byte) (n i : Nat)
    (h : 8 + 32 * (i + n) ≤ data.length) :
    readRecordsVer2 data n i =
      (List.range' i n).map fun j => _readEntry data (8 + 32 * j) := by
  induction n generalizing i with
  | zero => rfl
  | succ m ih =>
    unfold readRecordsVer2
    simp only [ENTRY_SIZE]
    rw [if_neg (by omega), ih (i + 1) (by omega), List.range'_succ, List.map_cons]
    congr 2
    omega

/-- Parsing a data buffer that starts with the header of a table of fewer
than `2^32` entries gives back the table, entry by entry, as `reparsed`
describes. -/
theorem recordsVer2_headerBytes (es : List IMGEntry) (rest : List Byte)
    (hf : ∀ e ∈ es, e.hasField) (hn : es.length < 4294967296) :
    recordsVer2 (headerBytes es ++ rest) = es.map reparsed := by
  have hlen : (headerBytes es ++ rest).length = 8 + 32 * es.length + rest.length := by
    simp only [headerBytes, List.length_append, length_uint32Bytes, length_recordsBytes hf]
    have : VER2_MAGIC.length = 4 := rfl
    omega
  have hcount : getUint32 (headerBytes es ++ rest) 4 = es.length := by
    have := getUint32_append_right VER2_MAGIC
      (uint32Bytes es.length ++ (recordsBytes es ++ rest)) 0
    simp only [headerBytes, List.append_assoc]
    rw [show (4 : Nat) = VER2_MAGIC.length + 0 from rfl, this, getUint32_uint32Bytes]
    omega
  unfold recordsVer2
  rw [if_neg (by rw [hlen]; omega), hcount,
    readRecordsVer2_eq _ _ _ (by rw [hlen]; omega)]
  apply List.ext_getElem
  · simp
  · intro i h1 h2
    have hi : i < es.length := by simpa using h2
    simp only [List.getElem_map, List.getElem_range', Nat.zero_add, Nat.one_mul]
    have hsplit : headerBytes es ++ rest =
        (VER2_MAGIC ++ uint32Bytes es.length) ++ (recordsBytes es ++ rest) := by
      simp only [headerBytes, List.append_assoc]
    have hfront : (VER2_MAGIC ++ uint32Bytes es.length).length = 8 := rfl
    rw [hsplit, ← hfront, readEntry_append_right]
    exact readEntry_records es rest i hf hi

/-- A coherent entry whose name is NUL-free ASCII of at most 23 characters
and whose offset and size are below `2^32` shows the same name, offset and
size after a round trip through its record. -/
theorem entryTriple_reparsed (e : IMGEntry) (hc : e.coherent)
    (hb : e.offset < 4294967296 ∧ e.size < 4294967296)
    (hname : e.name.length ≤ 23 ∧ ∀ u ∈ e.name, u < 128 ∧ u ≠ 0) :
    entryTriple (reparsed e) = entryTriple e := by
  obtain ⟨hfield, hcase⟩ := hc
  obtain ⟨nb, hnb, hl⟩ := hasField_iff.mp hfield
  have ho : e.offset % 4294967296 = e.offset := Nat.mod_eq_of_lt hb.1
  have hs : e.size % 4294967296 = e.size := Nat.mod_eq_of_lt hb.2
  have hn : (reparsed e).name = e.name := by
    by_cases h0 : e._name = []
    · simp only [reparsed, IMGEntry.name, h0, ne_eq, not_true_eq_false, if_false]
    · have hcase2 := hcase.resolve_left h0
      have hen : e.name = e._name := by
        simp only [IMGEntry.name, ne_eq, h0, not_false_eq_true, if_true]
      rw [hen] at hname ⊢
      have hascii : ∀ u ∈ e._name, u < 128 := fun u hu => (hname.2 u hu).1
      have htake : e._name.take MAX_NAME_LENGTH = e._name :=
        List.take_of_length_le (by rw [MAX_NAME_LENGTH]; exact hname.1)
      rw [htake, textEncode_ascii _ hascii] at hcase2
      simp only [reparsed, IMGEntry.name, ne_eq, not_true_eq_false, if_false, hcase2]
      rw [takeWhile_append_zeros _ _ (by
        intro b hb2
        obtain ⟨u, hu, rfl⟩ := List.mem_map.mp hb2
        have h1 := hname.2 u hu
        intro h0
        have h3 := congrArg Fin.val h0
        simp only [byteOfNat] at h3
        have h4 : ((0 : Byte) : Nat) = 0 := rfl
        rw [h4] at h3
        omega)]
      exact textDecode_ascii _ hascii
  simp only [entryTriple, hn]
  simp only [reparsed, ho, hs]

/-- C28: the serialised table re-parses to itself.  For every writable
archive with fewer than `2^32` entries (a JavaScript array cannot hold more)
whose entry objects are as the code leaves them (a 24-byte name field that
`_readEntry` read or the name setter encoded), whose table is in
non-decreasing offset order, whose offsets and sizes are below `2^32` and
whose names are at most 23 NUL-free ASCII characters, `sync()` returns, and
re-parsing the buffer it leaves (`_readHeaderVer2` on the data buffer for the
unified layout, `_readHeaderVer1` on the index buffer for the split layout)
yields the same sequence of (name, offset, size) triples in the same order. -/
theorem table_reparses (toLowerCase : JSString → JSString) (a : IMGArchive)
    (hm : a._mode = .READ_WRITE) (hcount : a.entryCount < 4294967296)
    (hsorted : a.entries.Sorted offsetLE)
    (hbound : ∀ e ∈ a.entries, e.offset < 4294967296 ∧ e.size < 4294967296)
    (hname : ∀ e ∈ a.entries, e.name.length ≤ 23 ∧ ∀ u ∈ e.name, u < 128 ∧ u ≠ 0)
    (hcoh : ∀ e ∈ a.entries, e.coherent) :
    ∃ a1, sync a = .ok () a1 ∧
      (a._version = .VER2 → ∀ b : IMGArchive, b._imgData = a1._imgData →
        (_readHeaderVer2 toLowerCase b).entries.map entryTriple = a.entries.map entryTriple) ∧
      (a._version = .VER1 → ∀ b : IMGArchive, b._dirData = a1._dirData →
        (_readHeaderVer1 toLowerCase b).entries.map entryTriple =
          a.entries.map entryTriple) := by
  have hf : ∀ e ∈ a.entries, e.hasField := fun e he => (hcoh e he).1
  have hn : a.entries.length = a._entries.length := by simp [IMGArchive.entries]
  have hsorted2 : (a.entries.map reparsed).Sorted offsetLE := by
    unfold List.Sorted
    rw [List.pairwise_map]
    refine List.Pairwise.imp_of_mem ?_ hsorted
    intro x y hx hy hxy
    unfold offsetLE at hxy ⊢
    simp only [reparsed, Nat.mod_eq_of_lt (hbound x hx).1, Nat.mod_eq_of_lt (hbound y hy).1]
    exact hxy
  have htriple : (a.entries.map reparsed).map entryTriple = a.entries.map entryTriple := by
    rw [List.map_map]
    apply List.map_congr_left
    intro e he
    exact entryTriple_reparsed e (hcoh e he) (hbound e he) (hname e he)
  have hnm : a._mode ≠ .READ_ONLY := by rw [hm]; decide
  have hcases : a._version = .VER1 ∨ a._version = .VER2 := by
    cases a._version
    · exact Or.inl rfl
    · exact Or.inr rfl
  rcases hcases with hv | hv
  · refine ⟨_, by unfold sync; rw [if_neg hnm, rewriteHeaderSection_ver1_eq a hv hf], ?_, ?_⟩
    · intro h2
      rw [hv] at h2
      cases h2
    · intro _ b hb
      rw [readHeaderVer1_entries, hb]
      simp only []
      rw [recordsVer1_recordsBytes _ hf, hsorted2.insertionSort_eq, htriple]
  · refine ⟨_, by unfold sync; rw [if_neg hnm, rewriteHeaderSection_ver2_eq a hv hf], ?_, ?_⟩
    · intro _ b hb
      rw [readHeaderVer2_entries, hb]
      simp only []
      rw [recordsVer2_headerBytes _ _ hf (by rw [hn]; exact hcount),
        hsorted2.insertionSort_eq, htriple]
    · intro h2
      rw [hv] at h2
      cases h2

theorem sampleArchive_coherent : ∀ e ∈ sampleArchive.entries, e.coherent := by
  rw [sampleArchive_entries]
  decide

/-- Instance of `table_reparses`: the scenario archive (unified layout)
holding `a.txt` and `b.txt`. -/
theorem table_reparses_witness :
    ∃ a1, sync sampleArchive = .ok () a1 ∧
      (sampleArchive._version = .VER2 → ∀ b : IMGArchive, b._imgData = a1._imgData →
        (_readHeaderVer2 asciiLower b).entries.map entryTriple =
          sampleArchive.entries.map entryTriple) ∧
      (sampleArchive._version = .VER1 → ∀ b : IMGArchive, b._dirData = a1._dirData →
        (_readHeaderVer1 asciiLower b).entries.map entryTriple =
          sampleArchive.entries.map entryTriple) :=
  table_reparses asciiLower sampleArchive rfl (by decide)
    (by rw [sampleArchive_entries]; decide)
    (by rw [sampleArchive_entries]; decide)
    (by rw [sampleArchive_entries]; decide)
    sampleArchive_coherent

/-! ## `sync` and the payloads -/

theorem writeRecord_length (buf : List Byte) (pos : Nat) (e : IMGEntry) :
    (writeRecord buf pos e).1.length = buf.length := by
  unfold writeRecord
  split
  · rfl
  · rename_i b1 h1
    split
    · exact length_setBytes h1
    · rename_i b2 h2
      split
      · exact (length_setBytes h2).trans (length_setBytes h1)
      · split
        · exact (length_setBytes h2).trans (length_setBytes h1)
        · rename_i b3 h3
          exact (length_setBytes h3).trans ((length_setBytes h2).trans (length_setBytes h1))

theorem writeRecords_length (base : Nat) (es : List IMGEntry) (buf : List Byte) (i : Nat) :
    (writeRecords base buf i es).1.length = buf.length := by
  induction es generalizing buf i with
  | nil => rfl
  | cons e rest ih =>
    unfold writeRecords
    have hl := writeRecord_length buf (base + i * ENTRY_SIZE) e
    cases hw : writeRecord buf (base + i * ENTRY_SIZE) e with
    | mk b flag =>
      rw [hw] at hl
      cases flag with
      | false => exact hl
      | true =>
        simp only []
        rw [ih b (i + 1)]
        exact hl

/-- On the unified layout `_rewriteHeaderSection`, returning or raising, does
not shorten the data buffer and leaves every byte from position
`8 + 32 * count` on as it was. -/
theorem rewriteHeaderSection_ver2_bytes (a : IMGArchive) (hv : a._version = .VER2) :
    a._imgData.length ≤ (_rewriteHeaderSection a).state._imgData.length ∧
    ∀ j, 8 + 32 * a._entries.length ≤ j → j < a._imgData.length →
      (_rewriteHeaderSection a).state._imgData[j]? = a._imgData[j]? := by
  have hgrow : ∀ j, j < a._imgData.length →
      (a._imgData ++ zeros ((8 + a._entries.length * ENTRY_SIZE) * BLOCK_SIZE -
        a._imgData.length))[j]? = a._imgData[j]? :=
    fun j hj => List.getElem?_append_left hj
  have hlen : a._imgData.length ≤
      (a._imgData ++ zeros ((8 + a._entries.length * ENTRY_SIZE) * BLOCK_SIZE -
        a._imgData.length)).length := by
    rw [List.length_append]; omega
  have hent : ∀ img, ({ a with _imgData := img } : IMGArchive).entries = a.entries :=
    fun _ => rfl
  unfold _rewriteHeaderSection
  rw [if_pos hv]
  simp only [ensureImgSize_eq, hent]
  split
  · exact ⟨hlen, fun j _ hj => hgrow j hj⟩
  · rename_i x1 h1
    split
    · exact ⟨hlen, fun j _ hj => hgrow j hj⟩
    · rename_i x2 h2
      have hx2 : x2.length = 8 + a._entries.length * ENTRY_SIZE := by
        rw [length_setBytes h2, length_setBytes h1, zeros_length]
      split
      · exact ⟨hlen, fun j _ hj => hgrow j hj⟩
      · rename_i header hw
        have hh : header.length = 8 + a._entries.length * ENTRY_SIZE := by
          have := writeRecords_length 8 a.entries x2 0
          rw [hw] at this
          exact this.trans hx2
        split
        · exact ⟨hlen, fun j _ hj => hgrow j hj⟩
        · rename_i img himg
          refine ⟨by simp only [Res.state]; rw [length_setBytes himg]; exact hlen, ?_⟩
          intro j hj1 hj2
          simp only [Res.state]
          rw [getElem?_setBytes himg, if_neg (by omega),
            if_neg (by rw [hh, ENTRY_SIZE]; omega)]
          exact hgrow j hj2

theorem rewriteHeaderSection_ver1_imgData (a : IMGArchive) (hv : a._version = .VER1) :
    (_rewriteHeaderSection a).state._imgData = a._imgData := by
  unfold _rewriteHeaderSection
  rw [if_neg (by rw [hv]; decide)]
  simp only []
  split
  · rfl
  · split <;> rfl

theorem sync_state_imgData (a : IMGArchive) :
    (sync a).state._imgData = a._imgData ∨
    (sync a).state._imgData = (_rewriteHeaderSection a).state._imgData := by
  unfold sync
  split
  · left; rfl
  · right
    cases _rewriteHeaderSection a <;> rfl

theorem sync_state_frame (a : IMGArchive) :
    (sync a).state.heap = a.heap ∧ (sync a).state._entries = a._entries ∧
    (sync a).state._mode = a._mode := by
  obtain ⟨img, dir, flag, h, -⟩ := sync_state a
  rw [h]
  exact ⟨rfl, rfl, rfl⟩

/-- C29: `sync` does not damage payloads when the header fits.  On a writable
archive of the unified layout in which every table entry's byte offset is at
least `8 + 32 * count` and every table entry lies within the data buffer, and
on every writable archive of the split layout, `readEntryData` of every table
entry gives the same result after `sync()` as before, and no entry object
(offset, size, name) nor the table changes; this holds whether `sync` returns
or raises, and it returns whenever every table entry has its 24-byte name
field. -/
theorem sync_keeps_payloads (a : IMGArchive) (hm : a._mode = .READ_WRITE) :
    (a._version = .VER2 →
      (∀ r ∈ a._entries, 8 + 32 * a.entryCount ≤ (a.heap r).offset * 2048) →
      InBounds a._imgData a.entries →
      ∀ r ∈ a._entries, readEntryData (sync a).state (some r) = readEntryData a (some r)) ∧
    (a._version = .VER1 →
      ∀ r, readEntryData (sync a).state (some r) = readEntryData a (some r)) ∧
    (sync a).state.heap = a.heap ∧ (sync a).state._entries = a._entries ∧
    ((∀ e ∈ a.entries, e.hasField) → ∃ a1, sync a = .ok () a1) := by
  obtain ⟨hheap, hent, -⟩ := sync_state_frame a
  refine ⟨?_, ?_, hheap, hent, ?_⟩
  · intro hv hoff hb r hr
    have he := hb (a.heap r) (List.mem_map.mpr ⟨r, hr, rfl⟩)
    have ho := hoff r hr
    simp only [IMGArchive.entryCount] at ho
    simp only [IMGEntry.offsetInBytes, IMGEntry.sizeInBytes, BLOCK_SIZE] at he
    have hbytes : a._imgData.length ≤ (sync a).state._imgData.length ∧
        ∀ j, 8 + 32 * a._entries.length ≤ j → j < a._imgData.length →
          (sync a).state._imgData[j]? = a._imgData[j]? := by
      rcases sync_state_imgData a with h | h
      · rw [h]
        exact ⟨le_refl _, fun _ _ _ => rfl⟩
      · rw [h]
        exact rewriteHeaderSection_ver2_bytes a hv
    simp only [readEntryData, hheap]
    have h1 : readData (sync a).state._imgData (a.heap r) =
        .ok (slice (sync a).state._imgData (a.heap r).offsetInBytes
          ((a.heap r).offsetInBytes + (a.heap r).sizeInBytes)) :=
      readData_ok (by
        simp only [IMGEntry.offsetInBytes, IMGEntry.sizeInBytes, BLOCK_SIZE]
        omega)
    have h2 : readData a._imgData (a.heap r) =
        .ok (slice a._imgData (a.heap r).offsetInBytes
          ((a.heap r).offsetInBytes + (a.heap r).sizeInBytes)) :=
      readData_ok (by
        simp only [IMGEntry.offsetInBytes, IMGEntry.sizeInBytes, BLOCK_SIZE]
        omega)
    rw [h1, h2]
    simp only [IMGEntry.offsetInBytes, IMGEntry.sizeInBytes, BLOCK_SIZE]
    congr 2
    apply List.ext_getElem?
    intro i
    rw [getElem?_slice, getElem?_slice]
    by_cases hi : (a.heap r).offset * 2048 + i <
        (a.heap r).offset * 2048 + (a.heap r).size * 2048
    · rw [if_pos hi, if_pos hi]
      exact hbytes.2 _ (by omega) (by omega)
    · rw [if_neg hi, if_neg hi]
  · intro hv r
    have himg : (sync a).state._imgData = a._imgData := by
      rcases sync_state_imgData a with h | h
      · exact h
      · rw [h]
        exact rewriteHeaderSection_ver1_imgData a hv
    simp only [readEntryData, hheap, himg]
  · intro hf
    obtain ⟨img, dir, h⟩ := sync_ok a hm hf
    exact ⟨_, h⟩

theorem sampleArchive_hasField : ∀ e ∈ sampleArchive.entries, e.hasField :=
  fun e he => (sampleArchive_coherent e he).1

/-- Instance of `sync_keeps_payloads`: the scenario archive holding `a.txt`
at block 1 and `b.txt` at block 4, whose header needs 72 bytes. -/
theorem sync_keeps_payloads_witness :
    (∀ r ∈ sampleArchive._entries,
      readEntryData (sync sampleArchive).state (some r) = readEntryData sampleArchive (some r)) ∧
    (sync sampleArchive).state.heap = sampleArchive.heap ∧
    (sync sampleArchive).state._entries = sampleArchive._entries ∧
    ∃ a1, sync sampleArchive = .ok () a1 :=
  ⟨(sync_keeps_payloads sampleArchive rfl).1 rfl
      (by
        intro r hr
        have hen : sampleArchive._entries = [0, 1] := rfl
        rw [hen] at hr
        simp only [List.mem_cons, List.mem_singleton, List.not_mem_nil, or_false] at hr
        rcases hr with rfl | rfl
        · rw [sampleArchive_heap.1]; decide
        · rw [sampleArchive_heap.2]; decide)
      sampleArchive_inBounds,
    (sync_keeps_payloads sampleArchive rfl).2.2.1,
    (sync_keeps_payloads sampleArchive rfl).2.2.2.1,
    (sync_keeps_payloads sampleArchive rfl).2.2.2.2 sampleArchive_hasField⟩

/-! ## The dirty flag -/

theorem addEntry_ok_dirty (toLowerCase : JSString → JSString) (a : IMGArchive)
    (name : JSString) (data : List Byte) (r : Ref) (a1 : IMGArchive)
    (h : addEntry toLowerCase a name data = .ok r a1) : a1._hasUnsavedChanges = true := by
  by_cases hm : a._mode = .READ_ONLY
  · unfold addEntry at h
    rw [if_pos hm] at h
    cases h
  by_cases hl : name.length > MAX_NAME_LENGTH
  · unfold addEntry at h
    rw [if_neg hm, if_pos hl] at h
    cases h
  by_cases hf : nameFits name
  · rw [addEntry_eq toLowerCase a name data hm (by omega) hf] at h
    cases h
    rfl
  · unfold addEntry at h
    rw [if_neg hm, if_neg hl] at h
    simp only [reserveHeaderSpace_fst, Bool.true_eq_false, if_false] at h
    obtain ⟨e, he⟩ := setName_new_throw
      (_getDataEndOffset (_reserveHeaderSpace a (a._entries.length + 1)).2)
      (bytesToBlocks data.length) name hf
    rw [he] at h
    cases h

theorem writeEntryData_ok_dirty (toLowerCase : JSString → JSString) (a : IMGArchive)
    (name : JSString) (data : List Byte) (a1 : IMGArchive)
    (h : writeEntryData toLowerCase a name data = .ok () a1) :
    a1._hasUnsavedChanges = true := by
  unfold writeEntryData at h
  split at h
  · cases h
  split at h
  · cases h
  simp only [] at h
  split at h
  · cases h
  split at h
  · cases h
  · split at h
    · split at h
      · cases h
      · cases h; rfl
    · cases h; rfl

theorem renameEntry_ok_dirty (toLowerCase : JSString → JSString) (a : IMGArchive)
    (oldName newName : JSString) (a1 : IMGArchive)
    (h : renameEntry toLowerCase a oldName newName = .ok () a1) :
    a1._hasUnsavedChanges = true := by
  unfold renameEntry at h
  split at h
  · cases h
  split at h
  · cases h
  split at h
  · cases h
  · simp only [] at h
    split at h
    · cases h
    · cases h; rfl

theorem removeEntry_true_dirty (toLowerCase : JSString → JSString) (a : IMGArchive)
    (name : JSString) (a1 : IMGArchive)
    (h : removeEntry toLowerCase a name = .ok true a1) : a1._hasUnsavedChanges = true := by
  unfold removeEntry at h
  split at h
  · cases h
  simp only [] at h
  split at h
  · cases h
  · cases h; rfl

/-- C23: the dirty flag.  On a writable archive every returning `addEntry`,
`writeEntryData` and `renameEntry`, every `removeEntry` that returns true and
every returning `pack` of a non-empty table leaves `hasUnsavedChanges` true;
`sync()` returns when every table entry has its 24-byte name field, and every
returning `sync()` leaves the flag false and the archive writable, so that
the next returning mutation sets the flag again; `removeEntry` of a name that
no table entry has and `pack` of an empty table return with the archive, flag
included, unchanged. -/
theorem dirty_flag (toLowerCase : JSString → JSString) (a : IMGArchive)
    (hm : a._mode = .READ_WRITE) :
    (∀ name data r a1, addEntry toLowerCase a name data = .ok r a1 →
      a1._hasUnsavedChanges = true) ∧
    (∀ name data a1, writeEntryData toLowerCase a name data = .ok () a1 →
      a1._hasUnsavedChanges = true) ∧
    (∀ oldName newName a1, renameEntry toLowerCase a oldName newName = .ok () a1 →
      a1._hasUnsavedChanges = true) ∧
    (∀ name a1, removeEntry toLowerCase a name = .ok true a1 →
      a1._hasUnsavedChanges = true) ∧
    (∀ ret a1, a._entries ≠ [] → pack toLowerCase a = .ok ret a1 →
      a1._hasUnsavedChanges = true) ∧
    ((∀ e ∈ a.entries, e.hasField) → ∃ a1, sync a = .ok () a1) ∧
    (∀ a1, sync a = .ok () a1 →
      a1._hasUnsavedChanges = false ∧ a1._mode = .READ_WRITE) ∧
    (∀ name, (∀ r ∈ a._entries, toLowerCase (a.heap r).name ≠ toLowerCase name) →
      removeEntry toLowerCase a name = .ok false a) ∧
    (a._entries = [] → pack toLowerCase a = .ok a._headerReservedSpace a) := by
  have hnm : a._mode ≠ .READ_ONLY := by rw [hm]; decide
  refine ⟨addEntry_ok_dirty toLowerCase a, writeEntryData_ok_dirty toLowerCase a,
    renameEntry_ok_dirty toLowerCase a, removeEntry_true_dirty toLowerCase a, ?_, ?_, ?_, ?_, ?_⟩
  · intro ret a1 hne h
    obtain ⟨img, -, rfl, -⟩ := pack_ok_eq toLowerCase a a1 ret h hne
    rfl
  · intro hf
    obtain ⟨img, dir, h⟩ := sync_ok a hm hf
    exact ⟨_, h⟩
  · intro a1 h
    have hmode := (sync_state_frame a).2.2
    rw [h] at hmode
    simp only [Res.state] at hmode
    refine ⟨?_, hmode.trans hm⟩
    unfold sync at h
    rw [if_neg hnm] at h
    split at h
    · cases h
    · cases h; rfl
  · intro name hno
    unfold removeEntry
    rw [if_neg hnm]
    have hnone : a._entries.findIdx?
        (fun r => decide (toLowerCase (a.heap r).name = toLowerCase name)) = none := by
      rw [List.findIdx?_eq_none_iff]
      intro r hr
      simpa using hno r hr
    simp only [hnone]
  · intro he
    unfold pack
    rw [if_neg hnm, if_pos (by rw [he]; rfl)]

/-- Instance of `dirty_flag`: on the archive holding `Foo`, `sync()` returns
and clears the flag, and `removeEntry('a.txt')` finds nothing and changes
nothing. -/
theorem dirty_flag_witness :
    (∃ a1, sync fooArchive = .ok () a1) ∧
    (∀ a1, sync fooArchive = .ok () a1 →
      a1._hasUnsavedChanges = false ∧ a1._mode = .READ_WRITE) ∧
    removeEntry asciiLower fooArchive aTxt = .ok false fooArchive :=
  ⟨(dirty_flag asciiLower fooArchive rfl).2.2.2.2.2.1 (by
      intro e he
      have h : fooArchive.entries =
          [namedEntry (addOffset (createArchive .VER2)) (bytesToBlocks 3) [70, 111, 111]] := rfl
      rw [h, List.mem_singleton] at he
      subst he
      decide),
    (dirty_flag asciiLower fooArchive rfl).2.2.2.2.2.2.1,
    (dirty_flag asciiLower fooArchive rfl).2.2.2.2.2.2.2.1 aTxt (by
      intro r hr
      have hen : fooArchive._entries = [0] := rfl
      rw [hen, List.mem_singleton] at hr
      subst hr
      decide)⟩

/-! ## The header can grow over the first payload -/

theorem namedEntry_hasField (offset size : Nat) (name : JSString) (h : nameFits name) :
    (namedEntry offset size name).hasField := by
  unfold nameFits at h
  simp only [IMGEntry.hasField, namedEntry, Option.map_some', List.length_append, zeros_length,
    Option.some.injEq]
  omega

theorem readEntry_headerBytes (es : List IMGEntry) (rest : List Byte) (k : Nat)
    (hf : ∀ e ∈ es, e.hasField) (hk : k < es.length) :
    _readEntry (headerBytes es ++ rest) (8 + 32 * k) = reparsed es[k] := by
  have hsplit : headerBytes es ++ rest =
      (VER2_MAGIC ++ uint32Bytes es.length) ++ (recordsBytes es ++ rest) := by
    simp only [headerBytes, List.append_assoc]
  have hfront : (VER2_MAGIC ++ uint32Bytes es.length).length = 8 := rfl
  rw [hsplit, ← hfront, readEntry_append_right]
  exact readEntry_records es rest k hf hk

theorem seqName_fits (k : Nat) (hk : k < 100) : nameFits (seqName k) := by
  apply nameFits_of_ascii
  intro u hu
  simp only [seqName, List.mem_cons, List.mem_singleton, List.not_mem_nil, or_false] at hu
  omega

/-- The state after `k` of the 64 calls: the table holds the references
`0, ..., k - 1`, entry `i` is named `seqName i` and occupies block `1 + i`,
and from the first call on the data buffer has `k + 1` blocks and the byte 1
at position 2048. -/
theorem addSequence_facts (k : Nat) (hk : k ≤ 64) :
    (addSequence k)._mode = .READ_WRITE ∧ (addSequence k)._version = .VER2 ∧
    (addSequence k)._entries = List.range k ∧ (addSequence k).nextRef = k ∧
    (∀ i, i < k → (addSequence k).heap i = namedEntry (1 + i) 1 (seqName i)) ∧
    (1 ≤ k → (addSequence k)._imgData.length = (k + 1) * 2048 ∧
      (addSequence k)._imgData[2048]? = some 1) ∧
    (∀ j, k = j + 1 →
      addEntry asciiLower (addSequence j) (seqName j) [1] = .ok j (addSequence k)) := by
  induction k with
  | zero =>
    refine ⟨rfl, rfl, rfl, rfl, ?_, ?_, ?_⟩
    · intro i hi; omega
    · intro h; omega
    · intro j hj; omega
  | succ k ih =>
    obtain ⟨hmode, hver, hent, hnext, hheap, himg, -⟩ := ih (by omega)
    have hfit : nameFits (seqName k) := seqName_fits k (by omega)
    have hadd := addEntry_eq asciiLower (addSequence k) (seqName k) [1]
      (by rw [hmode]; decide) (by show (3 : Nat) ≤ 23; decide) hfit
    have hstep : addSequence (k + 1) =
        addEntryState asciiLower (addSequence k) (seqName k) [1] := by
      show (addEntry asciiLower (addSequence k) (seqName k) [1]).state = _
      rw [hadd]
      rfl
    have hsz : bytesToBlocks ([1] : List Byte).length = 1 := by decide
    have hoff : addOffset (addSequence k) = 1 + k := by
      unfold addOffset
      rw [reserveHeaderSpace_snd]
      unfold _getDataEndOffset
      simp only [hent, List.length_range, hver, if_true]
      cases k with
      | zero => decide
      | succ j =>
        rw [if_neg (by omega)]
        have hget : (List.range (j + 1)).getD (j + 1 - 1) 0 = j := by
          rw [List.getD_eq_getElem?_getD, Nat.add_sub_cancel,
            List.getElem?_range (by omega)]
          rfl
        simp only [hget]
        rw [hheap j (by omega)]
        simp only [namedEntry]
        omega
    have hlen0 : k = 0 → (addSequence k)._imgData.length = 8 := by
      intro h0
      subst h0
      decide
    have hnewlen : (addSequence (k + 1))._imgData.length = (k + 1 + 1) * 2048 := by
      rw [hstep]
      have : (addEntryState asciiLower (addSequence k) (seqName k) [1])._imgData =
          addImgData (addSequence k) [1] := rfl
      rw [this, addImgData_length, hoff, hsz, BLOCK_SIZE]
      rcases Nat.eq_zero_or_pos k with h0 | hpos
      · rw [hlen0 h0, h0]; decide
      · rw [(himg hpos).1]; omega
    refine ⟨?_, ?_, ?_, ?_, ?_, ?_, ?_⟩
    · rw [hstep]; exact hmode
    · rw [hstep]; exact hver
    · rw [hstep]
      simp only [addEntryState, hent, hnext, List.range_succ]
    · rw [hstep]
      simp only [addEntryState, hnext]
    · intro i hi
      rw [hstep]
      simp only [addEntryState, heapSet, hnext]
      by_cases hik : i = k
      · subst hik
        rw [if_pos rfl, hoff, hsz]
      · rw [if_neg hik]
        exact hheap i (by omega)
    · intro _
      refine ⟨hnewlen, ?_⟩
      rw [hstep]
      have : (addEntryState asciiLower (addSequence k) (seqName k) [1])._imgData =
          addImgData (addSequence k) [1] := rfl
      rw [this]
      simp only [addImgData, hoff, hsz, BLOCK_SIZE]
      rcases Nat.eq_zero_or_pos k with h0 | hpos
      · have hl := hlen0 h0
        subst h0
        have htl : (List.take ((1 + 0) * 2048)
            ((addSequence 0)._imgData ++
              zeros ((1 + 0 + 1) * 2048 - (addSequence 0)._imgData.length))).length = 2048 := by
          rw [List.length_take, List.length_append, zeros_length, hl]
          decide
        rw [List.append_assoc, List.append_assoc,
          List.getElem?_append_right (by rw [htl]), htl, Nat.sub_self,
          List.singleton_append, List.getElem?_cons_zero]
      · obtain ⟨hl, hb⟩ := himg hpos
        rw [List.append_assoc, List.append_assoc,
          List.getElem?_append_left (by
            rw [List.length_take, List.length_append, zeros_length, hl]; omega),
          List.getElem?_take_of_lt (by omega),
          List.getElem?_append_left (by rw [hl]; omega)]
        exact hb
    · intro j hj
      have : j = k := by omega
      subst this
      rw [hstep]
      have h2 := hadd
      rw [hnext] at h2
      exact h2

theorem addSequence_reachable (k : Nat) : ReachableBy asciiLower anyCall (addSequence k) := by
  induction k with
  | zero => exact .create .VER2
  | succ k ih => exact .step (.addEntry (seqName k) [1]) ih trivial

/-- What follows for any unified archive whose table holds 64 one-block
entries from block 1 on, the last one named `f63`, and whose first payload
byte is 1. -/
theorem overlap_of_facts (a : IMGArchive) (hmode : a._mode = .READ_WRITE)
    (hver : a._version = .VER2) (hent : a._entries = List.range 64)
    (hheap : ∀ i, i < 64 → a.heap i = namedEntry (1 + i) 1 (seqName i))
    (himg : 1 ≤ 64 → a._imgData.length = (64 + 1) * 2048 ∧ a._imgData[2048]? = some 1) :
    a._entries.head? = some 0 ∧
    (∃ d, readEntryData a (some 0) = .ok (some d) ∧ d[0]? = some 1) ∧
    ∃ a1, sync a = .ok () a1 ∧
      a1._entries = a._entries ∧ a1.heap = a.heap ∧
      (a1.heap 0).offset * 2048 < 8 + 32 * a1.entryCount ∧
      ∃ d1, readEntryData a1 (some 0) = .ok (some d1) ∧ d1[0]? = some 0 := by
  have h0 : a.heap 0 = namedEntry 1 1 (seqName 0) := hheap 0 (by decide)
  have h63 : a.heap 63 = namedEntry 64 1 (seqName 63) := hheap 63 (by decide)
  obtain ⟨hlen, hbyte⟩ := himg (by decide)
  have hf : ∀ e ∈ a.entries, e.hasField := by
    intro e he
    obtain ⟨i, hi, rfl⟩ := List.mem_map.mp he
    rw [hent, List.mem_range] at hi
    rw [hheap i hi]
    exact namedEntry_hasField _ _ _ (seqName_fits i (by omega))
  have hn : a.entries.length = 64 := by
    rw [IMGArchive.entries, List.length_map, hent, List.length_range]
  have hoff : (namedEntry 1 1 (seqName 0)).offsetInBytes = 2048 := rfl
  have hsize : (namedEntry 1 1 (seqName 0)).sizeInBytes = 2048 := rfl
  refine ⟨by rw [hent]; rfl, ?_, ?_⟩
  · refine ⟨slice a._imgData 2048 (2048 + 2048), ?_, ?_⟩
    · simp only [readEntryData, h0]
      rw [readData_ok (by rw [hoff, hsize, hlen]; decide), hoff, hsize]
    · rw [getElem?_slice, if_pos (by decide)]
      exact hbyte
  · obtain ⟨img, himgdef⟩ : ∃ img, img = headerBytes a.entries ++
        (a._imgData ++ zeros ((8 + 32 * a._entries.length) * 2048 - a._imgData.length)).drop
          (8 + 32 * a._entries.length) := ⟨_, rfl⟩
    have hsync : sync a = .ok () { a with _imgData := img, _hasUnsavedChanges := false } := by
      unfold sync
      rw [if_neg (by rw [hmode]; decide), rewriteHeaderSection_ver2_eq _ hver hf, himgdef]
    have hrec := readEntry_headerBytes a.entries
      ((a._imgData ++ zeros ((8 + 32 * a._entries.length) * 2048 - a._imgData.length)).drop
          (8 + 32 * a._entries.length)) 63 hf (by rw [hn]; decide)
    rw [← himgdef] at hrec
    have h63lt : 63 < a.entries.length := by rw [hn]; decide
    have h63e : a.entries[63] = namedEntry 64 1 (seqName 63) := by
      simp only [IMGArchive.entries, List.getElem_map, hent, List.getElem_range]
      exact h63
    rw [h63e] at hrec
    have hname := congrArg IMGEntry.nameBytes hrec
    have hslice : slice img 2032 2056 = [102, 54, 51] ++ zeros 21 := by
      have : (reparsed (namedEntry 64 1 (seqName 63))).nameBytes =
          some ([102, 54, 51] ++ zeros 21) := by decide
      rw [this] at hname
      exact Option.some.inj hname
    have hb2048 : img[2048]? = some 0 := by
      have h16 : (slice img 2032 2056)[16]? = some 0 := by
        rw [hslice]; decide
      rw [getElem?_slice, if_pos (by decide)] at h16
      exact h16
    have hilen : 4096 ≤ img.length := by
      rw [himgdef, List.length_append, List.length_drop, List.length_append, zeros_length,
        hent, List.length_range, hlen]
      omega
    refine ⟨_, hsync, rfl, rfl, ?_, slice img 2048 (2048 + 2048), ?_, ?_⟩
    · simp only [h0, namedEntry, IMGArchive.entryCount, hent, List.length_range]
      decide
    · simp only [readEntryData, h0]
      rw [readData_ok (by rw [hoff, hsize]; omega), hoff, hsize]
    · rw [getElem?_slice, if_pos (by decide)]
      exact hb2048

/-- C21: the header can overlap a live payload.  On an archive from
`createArchive` (unified layout), 64 calls `addEntry(name, [1])` with the
names `f00`, ..., `f63` all return; the first entry then sits at block 1 and
`readEntryData` of it returns a block whose first byte is the byte 1 that was
added.  `sync()` then returns without moving any entry, the header of
`8 + 32 * 64 = 2056` bytes extends past the first entry's byte offset 2048,
and `readEntryData` of the first entry returns a block whose first byte is 0:
a byte of the name field of the last record. -/
theorem header_overlaps_payload :
    ReachableBy asciiLower anyCall (addSequence 64) ∧
    (∀ k, k < 64 →
      addEntry asciiLower (addSequence k) (seqName k) [1] = .ok k (addSequence (k + 1))) ∧
    (addSequence 64)._entries.head? = some 0 ∧
    (∃ d, readEntryData (addSequence 64) (some 0) = .ok (some d) ∧ d[0]? = some 1) ∧
    ∃ a1, sync (addSequence 64) = .ok () a1 ∧
      a1._entries = (addSequence 64)._entries ∧ a1.heap = (addSequence 64).heap ∧
      (a1.heap 0).offset * 2048 < 8 + 32 * a1.entryCount ∧
      ∃ d1, readEntryData a1 (some 0) = .ok (some d1) ∧ d1[0]? = some 0 := by
  obtain ⟨hmode, hver, hent, -, hheap, himg, -⟩ := addSequence_facts 64 (Nat.le_refl 64)
  refine ⟨addSequence_reachable 64, ?_, ?_⟩
  · intro k hk
    exact (addSequence_facts (k + 1) (by omega)).2.2.2.2.2.2 k rfl
  · exact overlap_of_facts (addSequence 64) hmode hver hent hheap himg

/-! ## `addEntry` and the entries already there -/

theorem addOffset_of_ne_nil (a : IMGArchive) (h : a._entries ≠ []) :
    addOffset a = _getDataEndOffset a := by
  have hlen : a._entries.length ≠ 0 := fun h0 => h (List.length_eq_zero.mp h0)
  unfold addOffset
  rw [reserveHeaderSpace_snd]
  unfold _getDataEndOffset
  simp only [if_neg hlen]

theorem addOffset_of_nil (a : IMGArchive) (h : a._entries = []) : addOffset a = 1 := by
  unfold addOffset
  rw [reserveHeaderSpace_snd]
  unfold _getDataEndOffset
  simp only [h, List.length_nil, if_true]
  cases a._version <;> decide

/-- The bytes below the new entry's offset that were in the buffer stay. -/
theorem getElem?_addImgData (a : IMGArchive) (data : List Byte) (j : Nat)
    (h1 : j < addOffset a * BLOCK_SIZE) (h2 : j < a._imgData.length) :
    (addImgData a data)[j]? = a._imgData[j]? := by
  unfold addImgData
  simp only []
  rw [List.append_assoc, List.append_assoc,
    List.getElem?_append_left (by
      rw [List.length_take, List.length_append]; omega),
    List.getElem?_take_of_lt h1, List.getElem?_append_left h2]

/-- C22 (as amended): `addEntry` preserves the existing content.  On a
writable archive in which no table entry extends beyond the end of the last
table entry, a call `addEntry(name, data)` with a name of at most 23
characters whose encoding fits the name field returns; the new entry is
placed at the previous data end offset when the table is not empty and at
block 1 when it is empty, the data buffer does not get shorter, the table is
the old table followed by the new entry, every pre-existing entry object is
unchanged (offset, size, name), and `readEntryData` of every pre-existing
entry that lay within the data buffer returns the same bytes as before.  The
new entry object is assumed to be new (no table row refers to it yet). -/
theorem addEntry_preserves (toLowerCase : JSString → JSString) (a : IMGArchive)
    (name : JSString) (data : List Byte) (hm : a._mode = .READ_WRITE) (hfresh : FreshRefs a)
    (hl : name.length ≤ 23) (hfit : nameFits name)
    (hlast : ∀ e ∈ a.entries, e.offset + e.size ≤ _getDataEndOffset a) :
    ∃ a1, addEntry toLowerCase a name data = .ok a.nextRef a1 ∧
      (a1.heap a.nextRef).offset = (if a._entries = [] then 1 else _getDataEndOffset a) ∧
      a._imgData.length ≤ a1._imgData.length ∧
      a1._entries = a._entries ++ [a.nextRef] ∧
      (∀ r ∈ a._entries, a1.heap r = a.heap r) ∧
      (∀ r ∈ a._entries,
        (a.heap r).offsetInBytes + (a.heap r).sizeInBytes ≤ a._imgData.length →
        readEntryData a1 (some r) = readEntryData a (some r)) := by
  have hadd := addEntry_eq toLowerCase a name data (by rw [hm]; decide)
    (by rw [MAX_NAME_LENGTH]; exact hl) hfit
  have hlen : a._imgData.length ≤ (addImgData a data).length := by
    rw [addImgData_length]; omega
  have hheap : ∀ r ∈ a._entries,
      (addEntryState toLowerCase a name data).heap r = a.heap r :=
    fun r hr => heapSet_of_fresh hfresh _ hr
  refine ⟨_, hadd, ?_, hlen, rfl, hheap, ?_⟩
  · have hnew : (addEntryState toLowerCase a name data).heap a.nextRef =
        namedEntry (addOffset a) (bytesToBlocks data.length) name := by
      simp only [addEntryState, heapSet, if_true]
    rw [hnew]
    by_cases he : a._entries = []
    · rw [if_pos he]
      exact addOffset_of_nil a he
    · rw [if_neg he]
      exact addOffset_of_ne_nil a he
  · intro r hr hb
    have hne : a._entries ≠ [] := List.ne_nil_of_mem hr
    have hend := hlast (a.heap r) (List.mem_map.mpr ⟨r, hr, rfl⟩)
    rw [← addOffset_of_ne_nil a hne] at hend
    have hmul : ((a.heap r).offset + (a.heap r).size) * BLOCK_SIZE ≤ addOffset a * BLOCK_SIZE :=
      Nat.mul_le_mul_right _ hend
    rw [Nat.add_mul] at hmul
    simp only [readEntryData, hheap r hr]
    have himg : (addEntryState toLowerCase a name data)._imgData = addImgData a data := rfl
    rw [himg, readData_ok hb, readData_ok (Nat.le_trans hb hlen)]
    simp only [IMGEntry.offsetInBytes, IMGEntry.sizeInBytes] at hb ⊢
    congr 2
    apply List.ext_getElem?
    intro i
    rw [getElem?_slice, getElem?_slice]
    by_cases hi : (a.heap r).offset * BLOCK_SIZE + i <
        (a.heap r).offset * BLOCK_SIZE + (a.heap r).size * BLOCK_SIZE
    · rw [if_pos hi, if_pos hi]
      exact getElem?_addImgData a data _ (by omega) (by omega)
    · rw [if_neg hi, if_neg hi]

/-- Instance of `addEntry_preserves`: `addEntry('b.txt', [7])` on the archive
holding `Foo`. -/
theorem addEntry_preserves_witness :
    ∃ a1, addEntry asciiLower fooArchive bTxt [7] = .ok fooArchive.nextRef a1 ∧
      (a1.heap fooArchive.nextRef).offset =
        (if fooArchive._entries = [] then 1 else _getDataEndOffset fooArchive) ∧
      fooArchive._imgData.length ≤ a1._imgData.length ∧
      a1._entries = fooArchive._entries ++ [fooArchive.nextRef] ∧
      (∀ r ∈ fooArchive._entries, a1.heap r = fooArchive.heap r) ∧
      (∀ r ∈ fooArchive._entries,
        (fooArchive.heap r).offsetInBytes + (fooArchive.heap r).sizeInBytes ≤
          fooArchive._imgData.length →
        readEntryData a1 (some r) = readEntryData fooArchive (some r)) :=
  addEntry_preserves asciiLower fooArchive bTxt [7] rfl
    (by
      intro r hr
      have hen : fooArchive._entries = [0] := rfl
      rw [hen, List.mem_singleton] at hr
      subst hr
      decide)
    (by decide) (by decide)
    (by
      intro e he
      have h : fooArchive.entries =
          [namedEntry (addOffset (createArchive .VER2)) (bytesToBlocks 3) [70, 111, 111]] := rfl
      rw [h, List.mem_singleton] at he
      subst he
      decide)

/-- C22 fails as stated, in two ways.  (1) The archive opened for writing
from a unified file whose only record is at block 5, after `removeEntry` of
that entry, has an empty table and the data end offset 5; `addEntry` returns
and places the new entry at block 1, not 5.  (2) The archive opened for
writing from a unified file cut off after its header has one entry (block 1,
one block) that ends at the data end offset but lies beyond the 40-byte data
buffer, so `readEntryData` of it raises; `addEntry` returns, grows the
buffer, and `readEntryData` of that entry then returns bytes. -/
theorem addEntry_preserves_counterexample :
    (sparseArchive._mode = .READ_WRITE ∧ sparseArchive._entries = [] ∧
      _getDataEndOffset sparseArchive = 5 ∧
      ∃ r a1, addEntry asciiLower sparseArchive bTxt [7] = .ok r a1 ∧
        (a1.heap r).offset = 1) ∧
    (truncatedArchive._mode = .READ_WRITE ∧
      (∀ e ∈ truncatedArchive.entries,
        e.offset + e.size ≤ _getDataEndOffset truncatedArchive) ∧
      readEntryData truncatedArchive (some 0) = .error .outOfBounds ∧
      ∃ r a1 d, addEntry asciiLower truncatedArchive bTxt [7] = .ok r a1 ∧
        readEntryData a1 (some 0) = .ok (some d)) := by
  have h1 : sparseArchive._mode = .READ_WRITE ∧ sparseArchive._entries = [] ∧
      _getDataEndOffset sparseArchive = 5 ∧ sparseArchive.nextRef = 1 := by decide
  have h2 : truncatedArchive._mode = .READ_WRITE ∧
      (∀ e ∈ truncatedArchive.entries,
        e.offset + e.size ≤ _getDataEndOffset truncatedArchive) ∧
      truncatedArchive._imgData.length = 40 ∧
      truncatedArchive._entries = [0] ∧ truncatedArchive.nextRef = 1 ∧
      (truncatedArchive.heap 0).offset = 1 ∧ (truncatedArchive.heap 0).size = 1 ∧
      addOffset truncatedArchive = 2 := by decide
  obtain ⟨hm1, he1, hend1, hn1⟩ := h1
  obtain ⟨hm2, hlast2, hlen2, he2, hn2, ho2, hs2, hoff2⟩ := h2
  have hread2 : readEntryData truncatedArchive (some 0) = .error .outOfBounds := by
    simp only [readEntryData, readData, IMGEntry.offsetInBytes, IMGEntry.sizeInBytes, ho2,
      hs2, hlen2, BLOCK_SIZE]
    rfl
  refine ⟨⟨hm1, he1, hend1, ?_⟩, hm2, hlast2, hread2, ?_⟩
  · refine ⟨_, _, addEntry_eq asciiLower sparseArchive bTxt [7] (by rw [hm1]; decide)
      (by decide) (by decide), ?_⟩
    simp only [addEntryState, heapSet, if_true, namedEntry]
    exact addOffset_of_nil sparseArchive he1
  · have hlen : 3 * 2048 ≤ (addImgData truncatedArchive [7]).length := by
      rw [addImgData_length, hoff2]
      have : bytesToBlocks ([7] : List Byte).length = 1 := by decide
      rw [this, BLOCK_SIZE]
      omega
    have hheap : (addEntryState asciiLower truncatedArchive bTxt [7]).heap 0 =
        truncatedArchive.heap 0 := by
      simp only [addEntryState, heapSet, hn2]
      rw [if_neg (by decide)]
    refine ⟨_, _,
      slice (addImgData truncatedArchive [7]) (truncatedArchive.heap 0).offsetInBytes
        ((truncatedArchive.heap 0).offsetInBytes + (truncatedArchive.heap 0).sizeInBytes),
      addEntry_eq asciiLower truncatedArchive bTxt [7] (by rw [hm2]; decide)
        (by decide) (by decide), ?_⟩
    simp only [readEntryData, hheap]
    have himg : (addEntryState asciiLower truncatedArchive bTxt [7])._imgData =
        addImgData truncatedArchive [7] := rfl
    rw [himg, readData_ok (by
      simp only [IMGEntry.offsetInBytes, IMGEntry.sizeInBytes, ho2, hs2, BLOCK_SIZE]
      omega)]

/-! ## The reserved header value -/

theorem bytesToBlocks_mono {m n : Nat} (h : m ≤ n) : bytesToBlocks m ≤ bytesToBlocks n := by
  unfold bytesToBlocks BLOCK_SIZE
  omega

theorem bytesToBlocks_pos {n : Nat} (h : 0 < n) : 1 ≤ bytesToBlocks n := by
  unfold bytesToBlocks BLOCK_SIZE
  omega

/-- The table, the layout and the reserved header value `addEntry` leaves
when it raises; the closed form when it returns. -/
theorem addEntry_state_reserved (toLowerCase : JSString → JSString) (a : IMGArchive)
    (name : JSString) (data : List Byte) :
    ((addEntry toLowerCase a name data).state._entries = a._entries ∧
      (addEntry toLowerCase a name data).state._version = a._version ∧
      ((addEntry toLowerCase a name data).state._headerReservedSpace =
          a._headerReservedSpace ∨
        (addEntry toLowerCase a name data).state._headerReservedSpace =
          bytesToBlocks ((a._entries.length + 1) * ENTRY_SIZE +
            (if a._version = .VER2 then 8 else 0)))) ∨
    (addEntry toLowerCase a name data).state = addEntryState toLowerCase a name data := by
  by_cases hm : a._mode = .READ_ONLY
  · left
    unfold addEntry
    rw [if_pos hm]
    exact ⟨rfl, rfl, Or.inl rfl⟩
  by_cases hl : name.length > MAX_NAME_LENGTH
  · left
    unfold addEntry
    rw [if_neg hm, if_pos hl]
    exact ⟨rfl, rfl, Or.inl rfl⟩
  by_cases hf : nameFits name
  · right
    rw [addEntry_eq toLowerCase a name data hm (by omega) hf]
    rfl
  · left
    unfold addEntry
    rw [if_neg hm, if_neg hl]
    simp only [reserveHeaderSpace_fst, Bool.true_eq_false, if_false]
    obtain ⟨e, he⟩ := setName_new_throw
      (_getDataEndOffset (_reserveHeaderSpace a (a._entries.length + 1)).2)
      (bytesToBlocks data.length) name hf
    rw [he]
    simp [Res.state, reserveHeaderSpace_snd]

theorem reserved_step (toLowerCase : JSString → JSString) (a : IMGArchive) (c : Call)
    (h1 : 1 ≤ a._headerReservedSpace) (h2 : packHeaderSize a ≤ a._headerReservedSpace) :
    1 ≤ (runCall toLowerCase a c)._headerReservedSpace ∧
    packHeaderSize (runCall toLowerCase a c) ≤ (runCall toLowerCase a c)._headerReservedSpace := by
  cases c with
  | addEntry name data =>
    simp only [runCall]
    rcases addEntry_state_reserved toLowerCase a name data with ⟨he, hv, hr | hr⟩ | h
    · unfold packHeaderSize
      rw [he, hv, hr]
      exact ⟨h1, h2⟩
    · unfold packHeaderSize
      rw [he, hv, hr]
      exact ⟨bytesToBlocks_pos (by simp only [ENTRY_SIZE]; omega),
        bytesToBlocks_mono (by simp only [ENTRY_SIZE]; omega)⟩
    · rw [h]
      simp only [packHeaderSize, addEntryState, List.length_append, List.length_singleton]
      exact ⟨bytesToBlocks_pos (by simp only [ENTRY_SIZE]; omega), le_refl _⟩
  | writeEntryData name data =>
    simp only [runCall]
    obtain ⟨img, flag, h, -⟩ := writeEntryData_state toLowerCase a name data
    rw [h]
    exact ⟨h1, h2⟩
  | removeEntry name =>
    simp only [runCall]
    rcases removeEntry_state toLowerCase a name with h | ⟨index, hlt, -, h⟩
    · rw [h]; exact ⟨h1, h2⟩
    · rw [h]
      refine ⟨h1, Nat.le_trans ?_ h2⟩
      simp only [packHeaderSize]
      apply bytesToBlocks_mono
      have := (List.eraseIdx_sublist a._entries index).length_le
      simp only [ENTRY_SIZE]
      omega
  | renameEntry oldName newName =>
    simp only [runCall]
    rcases renameEntry_state toLowerCase a oldName newName with
      h | ⟨r, e1, -, -, -, -, ⟨-, h⟩ | ⟨-, h⟩⟩
    · rw [h]; exact ⟨h1, h2⟩
    · rw [h]; exact ⟨h1, h2⟩
    · rw [h]; exact ⟨h1, h2⟩
  | pack =>
    simp only [runCall]
    rcases pack_state toLowerCase a with h | ⟨img, hne, -, -, h⟩
    · rw [h]; exact ⟨h1, h2⟩
    · rw [h, packHeaderSize_packState]
      have hpos : 0 < a._entries.length := List.length_pos.mpr hne
      refine ⟨?_, le_refl _⟩
      simp only [packState, packHeaderSize]
      exact bytesToBlocks_pos (by simp only [ENTRY_SIZE]; omega)
  | sync =>
    simp only [runCall]
    obtain ⟨img, dir, flag, h, -⟩ := sync_state a
    rw [h]
    exact ⟨h1, h2⟩

theorem reachable_reserved {toLowerCase : JSString → JSString}
    {allowed : IMGArchive → Call → Prop} {a : IMGArchive}
    (h : ReachableBy toLowerCase allowed a) :
    1 ≤ a._headerReservedSpace ∧ packHeaderSize a ≤ a._headerReservedSpace := by
  induction h with
  | create version => cases version <;> decide
  | step c _ _ ih => exact reserved_step toLowerCase _ c ih.1 ih.2

/-- C25 (as amended): the reserved header value.  In every archive state
reachable from `createArchive` by `addEntry`, `removeEntry`, `renameEntry`
and `pack` (and `writeEntryData` and `sync`), returning or raising, the
reserved header value `_headerReservedSpace` is at least 1 and at least the
number of blocks the header of the current table needs,
`ceil((32 * count + 8) / 2048)` for the unified and `ceil(32 * count / 2048)`
for the split layout; a returning `addEntry` and a returning `pack` of a
non-empty table make it equal to that number, and after such a `pack` it is
the first entry's offset.  The getter `headerReservedSize` does not return
this value: it returns 0 for the split layout and for an empty table, and the
first entry's offset otherwise. -/
theorem reserved_header_value (toLowerCase : JSString → JSString) (a : IMGArchive)
    (h : ReachableBy toLowerCase anyCall a) :
    1 ≤ a._headerReservedSpace ∧
    bytesToBlocks (32 * a.entryCount + (if a._version = .VER2 then 8 else 0)) ≤
      a._headerReservedSpace ∧
    a.headerReservedSize =
      (if a._version = .VER1 then 0
       else ((a.entries.head?).map fun e => e.offset).getD 0) ∧
    (∀ name data r a1, addEntry toLowerCase a name data = .ok r a1 →
      a1._headerReservedSpace =
        bytesToBlocks (32 * a1.entryCount + (if a1._version = .VER2 then 8 else 0))) ∧
    (∀ ret a1, a._entries ≠ [] → pack toLowerCase a = .ok ret a1 →
      a1._headerReservedSpace =
        bytesToBlocks (32 * a1.entryCount + (if a1._version = .VER2 then 8 else 0)) ∧
      (a1.entries.head?).map (fun e => e.offset) = some a1._headerReservedSpace) := by
  obtain ⟨h1, h2⟩ := reachable_reserved h
  have hcomm : ∀ b : IMGArchive,
      bytesToBlocks (32 * b.entryCount + (if b._version = .VER2 then 8 else 0)) =
        packHeaderSize b := by
    intro b
    simp only [packHeaderSize, IMGArchive.entryCount, ENTRY_SIZE, Nat.mul_comm]
  refine ⟨h1, by rw [hcomm]; exact h2, ?_, ?_, ?_⟩
  · unfold IMGArchive.headerReservedSize IMGArchive.entries
    cases a._entries with
    | nil => simp
    | cons r rest => simp
  · intro name data r a1 hadd
    rw [hcomm]
    have hst := addEntry_state toLowerCase a name data
    rw [hadd] at hst
    simp only [Res.state] at hst
    rcases hst with ⟨he, -, hnr, -, -⟩ | ⟨hfit, heq⟩
    · exfalso
      by_cases hm : a._mode = .READ_ONLY
      · unfold addEntry at hadd
        rw [if_pos hm] at hadd
        cases hadd
      by_cases hl : name.length > MAX_NAME_LENGTH
      · unfold addEntry at hadd
        rw [if_neg hm, if_pos hl] at hadd
        cases hadd
      by_cases hf : nameFits name
      · rw [addEntry_eq toLowerCase a name data hm (by omega) hf] at hadd
        cases hadd
        simp only [addEntryState] at hnr
        omega
      · unfold addEntry at hadd
        rw [if_neg hm, if_neg hl] at hadd
        simp only [reserveHeaderSpace_fst, Bool.true_eq_false, if_false] at hadd
        obtain ⟨e, he2⟩ := setName_new_throw
          (_getDataEndOffset (_reserveHeaderSpace a (a._entries.length + 1)).2)
          (bytesToBlocks data.length) name hf
        rw [he2] at hadd
        cases hadd
    · rw [heq]
      simp only [packHeaderSize, addEntryState, List.length_append, List.length_singleton]
  · intro ret a1 hne hp
    obtain ⟨img, -, rfl, -⟩ := pack_ok_eq toLowerCase a a1 ret hp hne
    rw [hcomm]
    refine ⟨by rw [packHeaderSize_packState]; rfl, ?_⟩
    rw [packState_entries, layoutFrom_head]
    have hne2 := entries_ne_nil hne
    cases hl : a.entries with
    | nil => exact absurd hl hne2
    | cons e rest => rfl

/-- Instance of `reserved_header_value`: the state after
`addEntry('a.txt', [1, 2, 3])` and `pack()` on a new archive of the unified
layout. -/
theorem reserved_header_value_witness :
    1 ≤ (runCall asciiLower
      (runCall asciiLower (createArchive .VER2) (.addEntry aTxt [1, 2, 3]))
        .pack)._headerReservedSpace ∧
    (runCall asciiLower
      (runCall asciiLower (createArchive .VER2) (.addEntry aTxt [1, 2, 3]))
        .pack).headerReservedSize =
      (if (runCall asciiLower
          (runCall asciiLower (createArchive .VER2) (.addEntry aTxt [1, 2, 3]))
            .pack)._version = .VER1 then 0
       else (((runCall asciiLower
          (runCall asciiLower (createArchive .VER2) (.addEntry aTxt [1, 2, 3]))
            .pack).entries.head?).map fun e => e.offset).getD 0) :=
  ⟨(reserved_header_value asciiLower _
      (.step .pack (.step (.addEntry aTxt [1, 2, 3]) (.create .VER2) trivial) trivial)).1,
   (reserved_header_value asciiLower _
      (.step .pack (.step (.addEntry aTxt [1, 2, 3]) (.create .VER2) trivial) trivial)).2.2.1⟩

theorem reserved_of_facts (a b : IMGArchive) (r : Ref)
    (hver : b._version = .VER2) (hent : b._entries = List.range 63)
    (hmode : b._mode = .READ_WRITE)
    (hadd : addEntry asciiLower b (seqName 63) [1] = .ok r a)
    (hent2 : a._entries = List.range 64)
    (hheap : ∀ i, i < 64 → a.heap i = namedEntry (1 + i) 1 (seqName i)) :
    a._headerReservedSpace = 2 ∧ (a.entries.head?).map (fun e => e.offset) = some 1 := by
  constructor
  · rw [addEntry_eq asciiLower b (seqName 63) [1] (by rw [hmode]; decide)
      (by show (3 : Nat) ≤ 23; decide) (seqName_fits 63 (by decide))] at hadd
    simp only [Res.ok.injEq] at hadd
    rw [← hadd.2]
    simp only [addEntryState, hent, List.length_range, hver, if_true]
    decide
  · have h0 : a.heap 0 = namedEntry (1 + 0) 1 (seqName 0) := hheap 0 (by decide)
    rw [IMGArchive.entries, hent2, show (64 : Nat) = 63 + 1 from rfl, List.range_succ_eq_map]
    simp only [List.map_cons, List.head?_cons, Option.map_some', h0, namedEntry]

/-- C25 fails as stated.  Right after `createArchive` the reserved header
value of the split layout is 1, not 0, and the getter `headerReservedSize` of
the unified layout returns 0 for the empty table, not 1; after 64 calls of
`addEntry` on the unified layout the reserved header value is 2 while the
first entry is at block 1. -/
theorem reserved_header_value_counterexample :
    (ReachableBy asciiLower anyCall (createArchive .VER1) ∧
      (createArchive .VER1)._headerReservedSpace = 1) ∧
    (ReachableBy asciiLower anyCall (createArchive .VER2) ∧
      (createArchive .VER2)._entries = [] ∧ (createArchive .VER2).headerReservedSize = 0) ∧
    (ReachableBy asciiLower anyCall (addSequence 64) ∧
      (addSequence 64)._version = .VER2 ∧
      (addSequence 64)._headerReservedSpace = 2 ∧
      ((addSequence 64).entries.head?).map (fun e => e.offset) = some 1) := by
  obtain ⟨-, hver, hent, -, hheap, -, hadd⟩ := addSequence_facts 64 (Nat.le_refl 64)
  obtain ⟨hmode3, hver3, hent3, -, -, -, -⟩ := addSequence_facts 63 (by decide)
  have h := reserved_of_facts (addSequence 64) (addSequence 63) 63 hver3 hent3 hmode3
    (hadd 63 rfl) hent hheap
  exact ⟨⟨.create .VER1, rfl⟩, ⟨.create .VER2, rfl, rfl⟩, addSequence_reachable 64, hver, h.1,
    h.2⟩

end IMGTool
